import Mathlib

/-!
# LinkStatsMetricFilter (src/filter/link_stats_metric.go)

A shallow embedding of the link-stats metric filter and theorems about its
constructor, its ingestion (`updateMetric`, `Process`), its rotation tick, its
flattener (`metricToEvents`) and its drain (`EmitExtraEvents`).

Modelling conventions.

* A Go map is the list of its entries (`GoMap`); `GoMap.index` is the comma-ok
  read `v, ok := m[k]` and `GoMap.assign` is the write `m[k] = v`.  The order of
  the list stands for the unspecified iteration order of the Go map.
* A `float64` is a `Float64`: a finite value, given by the rational number it denotes, an
  infinity or NaN.  The sum and the quotient of two finite values are rounded to the
  nearest binary64 value, ties to even (`round64`), as IEEE 754 and Go prescribe; a result
  beyond the largest binary64 value is an infinity.  The two zeros of binary64 are one
  value, `finite 0` (no statement below depends on the sign of a zero), and a statement
  about all finite values holds in particular for those that are binary64 values.
* `int64` values are integers; every `int64` subtraction and multiplication of the
  source is followed by `int64`, the two's-complement wrap-around.  The Go
  remainder `%` truncates toward zero, which is `Int.tmod`.
* `time.Now().Unix()` is the explicit argument `now`.
* Go maps are references.  The bucket maps stored in `metric` and `metricToEmit`
  are copied by reference by the rotation tick, so both maps can hold the same
  bucket object.  The embedding keeps the bucket objects in `heap` and stores
  their addresses (`Ref`, an index of `heap`) in `metric` and `metricToEmit`.
  The maps below a bucket root are owned by exactly one parent entry (the source
  never copies such a reference into a second place), so they are embedded by
  value (`Node`), and an in-place mutation becomes a functional update.
* Every operation returns the plugin as it stands when the call returns or panics,
  together with the panic raised, if any (`none`: the call returned normally).  The
  writes made before a panic stay in the state, as they do in memory.
* The mutex is not part of the state: the operations run one after the other.  What
  each method does with the mutex and when it touches the shared maps is listed apart, as
  a sequence of `Op`.
* `BaseFilter.PostProcess` and the stack that `EmitExtraEvents` pushes to are not in
  this file of the repository: the hook is a parameter `postProcess`, and the stack is
  the list of the pushed events in the order of the pushes.
-/

namespace LinkStats

/-! ## Floating-point numbers -/

/-- A value of type `float64`: a finite value, given by the rational number it denotes, an
infinity with its sign, or NaN. -/
inductive Float64 where
  | finite (x : ℚ)
  | inf (negative : Bool)
  | nan
  deriving DecidableEq

namespace Float64

/-- The power `2 ^ e` of an integer exponent. -/
def pow2 (e : Int) : ℚ :=
  match e with
  | Int.ofNat n => ((2 ^ n : Nat) : ℚ)
  | Int.negSucc n => 1 / ((2 ^ (n + 1) : Nat) : ℚ)

/-- The binary logarithm of `n`, rounded down, by at most `fuel` halvings. -/
def log2Aux : Nat → Nat → Nat
  | 0, _ => 0
  | fuel + 1, n => if n < 2 then 0 else log2Aux fuel (n / 2) + 1

/-- The binary logarithm of a positive natural number, rounded down. -/
def log2 (n : Nat) : Nat := log2Aux n n

/-- The binary exponent of a rational number `x` that is not zero: the integer `e` with
`2 ^ e ≤ |x| < 2 ^ (e + 1)`.  The difference of the logarithms of numerator and denominator
is `e` or `e + 1`. -/
def exponent (x : ℚ) : Int :=
  let e0 : Int := (log2 x.num.natAbs : Int) - (log2 x.den : Int)
  if pow2 e0 ≤ |x| then e0 else e0 - 1

/-- The integer nearest to `x`; of two integers equally near, the even one. -/
def roundHalfEven (x : ℚ) : Int :=
  if x - ⌊x⌋ < 1 / 2 then ⌊x⌋
  else if 1 / 2 < x - ⌊x⌋ then ⌊x⌋ + 1
  else if ⌊x⌋ % 2 = 0 then ⌊x⌋ else ⌊x⌋ + 1

/-- Rounding of a real result to binary64, to nearest with ties to even: the result is a
multiple of `2 ^ (e - 52)`, where `e` is the exponent of `x` and at least -1022 (53
significant bits, gradual underflow); a rounded value of `2 ^ 1024` or more is an
infinity. -/
def round64 (x : ℚ) : Float64 :=
  if x = 0 then finite 0
  else
    let quantum := pow2 (max (exponent x) (-1022) - 52)
    let y := quantum * roundHalfEven (x / quantum)
    if pow2 1024 ≤ |y| then inf (decide (x < 0)) else finite y

/-- The `float64` sum `a + b`. -/
def add : Float64 → Float64 → Float64
  | finite a, finite b => round64 (a + b)
  | finite _, inf s => inf s
  | inf s, finite _ => inf s
  | inf s, inf t => if s = t then inf s else nan
  | nan, _ => nan
  | _, nan => nan

/-- The `float64` quotient `a / b`; a zero divisor is the positive zero. -/
def div : Float64 → Float64 → Float64
  | finite a, finite b =>
    if b = 0 then (if a = 0 then nan else inf (decide (a < 0))) else round64 (a / b)
  | finite _, inf _ => finite 0
  | inf s, finite b => inf (xor s (decide (b < 0)))
  | inf _, inf _ => nan
  | nan, _ => nan
  | _, nan => nan

instance : Add Float64 := ⟨add⟩

instance : Div Float64 := ⟨div⟩

/-- A numeral is the finite value of that whole number.  The numerals used below are
binary64 values: whole numbers below `2 ^ 53`, and `10 ^ 16`. -/
instance (n : Nat) : OfNat Float64 n := ⟨finite n⟩

/-- The rational number that a finite value denotes; 0 for an infinity and for NaN. -/
def toRat : Float64 → ℚ
  | finite x => x
  | _ => 0

/-- The value is finite and a whole number. -/
def isWhole : Float64 → Bool
  | finite x => decide (x.den = 1)
  | _ => false

end Float64

/-! ## Go maps -/

/-- A Go map, given by the list of its entries. -/
abbrev GoMap (κ α : Type) := List (κ × α)

namespace GoMap

variable {κ α : Type} [DecidableEq κ]

/-- The comma-ok read `v, ok := m[k]`: `none` when the key is absent. -/
def index : GoMap κ α → κ → Option α
  | [], _ => none
  | (k', v) :: m, k => if k' = k then some v else index m k

/-- The write `m[k] = v`: replaces the value of an existing key, adds the entry otherwise. -/
def assign : GoMap κ α → κ → α → GoMap κ α
  | [], k, v => [(k, v)]
  | (k', v') :: m, k, v => if k' = k then (k', v) :: m else (k', v') :: assign m k v

/-- The single-value read `m[k]` of a `map[string]float64`: the zero value when the key is absent. -/
def read0 (m : GoMap κ Float64) (k : κ) : Float64 := (index m k).getD 0

end GoMap

/-! ## Values -/

/-- Run-time panics of the Go code. -/
inductive Panic where
  | typeAssertion
  | nilDereference
  | divideByZero
  | indexOutOfRange
  | nonPositiveInterval
  deriving DecidableEq, Repr

deriving instance DecidableEq for Except

/-- The dynamic values (`interface{}`) carried by the attributes of an event and of an
emitted record.  A `time.Time` is observed only through `Unix()`.  For the code that reads
an event, `int` and `bool` stand for every dynamic type that is not nil, `float64`, `string`
or `time.Time`: such a value fails every type assertion and the `time.Time` test alike. -/
inductive Value where
  | nil
  | float64 (x : Float64)
  | string (s : String)
  | time (unix : Int)
  | int (n : Int)
  | bool (b : Bool)
  deriving DecidableEq

/-- An event, `map[string]interface{}`. -/
abbrev Event := GoMap String Value

/-- The single-value read `event[k]`: the nil interface when the key is absent. -/
def Event.read (event : Event) (k : String) : Value := (GoMap.index event k).getD Value.nil

/-- The values stored inside a bucket tree: a nested `map[string]interface{}` or the
terminal `map[string]float64` holding `count` and `sum`. -/
inductive Node where
  | mapSI (m : List (String × Node))
  | mapSF (m : List (String × Float64))

mutual
/-- Decidable equality of tree nodes. -/
def Node.decEq : (a b : Node) → Decidable (a = b)
  | .mapSI a, .mapSI b =>
    match Node.decEqList a b with
    | isTrue h => isTrue (by rw [h])
    | isFalse h => isFalse (by intro h'; cases h'; exact h rfl)
  | .mapSF a, .mapSF b =>
    if h : a = b then isTrue (by rw [h]) else isFalse (by intro h'; cases h'; exact h rfl)
  | .mapSI _, .mapSF _ => isFalse (by intro h; cases h)
  | .mapSF _, .mapSI _ => isFalse (by intro h; cases h)
/-- Decidable equality of the entry lists of tree nodes. -/
def Node.decEqList : (a b : List (String × Node)) → Decidable (a = b)
  | [], [] => isTrue rfl
  | [], _ :: _ => isFalse (by intro h; cases h)
  | _ :: _, [] => isFalse (by intro h; cases h)
  | (k, v) :: as, (k', v') :: bs =>
    if hk : k = k' then
      match Node.decEq v v' with
      | isTrue hv =>
        match Node.decEqList as bs with
        | isTrue ht => isTrue (by rw [hk, hv, ht])
        | isFalse ht => isFalse (by intro h; cases h; exact ht rfl)
      | isFalse hv => isFalse (by intro h; cases h; exact hv rfl)
    else isFalse (by intro h; cases h; exact hk rfl)
end

instance : DecidableEq Node := Node.decEq

/-- A bucket root, `map[string]interface{}`. -/
abbrev Bucket := GoMap String Node

/-- The address of a bucket object: its index in the heap. -/
abbrev Ref := Nat

/-! ## Machine integers -/

/-- Two's-complement wrap-around of an integer to the range of `int64`. -/
def int64 (x : Int) : Int := (x + 9223372036854775808) % 18446744073709551616 - 9223372036854775808

/-- The integer is a value of type `int64`. -/
def IsInt64 (x : Int) : Prop := -9223372036854775808 ≤ x ∧ x < 9223372036854775808

instance (x : Int) : Decidable (IsInt64 x) := by unfold IsInt64; infer_instance

/-- The statement `timestamp -= timestamp % batchWindow` (lines 107 and 160). -/
def windowStart (batchWindow timestamp : Int) : Int :=
  int64 (timestamp - Int.tmod timestamp batchWindow)

/-! ## The plugin -/

/-- The struct `LinkStatsMetricFilter`, without the base filter, the raw configuration and
the mutex.  `heap` holds the bucket objects that `metric` and `metricToEmit` refer to. -/
structure LinkStatsMetricFilter where
  timestamp : String
  batchWindow : Int
  reserveWindow : Int
  dropOriginalEvent : Bool
  windowOffset : Int
  accumulatateMode : Int
  fields : List String
  fieldsWithoutLast : List String
  lastField : String
  fieldsLength : Nat
  metric : GoMap Int Ref
  metricToEmit : GoMap Int Ref
  heap : List Bucket
  deriving DecidableEq

/-- The bucket object at an address.  An address outside the heap (which no Go value is)
reads as the empty map. -/
def deref (heap : List Bucket) (r : Ref) : Bucket := heap[r]?.getD []

/-- Lines 187-188 of `updateMetric`: one more sample in an existing stats map.  Both
additions are `float64` additions. -/
def addSample (stats : GoMap String Float64) (value : Float64) : GoMap String Float64 :=
  let stats1 := GoMap.assign stats "count" (1 + GoMap.read0 stats "count")
  GoMap.assign stats1 "sum" (value + GoMap.read0 stats1 "sum")

/-- Lines 190-192 of `updateMetric`: the stats map of a first sample. -/
def newStats (value : Float64) : GoMap String Float64 :=
  GoMap.assign (GoMap.assign [] "count" 1) "sum" value

/-- Lines 185-194 of `updateMetric`: the update of the terminal map `set`. -/
def updateLeaf (lastField : String) (value : Float64) (set : Bucket) :
    Bucket × Option Panic :=
  match GoMap.index set lastField with
  | some (Node.mapSF stats) =>
    (GoMap.assign set lastField (Node.mapSF (addSample stats value)), none)
  | some (Node.mapSI _) => (set, some Panic.typeAssertion)
  | none => (GoMap.assign set lastField (Node.mapSF (newStats value)), none)

/-- Lines 171-194 of `updateMetric`: the loop over `fieldsWithoutLast` starting at the map
`set`, followed by the update of the terminal map.  The result is the map `set` after the
in-place mutations made until the return (normal, or early on a missing grouping field) or
the panic. -/
def walk (event : Event) (lastField : String) (value : Float64) :
    List String → Bucket → Bucket × Option Panic
  | [], set => updateLeaf lastField value set
  | field :: rest, set =>
    match Event.read event field with
    | Value.nil => (set, none)
    | Value.string fieldValue =>
      match GoMap.index set fieldValue with
      | some (Node.mapSI child) =>
        let r := walk event lastField value rest child
        (GoMap.assign set fieldValue (Node.mapSI r.1), r.2)
      | some (Node.mapSF _) => (set, some Panic.typeAssertion)
      | none =>
        let r := walk event lastField value rest []
        (GoMap.assign set fieldValue (Node.mapSI r.1), r.2)
    | _ => (set, some Panic.typeAssertion)

/-- The age check of lines 155-158: `diff > plugin.reserveWindow || diff < 0`. -/
def ageRejected (plugin : LinkStatsMetricFilter) (now unix : Int) : Bool :=
  decide (int64 (now - unix) > plugin.reserveWindow ∨ int64 (now - unix) < 0)

/-- The method `updateMetric` (lines 135-195), with `now` for `time.Now().Unix()`. -/
def updateMetric (plugin : LinkStatsMetricFilter) (now : Int) (event : Event) :
    LinkStatsMetricFilter × Option Panic :=
  match Event.read event plugin.lastField with
  | Value.nil => (plugin, none)
  | Value.float64 value =>
    match GoMap.index event plugin.timestamp with
    | none => (plugin, none)
    | some Value.nil => (plugin, some Panic.nilDereference)
    | some (Value.time unix) =>
      if ageRejected plugin now unix then (plugin, none)
      else if plugin.batchWindow = 0 then (plugin, some Panic.divideByZero)
      else
        let timestamp := windowStart plugin.batchWindow unix
        match GoMap.index plugin.metric timestamp with
        | some r =>
          let w := walk event plugin.lastField value plugin.fieldsWithoutLast (deref plugin.heap r)
          ({ plugin with heap := plugin.heap.set r w.1 }, w.2)
        | none =>
          let w := walk event plugin.lastField value plugin.fieldsWithoutLast []
          ({ plugin with
              metric := GoMap.assign plugin.metric timestamp plugin.heap.length
              heap := plugin.heap ++ [w.1] }, w.2)
    | some _ => (plugin, none)
  | _ => (plugin, some Panic.typeAssertion)

/-- The method `Process` (lines 197-203): the plugin after the call and, unless
`updateMetric` panicked, the returned event (`none` for nil) and the returned flag. -/
def Process (plugin : LinkStatsMetricFilter) (now : Int) (event : Event) :
    LinkStatsMetricFilter × Except Panic (Option Event × Bool) :=
  match updateMetric plugin now event with
  | (plugin1, none) =>
    if plugin1.dropOriginalEvent then (plugin1, Except.ok (none, false))
    else (plugin1, Except.ok (some event, false))
  | (plugin1, some e) => (plugin1, Except.error e)

/-- Lines 110-114: the loop that copies the eligible buckets of `metric` into the new map. -/
def selectToEmit (metric : GoMap Int Ref) (threshold : Int) : GoMap Int Ref :=
  metric.foldl (fun acc e => if e.1 ≤ threshold then GoMap.assign acc e.1 e.2 else acc) []

/-- Lines 119-124: the loop that copies the retained buckets of `metric` into `newMetric`. -/
def retain (metric : GoMap Int Ref) (bound : Int) : GoMap Int Ref :=
  metric.foldl (fun acc e => if e.1 ≥ bound then GoMap.assign acc e.1 e.2 else acc) []

/-- One iteration of the ticker goroutine (lines 103-129), with `now` for
`time.Now().Unix()`. -/
def tick (plugin : LinkStatsMetricFilter) (now : Int) : LinkStatsMetricFilter × Option Panic :=
  if plugin.metric.length > 0 ∧ plugin.metricToEmit.length = 0 then
    if plugin.batchWindow = 0 then (plugin, some Panic.divideByZero)
    else
      let timestamp := windowStart plugin.batchWindow now
      let toEmit := selectToEmit plugin.metric
        (int64 (timestamp - int64 (plugin.batchWindow * plugin.windowOffset)))
      if plugin.accumulatateMode = 1 then
        ({ plugin with metricToEmit := toEmit, metric := [] }, none)
      else
        ({ plugin with
            metricToEmit := toEmit
            metric := retain plugin.metric (int64 (timestamp - plugin.reserveWindow)) }, none)
  else (plugin, none)

/-! ## The flattener and the drain -/

/-- The conversion `int(x)` of a `float64`: truncation toward zero.  For a value that `int`
cannot hold Go leaves the result to the implementation: the model keeps the truncation of a
finite value and takes the smallest `int64`, the result on amd64, for an infinity and for
NaN. -/
def toInt : Float64 → Int
  | Float64.finite x => Int.tdiv x.num x.den
  | _ => -9223372036854775808

/-- Lines 214-217 of `metricToEvents`: the record of the entry `fieldValue` of a terminal
map.  The quotient `stats["sum"] / stats["count"]` is the `float64` quotient. -/
def leafRecord (fieldName fieldValue : String) (stats : GoMap String Float64) : Event :=
  let event0 : Event := [(fieldName, Value.string fieldValue)]
  let event1 := GoMap.assign event0 "count" (Value.int (toInt (GoMap.read0 stats "count")))
  let event2 := GoMap.assign event1 "sum" (Value.float64 (GoMap.read0 stats "sum"))
  GoMap.assign event2 "mean"
    (Value.float64 (GoMap.read0 stats "sum" / GoMap.read0 stats "count"))

/-- Lines 225-229 of `metricToEvents`: the record of an upper level, the field of this
level followed by a copy of every attribute of the record `e` of the level below. -/
def wrapRecord (fieldName fieldValue : String) (e : Event) : Event :=
  e.foldl (fun event kv => GoMap.assign event kv.1 kv.2)
    (GoMap.assign [] fieldName (Value.string fieldValue))

/-- A `range` loop over the entries of a map whose body appends events to `events` or
panics. -/
def collect {α : Type} (body : α → Except Panic (List Event)) :
    List α → Except Panic (List Event)
  | [] => Except.ok []
  | a :: rest =>
    match body a with
    | Except.error e => Except.error e
    | Except.ok es =>
      match collect body rest with
      | Except.error e => Except.error e
      | Except.ok more => Except.ok (es ++ more)

/-- The body of `metricToEvents` (lines 205-235); the first list is `plugin.fields` from
index `level` on, so that its head is `plugin.fields[level]` and the empty list is an index
out of range.  The test `level == plugin.fieldsLength-1` is `level + 1 = fieldsLength`. -/
def flatten (fieldsLength : Nat) : List String → Nat → Bucket → Except Panic (List Event)
  | [], _, _ => Except.error Panic.indexOutOfRange
  | fieldName :: rest, level, metrics =>
    if level + 1 = fieldsLength then
      collect (fun entry =>
        match entry.2 with
        | Node.mapSF stats => Except.ok [leafRecord fieldName entry.1 stats]
        | Node.mapSI _ => Except.error Panic.typeAssertion) metrics
    else
      collect (fun entry =>
        match entry.2 with
        | Node.mapSI next =>
          match flatten fieldsLength rest (level + 1) next with
          | Except.ok es => Except.ok (es.map (wrapRecord fieldName entry.1))
          | Except.error e => Except.error e
        | Node.mapSF _ => Except.error Panic.typeAssertion) metrics

/-- The method `metricToEvents` (lines 205-235): the returned events, or the panic. -/
def metricToEvents (plugin : LinkStatsMetricFilter) (metrics : Bucket) (level : Nat) :
    Except Panic (List Event) :=
  flatten plugin.fieldsLength (plugin.fields.drop level) level metrics

/-- Lines 244-250 of `EmitExtraEvents`: the loop over the entries of `metricToEmit` that
are still to be visited, with the events pushed so far. -/
def drainLoop (postProcess : Event → Bool → Event) (plugin : LinkStatsMetricFilter) :
    GoMap Int Ref → List Event → List Event × Option Panic
  | [], sTo => (sTo, none)
  | (timestamp, r) :: rest, sTo =>
    match metricToEvents plugin (deref plugin.heap r) 0 with
    | Except.error e => (sTo, some e)
    | Except.ok events =>
      drainLoop postProcess plugin rest
        (sTo ++ events.map (fun event =>
          postProcess (GoMap.assign event plugin.timestamp (Value.time timestamp)) true))

/-- The method `EmitExtraEvents` (lines 237-253): the plugin, the stack and the panic, if
any, when the call ends. -/
def EmitExtraEvents (postProcess : Event → Bool → Event) (plugin : LinkStatsMetricFilter)
    (sTo : List Event) : LinkStatsMetricFilter × List Event × Option Panic :=
  if plugin.metricToEmit.length = 0 then (plugin, sTo, none)
  else
    match drainLoop postProcess plugin plugin.metricToEmit sTo with
    | (sTo1, none) => ({ plugin with metricToEmit := [] }, sTo1, none)
    | (sTo1, some e) => (plugin, sTo1, some e)

/-! ## The constructor -/

/-- The configuration that `NewLinkStatsMetricFilter` reads, for a configuration that has
the required keys `fieldsLink`, `batchWindow` and `reserveWindow` (the constructor exits the
process otherwise) and whose values have the types that the constructor asserts. -/
structure Config where
  fieldsLink : String
  timestamp : Option String
  dropOriginalEvent : Option Bool
  batchWindow : Int
  reserveWindow : Int
  accumulatateMode : Option String
  windowOffset : Option Int

/-- The call `strings.Split(s, "->")` on the characters of `s` that are still to be read,
with the characters of the current piece in reverse order. -/
def splitArrow : List Char → List Char → List String
  | [], piece => [String.mk piece.reverse]
  | '-' :: '>' :: rest, piece => String.mk piece.reverse :: splitArrow rest []
  | c :: rest, piece => splitArrow rest (c :: piece)

/-- The function `NewLinkStatsMetricFilter` (lines 35-133) without the start of the ticker
goroutine, whose iterations are `tick`.  `time.NewTicker` panics on a period that is not
positive; the period `time.Second * time.Duration(batchWindow)` is an `int64` product. -/
def NewLinkStatsMetricFilter (config : Config) : Except Panic LinkStatsMetricFilter :=
  let fields := splitArrow config.fieldsLink.toList []
  let fieldsLength := fields.length
  let plugin : LinkStatsMetricFilter :=
    { timestamp := config.timestamp.getD "@timestamp"
      batchWindow := config.batchWindow
      reserveWindow := config.reserveWindow
      dropOriginalEvent := config.dropOriginalEvent.getD false
      windowOffset := config.windowOffset.getD 0
      accumulatateMode :=
        match config.accumulatateMode with
        | some mode => if mode = "cumulative" then 0 else if mode = "separate" then 1 else 0
        | none => 0
      fields := fields
      fieldsWithoutLast := fields.take (fieldsLength - 1)
      lastField := (fields.get? (fieldsLength - 1)).getD ""
      fieldsLength := fieldsLength
      metric := []
      metricToEmit := []
      heap := [] }
  if int64 (1000000000 * config.batchWindow) ≤ 0 then Except.error Panic.nonPositiveInterval
  else Except.ok plugin

/-- The configured numbers are Go `int` values (64 bits) and the ticker period does not
overflow `int64`. -/
def Config.typed (config : Config) : Prop :=
  IsInt64 config.batchWindow ∧ IsInt64 config.reserveWindow ∧
  IsInt64 (config.windowOffset.getD 0) ∧ IsInt64 (1000000000 * config.batchWindow)

/-- The states that a plugin constructed from `config` reaches by calls of `updateMetric`
that return, rotation ticks and drains. -/
inductive Reachable (postProcess : Event → Bool → Event) (config : Config) :
    LinkStatsMetricFilter → Prop where
  | construct {p : LinkStatsMetricFilter} :
      NewLinkStatsMetricFilter config = Except.ok p → Reachable postProcess config p
  | ingest {p : LinkStatsMetricFilter} (now : Int) (ev : Event) :
      Reachable postProcess config p → (updateMetric p now ev).2 = none →
      Reachable postProcess config (updateMetric p now ev).1
  | rotate {p : LinkStatsMetricFilter} (now : Int) :
      Reachable postProcess config p → Reachable postProcess config (tick p now).1
  | drain {p : LinkStatsMetricFilter} (sTo : List Event) :
      Reachable postProcess config p →
      Reachable postProcess config (EmitExtraEvents postProcess p sTo).1

/-! ## Observations used by the statements -/

/-- The stats map reached from the map `set` through the keys `vals`, in order, and then
the terminal key `last`, if there is one. -/
def leafAt : Bucket → List String → String → Option (GoMap String Float64)
  | set, [], last =>
    match GoMap.index set last with
    | some (Node.mapSF stats) => some stats
    | _ => none
  | set, v :: vs, last =>
    match GoMap.index set v with
    | some (Node.mapSI child) => leafAt child vs last
    | _ => none

/-- The bucket object that the bucket map `m` (`metric` or `metricToEmit`) holds under the
key `k`. -/
def bucketAt (heap : List Bucket) (m : GoMap Int Ref) (k : Int) : Option Bucket :=
  (GoMap.index m k).map (deref heap)

/-- The LeafStats of the Bucket Store under bucket `k`, grouping values `vals` and terminal
key `last`. -/
def storeLeaf (plugin : LinkStatsMetricFilter) (k : Int) (vals : List String) (last : String) :
    Option (GoMap String Float64) :=
  (bucketAt plugin.heap plugin.metric k).bind (fun b => leafAt b vals last)

/-- The LeafStats seen through the handoff slot under bucket `k`, grouping values `vals` and
terminal key `last`. -/
def slotLeaf (plugin : LinkStatsMetricFilter) (k : Int) (vals : List String) (last : String) :
    Option (GoMap String Float64) :=
  (bucketAt plugin.heap plugin.metricToEmit k).bind (fun b => leafAt b vals last)

/-- The string values that the event carries for the given grouping fields, in order;
`none` unless every field holds a string. -/
def groupValues (event : Event) : List String → Option (List String)
  | [] => some []
  | field :: rest =>
    match Event.read event field with
    | Value.string s => (groupValues event rest).map (fun vs => s :: vs)
    | _ => none

/-- The stats map that one more sample of value `value` leaves at a leaf that held `old`
(`none`: the leaf did not exist). -/
def bumped (old : Option (GoMap String Float64)) (value : Float64) :
    GoMap String Float64 :=
  match old with
  | some stats => addSample stats value
  | none => newStats value

/-- The map `set` is the root of a tree with `depth` grouping levels: below `depth` levels
of `map[string]interface{}` every entry of a terminal map is a `map[string]float64`.
Empty maps are allowed at every level. -/
def shapeOK : Nat → Bucket → Bool
  | 0, set => set.all (fun e => match e.2 with
      | Node.mapSF _ => true
      | Node.mapSI _ => false)
  | depth + 1, set => set.all (fun e => match e.2 with
      | Node.mapSI child => shapeOK depth child
      | Node.mapSF _ => false)

/-- The representation invariant of a constructed plugin: the facts that Go maps, the
constructor and the three operations guarantee.  Keys of a map are distinct, every bucket of
`metric` is an object of its own, every bucket has the depth given by the field path, the
field path is split as the constructor splits it, `time.NewTicker` accepted `batchWindow`,
and the configured numbers are `int64` values. -/
structure Inv (plugin : LinkStatsMetricFilter) : Prop where
  metricKeys : (plugin.metric.map Prod.fst).Nodup
  emitKeys : (plugin.metricToEmit.map Prod.fst).Nodup
  metricRefs : (plugin.metric.map Prod.snd).Nodup
  metricValid : ∀ e ∈ plugin.metric, e.2 < plugin.heap.length
  emitValid : ∀ e ∈ plugin.metricToEmit, e.2 < plugin.heap.length
  shape : ∀ b ∈ plugin.heap, shapeOK plugin.fieldsWithoutLast.length b = true
  fieldsSplit : plugin.fields = plugin.fieldsWithoutLast ++ [plugin.lastField]
  fieldsLen : plugin.fieldsLength = plugin.fields.length
  windowPos : 0 < plugin.batchWindow
  windowRange : IsInt64 plugin.batchWindow
  reserveRange : IsInt64 plugin.reserveWindow
  offsetRange : IsInt64 plugin.windowOffset

/-! ## Leaves, records and totals -/

/-- The leaves of a tree with `depth` grouping levels, in the order of the traversal of
`metricToEvents`: the grouping values on the way to the leaf, the key of the leaf in its
terminal map, and its stats map. -/
def leafPaths : Nat → Bucket → List (List String × String × GoMap String Float64)
  | 0, set => set.flatMap (fun e =>
      match e.2 with
      | Node.mapSF stats => [([], e.1, stats)]
      | Node.mapSI _ => [])
  | depth + 1, set => set.flatMap (fun e =>
      match e.2 with
      | Node.mapSI child => (leafPaths depth child).map (fun l => (e.1 :: l.1, l.2.1, l.2.2))
      | Node.mapSF _ => [])

/-- The record that `metricToEvents` builds for a leaf, by the field names from the current
level on, the grouping values from the current level on, the key of the leaf and its
stats. -/
def recordOf : List String → List String → String → GoMap String Float64 → Event
  | [], _, _, _ => []
  | fieldName :: _, [], key, stats => leafRecord fieldName key stats
  | fieldName :: rest, v :: vs, key, stats =>
    wrapRecord fieldName v (recordOf rest vs key stats)

/-- The events that `metricToEvents(metrics, 0)` returns; no events when it panics. -/
def flattened (plugin : LinkStatsMetricFilter) (metrics : Bucket) : List Event :=
  match metricToEvents plugin metrics 0 with
  | Except.ok events => events
  | Except.error _ => []

/-- The record of the spec for the leaf under the grouping values `vals` with the stats
`stats`: the grouping fields with their values, the measured field with its own name, and
`count` (as an integer), `sum` and `mean`, the `float64` quotient of `sum` and `count`. -/
def expectedRecord (plugin : LinkStatsMetricFilter) (vals : List String)
    (stats : GoMap String Float64) : Event :=
  (plugin.fieldsWithoutLast.zip vals).map (fun fv => (fv.1, Value.string fv.2)) ++
    [(plugin.lastField, Value.string plugin.lastField),
      ("count", Value.int (toInt (GoMap.read0 stats "count"))),
      ("sum", Value.float64 (GoMap.read0 stats "sum")),
      ("mean", Value.float64 (GoMap.read0 stats "sum" / GoMap.read0 stats "count"))]

/-- The `count` of a stats map is a whole number that is at least 1. -/
def statsOK (stats : GoMap String Float64) : Bool :=
  match GoMap.read0 stats "count" with
  | Float64.finite c => decide (1 ≤ c) && decide (c.den = 1)
  | _ => false

/-- The `count` of a stats map is a whole number between 1 and `2 ^ 53`, the value at
which the `float64` addition `1 + count` of line 187 stops growing. -/
def countInRange (stats : GoMap String Float64) : Bool :=
  match GoMap.read0 stats "count" with
  | Float64.finite c => decide (1 ≤ c) && decide (c.den = 1) && decide (c ≤ 9007199254740992)
  | _ => false

/-- The map `set` is the root of a tree with `depth` grouping levels in which every entry
of a terminal map has the key `last` and a stats map with a whole `count` of at least 1.
Empty maps are allowed at every level. -/
def treeOK (last : String) : Nat → Bucket → Bool
  | 0, set => set.all (fun e =>
      match e.2 with
      | Node.mapSF stats => decide (e.1 = last) && statsOK stats
      | Node.mapSI _ => false)
  | depth + 1, set => set.all (fun e =>
      match e.2 with
      | Node.mapSI child => treeOK last depth child
      | Node.mapSF _ => false)

/-- The map `set` is the root of a tree with `depth` grouping levels in which every entry
of a terminal map has the key `last` and a stats map with a whole `count` between 1 and
`2 ^ 53`.  Empty maps are allowed at every level. -/
def treeInRange (last : String) : Nat → Bucket → Bool
  | 0, set => set.all (fun e =>
      match e.2 with
      | Node.mapSF stats => decide (e.1 = last) && countInRange stats
      | Node.mapSI _ => false)
  | depth + 1, set => set.all (fun e =>
      match e.2 with
      | Node.mapSI child => treeInRange last depth child
      | Node.mapSF _ => false)

/-- The keys of every map of the tree are pairwise distinct, as those of a Go map are. -/
def keysOK : Nat → Bucket → Bool
  | 0, set => decide (set.map Prod.fst).Nodup
  | depth + 1, set => decide (set.map Prod.fst).Nodup && set.all (fun e =>
      match e.2 with
      | Node.mapSI child => keysOK depth child
      | Node.mapSF _ => true)

/-- The depth invariant of the spec for a GroupTree with `depth` grouping levels: every map
above the terminal level is a non-empty map to maps, and every terminal map holds exactly
one entry, a stats map. -/
def fullTree : Nat → Bucket → Bool
  | 0, set => decide (set.length = 1) && set.all (fun e =>
      match e.2 with
      | Node.mapSF _ => true
      | Node.mapSI _ => false)
  | depth + 1, set => decide (set ≠ []) && set.all (fun e =>
      match e.2 with
      | Node.mapSI child => fullTree depth child
      | Node.mapSF _ => false)

/-- The invariant of the reachable states: the representation invariant, and every bucket
object is a tree whose leaves sit under the key `lastField` with a whole `count` of at
least 1 and at most `2 ^ 53`. -/
structure TreeInv (plugin : LinkStatsMetricFilter) : Prop where
  inv : Inv plugin
  trees : ∀ b ∈ plugin.heap,
    treeInRange plugin.lastField plugin.fieldsWithoutLast.length b = true

/-- The rational number held by the entry `key` (`count` or `sum`) of a stats map. -/
def keyValue (key : String) (stats : GoMap String Float64) : ℚ :=
  (GoMap.read0 stats key).toRat

/-- The absolute value of the entry `key` of a stats map. -/
def keyAbs (key : String) (stats : GoMap String Float64) : ℚ :=
  |(GoMap.read0 stats key).toRat|

/-- The defect of the entry `key` of a stats map: 0 when it is a finite whole number, 1
otherwise. -/
def keyDefect (key : String) (stats : GoMap String Float64) : ℚ :=
  if (GoMap.read0 stats key).isWhole then 0 else 1

/-- The total of the measure `g` of the stats maps over the leaves of a tree with `depth`
grouping levels. -/
def total (g : GoMap String Float64 → ℚ) : Nat → Bucket → ℚ
  | 0, set => (set.map (fun e =>
      match e.2 with
      | Node.mapSF stats => g stats
      | Node.mapSI _ => 0)).sum
  | depth + 1, set => (set.map (fun e =>
      match e.2 with
      | Node.mapSI child => total g depth child
      | Node.mapSF _ => 0)).sum

/-- The total of the measure `g` over the leaves of bucket `k` of the Bucket Store; 0 when
the store has no such bucket. -/
def storeTotal (g : GoMap String Float64 → ℚ) (plugin : LinkStatsMetricFilter) (k : Int) :
    ℚ :=
  match GoMap.index plugin.metric k with
  | some r => total g plugin.fieldsWithoutLast.length (deref plugin.heap r)
  | none => 0

/-- The attribute `count` of an emitted record. -/
def recordCount (e : Event) : Int :=
  match Event.read e "count" with
  | Value.int n => n
  | _ => 0

/-- The attribute `sum` of an emitted record, as a rational number; 0 when it is not a
finite `float64`. -/
def recordSum (e : Event) : ℚ :=
  match Event.read e "sum" with
  | Value.float64 x => x.toRat
  | _ => 0

/-- The bucket key and the measured value of an event that `updateMetric` accepts at time
`now`: the measured field holds a float64, the timestamp attribute a `time.Time` that
passes the age check, and every grouping field a string.  `none` for every other event. -/
def acceptedAt (plugin : LinkStatsMetricFilter) (now : Int) (ev : Event) :
    Option (Int × Float64) :=
  match Event.read ev plugin.lastField, GoMap.index ev plugin.timestamp,
    groupValues ev plugin.fieldsWithoutLast with
  | Value.float64 v, some (Value.time t), some _ =>
    if ageRejected plugin now t then none else some (windowStart plugin.batchWindow t, v)
  | _, _, _ => none

/-- The measured value of a call `(now, ev)` that is accepted into bucket `k`. -/
def acceptedInto (plugin : LinkStatsMetricFilter) (k : Int) (call : Int × Event) :
    Option Float64 :=
  match acceptedAt plugin call.1 call.2 with
  | some kv => if kv.1 = k then some kv.2 else none
  | none => none

/-- A sequence of calls of `updateMetric`, each with its own `now`, with no rotation tick in
between. -/
def ingestAll (plugin : LinkStatsMetricFilter) (calls : List (Int × Event)) :
    LinkStatsMetricFilter :=
  calls.foldl (fun q call => (updateMetric q call.1 call.2).1) plugin

/-- The grouping values of a call that is accepted into bucket `k`, with its measured
value. -/
def acceptedPath (plugin : LinkStatsMetricFilter) (k : Int) (call : Int × Event) :
    Option (List String × Float64) :=
  match acceptedInto plugin k call, groupValues call.2 plugin.fieldsWithoutLast with
  | some v, some vals => some (vals, v)
  | _, _ => none

/-- The change that a call makes to the total of the measure `g` over bucket `k`: the
measure of the leaf of an accepted event after the call less its measure before. -/
def leafDelta (g : GoMap String Float64 → ℚ) (plugin : LinkStatsMetricFilter) (k : Int)
    (call : Int × Event) : ℚ :=
  match acceptedPath plugin k call with
  | some (vals, v) =>
    g (bumped (storeLeaf plugin k vals plugin.lastField) v)
      - ((storeLeaf plugin k vals plugin.lastField).map g).getD 0
  | none => 0

/-- The `sum` that lines 188 and 192 leave in a leaf that receives the values `vs` in this
order: the first value is stored as it is, and every later value is added by the `float64`
addition `value + stats["sum"]`. -/
def accumulate : List Float64 → Float64
  | [] => 0
  | v :: vs => vs.foldl (fun s x => x + s) v

/-! ## The lock discipline -/

/-- What a method does with `plugin.mutex` and with the shared maps `metric` and
`metricToEmit`, in program order.  An access carries the source line of the read or
write. -/
inductive Op where
  | lock
  | unlock
  | access (line : Nat)
  deriving DecidableEq, Repr

/-- Every access of the sequence happens while the mutex is held (`held` tells whether it
is held at the start), the mutex is not locked while held nor unlocked while free, and it
is free at the end. -/
def lockedThroughout : Bool → List Op → Bool
  | held, [] => !held
  | held, Op.lock :: rest => !held && lockedThroughout true rest
  | held, Op.unlock :: rest => held && lockedThroughout false rest
  | held, Op.access _ :: rest => held && lockedThroughout held rest

/-- The mutex operations and the first accesses of the shared maps in `updateMetric`
(lines 135-195): the method never calls `Lock`; an event that passes the checks of lines
138-158 reads `plugin.metric` at line 162 and, for a new bucket, writes it at line 166.  The
later accesses of the bucket tree (lines 177-193) are not listed. -/
def updateMetricOps (plugin : LinkStatsMetricFilter) (now : Int) (event : Event) : List Op :=
  match Event.read event plugin.lastField with
  | Value.float64 _ =>
    match GoMap.index event plugin.timestamp with
    | some (Value.time unix) =>
      if ageRejected plugin now unix then []
      else if plugin.batchWindow = 0 then []
      else
        match GoMap.index plugin.metric (windowStart plugin.batchWindow unix) with
        | some _ => [Op.access 162]
        | none => [Op.access 162, Op.access 166]
    | _ => []
  | _ => []

/-- The mutex operations and the accesses of the shared maps in one iteration of the
ticker goroutine (lines 103-129).  The division of line 107 panics for a zero
`batchWindow`, before the `Unlock` of line 129. -/
def tickOps (plugin : LinkStatsMetricFilter) : List Op :=
  [Op.lock, Op.access 105] ++
    (if plugin.metric.length > 0 then
      [Op.access 105] ++
        (if plugin.metricToEmit.length = 0 then
          (if plugin.batchWindow = 0 then []
          else
            [Op.access 109, Op.access 110] ++
              (if plugin.accumulatateMode = 1 then [Op.access 117, Op.unlock]
              else [Op.access 120, Op.access 125, Op.unlock]))
        else [Op.unlock])
    else [Op.unlock])

/-- The mutex operations and the accesses of the shared maps in `EmitExtraEvents` (lines
237-253): the length of `metricToEmit` is read at line 238, before the `Lock` of line
241. -/
def EmitExtraEventsOps (plugin : LinkStatsMetricFilter) : List Op :=
  Op.access 238 ::
    (if plugin.metricToEmit.length = 0 then []
    else [Op.lock, Op.access 244, Op.access 251, Op.unlock])

/-! ## Concrete plugins and events -/

/-- A plugin as constructed from `fieldsLink: "host->metric"`, `batchWindow: 10`,
`reserveWindow: 60`, and the defaults (cumulative mode, no emission delay), before any event. -/
def hostPlugin : LinkStatsMetricFilter :=
  { timestamp := "@timestamp", batchWindow := 10, reserveWindow := 60,
    dropOriginalEvent := false, windowOffset := 0, accumulatateMode := 0,
    fields := ["host", "metric"], fieldsWithoutLast := ["host"], lastField := "metric",
    fieldsLength := 2, metric := [], metricToEmit := [], heap := [] }

/-- An event of host `h1` with measured value `v` and event time `time.Unix(t, 0)`. -/
def hostEvent (v : Float64) (t : Int) : Event :=
  [("host", Value.string "h1"), ("metric", Value.float64 v), ("@timestamp", Value.time t)]

/-- The plugin `hostPlugin` after `hostEvent 1 103` was ingested at time 105 and the
rotation tick ran at time 110: in cumulative mode the bucket 100 stays in `metric` and the
handoff slot holds the same bucket object. -/
def sharedPlugin : LinkStatsMetricFilter :=
  { hostPlugin with
    metric := [(100, 0)]
    metricToEmit := [(100, 0)]
    heap := [[("h1", Node.mapSI [("metric", Node.mapSF [("count", 1), ("sum", 1)])])]] }

/-- A plugin as constructed from `fieldsLink: "dc->host->metric"`, `batchWindow: 10`,
`reserveWindow: 60`, and the defaults, before any event. -/
def pathPlugin : LinkStatsMetricFilter :=
  { hostPlugin with
    fields := ["dc", "host", "metric"], fieldsWithoutLast := ["dc", "host"], fieldsLength := 3 }

/-- A plugin with the field path `dimension1->dimension2->latency`. -/
def latencyPlugin : LinkStatsMetricFilter :=
  { hostPlugin with
    fields := ["dimension1", "dimension2", "latency"]
    fieldsWithoutLast := ["dimension1", "dimension2"]
    lastField := "latency"
    fieldsLength := 3 }

/-- The bucket with the grouping values `A`, `B` and the stats `count = 3`, `sum = 9`. -/
def latencyTree : Bucket :=
  [("A", Node.mapSI [("B", Node.mapSI [("latency", Node.mapSF [("count", 3), ("sum", 9)])])])]

/-- The configuration of `hostPlugin`. -/
def hostConfig : Config :=
  { fieldsLink := "host->metric", timestamp := none, dropOriginalEvent := none,
    batchWindow := 10, reserveWindow := 60, accumulatateMode := none, windowOffset := none }

/-- The call `(now, event)` of `updateMetric` on a plugin constructed from `hostConfig`
carries an event that is accepted for host `h` into bucket `k`: the attribute `host` is the
string `h`, the attribute `metric` a float64, and `@timestamp` a `time.Time` of at most 60
seconds before `now` whose window starts at `k`. -/
def hostAccepted (h : String) (k : Int) (call : Int × Event) : Prop :=
  Event.read call.2 "host" = Value.string h ∧
  (∃ v, Event.read call.2 "metric" = Value.float64 v) ∧
  ∃ t, GoMap.index call.2 "@timestamp" = some (Value.time t) ∧ IsInt64 t ∧
    0 ≤ call.1 - t ∧ call.1 - t ≤ 60 ∧ t - Int.tmod t 10 = k

/-- The float64 value that the call carries in the attribute `metric`. -/
def metricValue (call : Int × Event) : Float64 :=
  match Event.read call.2 "metric" with
  | Value.float64 v => v
  | _ => 0

/-- The plugin `hostPlugin` with the single bucket `k`, which holds for host `h` the
leaf with the count `n` and the sum `s`. -/
def hostState (h : String) (k : Int) (n s : Float64) : LinkStatsMetricFilter :=
  { hostPlugin with
    metric := [(k, 0)]
    heap := [[(h, Node.mapSI [("metric", Node.mapSF [("count", n), ("sum", s)])])]] }

/-- The configuration of `pathPlugin`. -/
def pathConfig : Config :=
  { hostConfig with fieldsLink := "dc->host->metric" }

/-- An event that carries the measured field, the timestamp and the grouping field `dc`,
and lacks the grouping field `host`. -/
def dcOnlyEvent : Event :=
  [("dc", Value.string "d1"), ("metric", Value.float64 1), ("@timestamp", Value.time 103)]

/-! # Lemmas -/

/-! ## Lemmas on floating-point numbers -/

theorem log2Aux_spec : ∀ (fuel n : Nat), n ≤ fuel → 1 ≤ n →
    2 ^ Float64.log2Aux fuel n ≤ n ∧ n < 2 ^ (Float64.log2Aux fuel n + 1) := by
  intro fuel
  induction fuel with
  | zero => intro n h0 h1; omega
  | succ fuel ih =>
    intro n hn h1
    unfold Float64.log2Aux
    by_cases h2 : n < 2
    · simp only [h2, if_true]
      have : n = 1 := by omega
      subst this
      decide
    · simp only [h2, if_false]
      have hd : n / 2 ≤ fuel := by omega
      have hd1 : 1 ≤ n / 2 := by omega
      obtain ⟨a, b⟩ := ih (n / 2) hd hd1
      constructor
      · rw [pow_succ]; omega
      · rw [pow_succ]; omega

theorem log2_spec {n : Nat} (h : 1 ≤ n) :
    2 ^ Float64.log2 n ≤ n ∧ n < 2 ^ (Float64.log2 n + 1) :=
  log2Aux_spec n n (le_refl _) h

theorem log2_one : Float64.log2 1 = 0 := by decide

theorem pow2_natCast (n : Nat) : Float64.pow2 (n : Int) = ((2 ^ n : Nat) : ℚ) := rfl

theorem pow2_neg_natCast (n : Nat) : Float64.pow2 (-(n : Int)) = 1 / ((2 ^ n : Nat) : ℚ) := by
  cases n with
  | zero => simp [Float64.pow2]
  | succ n => rfl

theorem roundHalfEven_intCast (z : Int) : Float64.roundHalfEven (z : ℚ) = z := by
  unfold Float64.roundHalfEven
  simp

theorem exponent_intCast {m : Int} (h : m ≠ 0) :
    Float64.exponent (m : ℚ) = (Float64.log2 m.natAbs : Int) := by
  have h1 : 1 ≤ m.natAbs := Nat.one_le_iff_ne_zero.2 (Int.natAbs_ne_zero.2 h)
  unfold Float64.exponent
  simp only [Rat.num_intCast, Rat.den_intCast, log2_one]
  have : Float64.pow2 ((Float64.log2 m.natAbs : Int) - ((0 : Nat) : Int)) ≤ |(m : ℚ)| := by
    simp only [Nat.cast_zero, sub_zero, pow2_natCast]
    have := (log2_spec h1).1
    have h2 : |(m : ℚ)| = ((m.natAbs : Nat) : ℚ) := by
      rw [Nat.cast_natAbs, Int.cast_abs]
    rw [h2]
    exact_mod_cast this
  simp only [this, if_true]
  simp

/-- A whole number of absolute value below 2^53 is a float64. -/
theorem round64_intCast_lt {m : Int} (h : m.natAbs < 2 ^ 53) :
    Float64.round64 (m : ℚ) = Float64.finite m := by
  by_cases h0 : m = 0
  · subst h0; simp [Float64.round64]
  have h1 : 1 ≤ m.natAbs := Nat.one_le_iff_ne_zero.2 (Int.natAbs_ne_zero.2 h0)
  have hx : (m : ℚ) ≠ 0 := by exact_mod_cast h0
  have hlog := (log2_spec h1).1
  have hle : Float64.log2 m.natAbs ≤ 52 := by
    by_contra hc
    have : 2 ^ 53 ≤ 2 ^ Float64.log2 m.natAbs := Nat.pow_le_pow_right (by decide) (by omega)
    omega
  obtain ⟨k, hk⟩ : ∃ k : Nat, (Float64.log2 m.natAbs : Int) - 52 = -(k : Int) :=
    ⟨52 - Float64.log2 m.natAbs, by omega⟩
  have hmax : max (Float64.log2 m.natAbs : Int) (-1022) = (Float64.log2 m.natAbs : Int) := by
    apply max_eq_left; omega
  unfold Float64.round64
  simp only [hx, if_false, exponent_intCast h0, hmax, hk, pow2_neg_natCast]
  have hpos : ((2 ^ k : Nat) : ℚ) ≠ 0 := by positivity
  have hdiv : (m : ℚ) / (1 / ((2 ^ k : Nat) : ℚ)) = ((m * (2 ^ k : Nat) : Int) : ℚ) := by
    push_cast
    field_simp
  rw [hdiv, roundHalfEven_intCast]
  have hy : 1 / ((2 ^ k : Nat) : ℚ) * ((m * (2 ^ k : Nat) : Int) : ℚ) = (m : ℚ) := by
    push_cast
    field_simp
  rw [hy]
  have hsmall : ¬ (Float64.pow2 1024 ≤ |(m : ℚ)|) := by
    have h2 : |(m : ℚ)| = ((m.natAbs : Nat) : ℚ) := by
      rw [Nat.cast_natAbs, Int.cast_abs]
    rw [h2, show (1024 : Int) = ((1024 : Nat) : Int) from rfl, pow2_natCast]
    intro hc
    have hc1 := Nat.cast_le.1 hc
    have hp : ∀ a b : Nat, a ≤ b → 2 ^ a ≤ 2 ^ b :=
      fun a b hab => Nat.pow_le_pow_right (by decide) hab
    exact absurd (lt_of_lt_of_le h (le_trans (hp 53 1024 (by decide)) hc1)) (lt_irrefl _)
  simp only [hsmall, if_false]

theorem float64_add_comm (a b : Float64) : a + b = b + a := by
  show Float64.add a b = Float64.add b a
  cases a with
  | finite x =>
    cases b with
    | finite y => simp only [Float64.add, Rat.add_comm x y]
    | inf s => rfl
    | nan => rfl
  | inf s =>
    cases b with
    | finite y => rfl
    | inf t =>
      simp only [Float64.add]
      by_cases h : s = t
      · subst h; rfl
      · have h2 : ¬ t = s := fun e => h e.symm
        simp [h, h2]
    | nan => rfl
  | nan =>
    cases b <;> rfl

theorem round64_two_pow_53_succ :
    Float64.round64 (9007199254740992 + 1) = Float64.finite 9007199254740992 := by decide!

theorem float64_ofNat (n : Nat) : (OfNat.ofNat n : Float64) = Float64.finite (n : ℚ) := rfl

theorem float64_add_finite (a b : ℚ) :
    Float64.finite a + Float64.finite b = Float64.round64 (a + b) := rfl

/-- A whole number of absolute value at most 2^53 is a float64. -/
theorem round64_intCast {m : Int} (h : m.natAbs ≤ 9007199254740992) :
    Float64.round64 (m : ℚ) = Float64.finite m := by
  by_cases hlt : m.natAbs < 2 ^ 53
  · exact round64_intCast_lt hlt
  · have heq : m.natAbs = 9007199254740992 := by
      have : (2 : Nat) ^ 53 = 9007199254740992 := by decide
      omega
    rcases Int.natAbs_eq m with hm | hm
    · rw [hm, heq]
      decide!
    · rw [hm, heq]
      decide!

/-! ## Lemmas on Go maps -/

section GoMapLemmas

variable {κ α : Type} [DecidableEq κ]

theorem index_assign_self (m : GoMap κ α) (k : κ) (v : α) :
    GoMap.index (GoMap.assign m k v) k = some v := by
  induction m with
  | nil => simp [GoMap.assign, GoMap.index]
  | cons e m ih =>
    obtain ⟨k', v'⟩ := e
    by_cases h : k' = k
    · simp [GoMap.assign, GoMap.index, h]
    · simp [GoMap.assign, GoMap.index, h, ih]

theorem index_assign_ne (m : GoMap κ α) (k k1 : κ) (v : α) (h : k1 ≠ k) :
    GoMap.index (GoMap.assign m k v) k1 = GoMap.index m k1 := by
  induction m with
  | nil => simp [GoMap.assign, GoMap.index, Ne.symm h]
  | cons e m ih =>
    obtain ⟨k', v'⟩ := e
    by_cases h' : k' = k
    · subst h'
      simp [GoMap.assign, GoMap.index, Ne.symm h]
    · simp [GoMap.assign, GoMap.index, h', ih]

theorem mem_of_index {m : GoMap κ α} {k : κ} {v : α} (h : GoMap.index m k = some v) :
    (k, v) ∈ m := by
  induction m with
  | nil => simp [GoMap.index] at h
  | cons e m ih =>
    obtain ⟨k', v'⟩ := e
    by_cases h' : k' = k
    · simp [GoMap.index, h'] at h
      simp [h, h']
    · simp only [GoMap.index, h', if_false] at h
      exact List.mem_cons_of_mem _ (ih h)

theorem index_eq_none_iff (m : GoMap κ α) (k : κ) :
    GoMap.index m k = none ↔ k ∉ m.map Prod.fst := by
  induction m with
  | nil => simp [GoMap.index]
  | cons e m ih =>
    obtain ⟨k', v'⟩ := e
    by_cases h' : k' = k
    · simp [GoMap.index, h']
    · simp only [GoMap.index, h', if_false, ih]
      simp [Ne.symm h']

theorem index_of_mem {m : GoMap κ α} {k : κ} {v : α} (hnd : (m.map Prod.fst).Nodup)
    (h : (k, v) ∈ m) : GoMap.index m k = some v := by
  induction m with
  | nil => simp at h
  | cons e m ih =>
    obtain ⟨k', v'⟩ := e
    simp only [List.map_cons, List.nodup_cons] at hnd
    rcases List.mem_cons.1 h with h1 | h1
    · cases h1
      simp [GoMap.index]
    · have hne : k' ≠ k := by
        rintro rfl
        exact hnd.1 (List.mem_map.2 ⟨_, h1, rfl⟩)
      simp only [GoMap.index, hne, if_false]
      exact ih hnd.2 h1

theorem assign_of_index_none {m : GoMap κ α} {k : κ} (v : α) (h : GoMap.index m k = none) :
    GoMap.assign m k v = m ++ [(k, v)] := by
  induction m with
  | nil => simp [GoMap.assign]
  | cons e m ih =>
    obtain ⟨k', v'⟩ := e
    by_cases h' : k' = k
    · simp [GoMap.index, h'] at h
    · simp only [GoMap.index, h', if_false] at h
      simp [GoMap.assign, h', ih h]

theorem keys_assign_of_index_some {m : GoMap κ α} {k : κ} {v0 : α} (v : α)
    (h : GoMap.index m k = some v0) :
    (GoMap.assign m k v).map Prod.fst = m.map Prod.fst := by
  induction m with
  | nil => simp [GoMap.index] at h
  | cons e m ih =>
    obtain ⟨k', v'⟩ := e
    by_cases h' : k' = k
    · simp [GoMap.assign, h']
    · simp only [GoMap.index, h', if_false] at h
      simp [GoMap.assign, h', ih h]

theorem mem_assign {m : GoMap κ α} {k : κ} {v : α} {e : κ × α}
    (h : e ∈ GoMap.assign m k v) : e = (k, v) ∨ e ∈ m := by
  induction m with
  | nil => simpa [GoMap.assign] using h
  | cons e' m ih =>
    obtain ⟨k', v'⟩ := e'
    by_cases h' : k' = k
    · simp only [GoMap.assign, h', if_true, List.mem_cons] at h
      rcases h with h | h
      · exact Or.inl h
      · exact Or.inr (List.mem_cons_of_mem _ h)
    · simp only [GoMap.assign, h', if_false, List.mem_cons] at h
      rcases h with h | h
      · exact Or.inr (by simp [h])
      · rcases ih h with h | h
        · exact Or.inl h
        · exact Or.inr (List.mem_cons_of_mem _ h)

end GoMapLemmas

theorem int64_of_isInt64 {x : Int} (h : IsInt64 x) : int64 x = x := by
  unfold IsInt64 at h
  unfold int64
  omega

/-! ## The shape of bucket trees -/

theorem shapeOK_nil (n : Nat) : shapeOK n [] = true := by
  cases n <;> simp [shapeOK]

theorem shapeOK_zero_index {set : Bucket} {k : String} {node : Node}
    (hs : shapeOK 0 set = true) (h : GoMap.index set k = some node) :
    ∃ stats, node = Node.mapSF stats := by
  have hm := mem_of_index h
  simp only [shapeOK, List.all_eq_true] at hs
  have := hs _ hm
  cases node with
  | mapSI m => simp at this
  | mapSF m => exact ⟨m, rfl⟩

theorem shapeOK_succ_index {n : Nat} {set : Bucket} {k : String} {node : Node}
    (hs : shapeOK (n + 1) set = true) (h : GoMap.index set k = some node) :
    ∃ child, node = Node.mapSI child ∧ shapeOK n child = true := by
  have hm := mem_of_index h
  simp only [shapeOK, List.all_eq_true] at hs
  have := hs _ hm
  cases node with
  | mapSI m => exact ⟨m, rfl, by simpa using this⟩
  | mapSF m => simp at this

theorem shapeOK_zero_assign {set : Bucket} (k : String) (stats : GoMap String Float64)
    (hs : shapeOK 0 set = true) : shapeOK 0 (GoMap.assign set k (Node.mapSF stats)) = true := by
  simp only [shapeOK, List.all_eq_true] at hs ⊢
  intro e he
  rcases mem_assign he with h | h
  · simp [h]
  · exact hs e h

theorem shapeOK_succ_assign {n : Nat} {set : Bucket} (k : String) {child : Bucket}
    (hs : shapeOK (n + 1) set = true) (hc : shapeOK n child = true) :
    shapeOK (n + 1) (GoMap.assign set k (Node.mapSI child)) = true := by
  simp only [shapeOK, List.all_eq_true] at hs ⊢
  intro e he
  rcases mem_assign he with h | h
  · simp [h, hc]
  · exact hs e h

theorem leafAt_nil (vals : List String) (last : String) : leafAt [] vals last = none := by
  cases vals <;> simp [leafAt, GoMap.index]

theorem leafAt_shape_zero_cons {set : Bucket} (hs : shapeOK 0 set = true) (v : String)
    (vs : List String) (last : String) : leafAt set (v :: vs) last = none := by
  unfold leafAt
  cases h : GoMap.index set v with
  | none => rfl
  | some node =>
    obtain ⟨stats, rfl⟩ := shapeOK_zero_index hs h
    rfl

theorem leafAt_shape_succ_nil {n : Nat} {set : Bucket} (hs : shapeOK (n + 1) set = true)
    (last : String) : leafAt set [] last = none := by
  unfold leafAt
  cases h : GoMap.index set last with
  | none => rfl
  | some node =>
    obtain ⟨child, rfl, _⟩ := shapeOK_succ_index hs h
    rfl

theorem updateLeaf_spec (last : String) (value : Float64) (set : Bucket)
    (hs : shapeOK 0 set = true) :
    (updateLeaf last value set).2 = none ∧
    shapeOK 0 (updateLeaf last value set).1 = true ∧
    leafAt (updateLeaf last value set).1 [] last = some (bumped (leafAt set [] last) value) ∧
    ∀ vals1 last1, (vals1, last1) ≠ (([] : List String), last) →
      leafAt (updateLeaf last value set).1 vals1 last1 = leafAt set vals1 last1 := by
  have key : ∀ x : GoMap String Float64, ∀ vals1 last1, (vals1, last1) ≠ (([] : List String), last) →
      leafAt (GoMap.assign set last (Node.mapSF x)) vals1 last1 = leafAt set vals1 last1 := by
    intro x vals1 last1 hne
    cases vals1 with
    | nil =>
      have hl : last1 ≠ last := fun h => hne (by rw [h])
      simp only [leafAt, index_assign_ne _ _ _ _ hl]
    | cons v vs =>
      rw [leafAt_shape_zero_cons (shapeOK_zero_assign last x hs), leafAt_shape_zero_cons hs]
  unfold updateLeaf
  cases h : GoMap.index set last with
  | none =>
    refine ⟨rfl, shapeOK_zero_assign _ _ hs, ?_, key _⟩
    simp [leafAt, index_assign_self, h, bumped]
  | some node =>
    obtain ⟨stats, rfl⟩ := shapeOK_zero_index hs h
    refine ⟨rfl, shapeOK_zero_assign _ _ hs, ?_, key _⟩
    simp [leafAt, index_assign_self, h, bumped]

theorem groupValues_cons {event : Event} {f : String} {rest vals : List String}
    (h : groupValues event (f :: rest) = some vals) :
    ∃ s vs, Event.read event f = Value.string s ∧ groupValues event rest = some vs ∧
      vals = s :: vs := by
  unfold groupValues at h
  cases hr : Event.read event f with
  | string s =>
    rw [hr] at h
    cases hg : groupValues event rest with
    | none => rw [hg] at h; simp at h
    | some vs =>
      rw [hg] at h
      simp at h
      exact ⟨s, vs, rfl, rfl, h.symm⟩
  | nil => rw [hr] at h; simp at h
  | float64 x => rw [hr] at h; simp at h
  | time u => rw [hr] at h; simp at h
  | int n => rw [hr] at h; simp at h
  | bool b => rw [hr] at h; simp at h

theorem walk_spec (event : Event) (last : String) (value : Float64) :
    ∀ (fs vals : List String) (set : Bucket), groupValues event fs = some vals →
      shapeOK fs.length set = true →
      (walk event last value fs set).2 = none ∧
      shapeOK fs.length (walk event last value fs set).1 = true ∧
      leafAt (walk event last value fs set).1 vals last
        = some (bumped (leafAt set vals last) value) ∧
      ∀ vals1 last1, (vals1, last1) ≠ (vals, last) →
        leafAt (walk event last value fs set).1 vals1 last1 = leafAt set vals1 last1 := by
  intro fs
  induction fs with
  | nil =>
    intro vals set hg hs
    simp only [groupValues, Option.some.injEq] at hg
    subst hg
    exact updateLeaf_spec last value set hs
  | cons f rest ih =>
    intro vals set hg hs
    obtain ⟨s, vs, hr, hgr, rfl⟩ := groupValues_cons hg
    simp only [List.length_cons] at hs ⊢
    -- the child map that the loop descends into
    have main : ∀ child : Bucket, shapeOK rest.length child = true →
        leafAt set (s :: vs) last = leafAt child vs last →
        (∀ vs1 last1, leafAt set (s :: vs1) last1 = leafAt child vs1 last1) →
        let r := walk event last value rest child
        r.2 = none ∧
        shapeOK (rest.length + 1) (GoMap.assign set s (Node.mapSI r.1)) = true ∧
        leafAt (GoMap.assign set s (Node.mapSI r.1)) (s :: vs) last
          = some (bumped (leafAt set (s :: vs) last) value) ∧
        ∀ vals1 last1, (vals1, last1) ≠ (s :: vs, last) →
          leafAt (GoMap.assign set s (Node.mapSI r.1)) vals1 last1 = leafAt set vals1 last1 := by
      intro child hc hold holdall r
      obtain ⟨h1, h2, h3, h4⟩ := ih vs child hgr hc
      refine ⟨h1, shapeOK_succ_assign s hs h2, ?_, ?_⟩
      · rw [hold]
        simp only [leafAt, index_assign_self]
        exact h3
      · intro vals1 last1 hne
        cases vals1 with
        | nil =>
          rw [leafAt_shape_succ_nil (shapeOK_succ_assign s hs h2), leafAt_shape_succ_nil hs]
        | cons v vs1 =>
          by_cases hv : v = s
          · subst hv
            have hne1 : (vs1, last1) ≠ (vs, last) := by
              intro h
              apply hne
              cases h
              rfl
            rw [holdall]
            simp only [leafAt, index_assign_self]
            exact h4 vs1 last1 hne1
          · simp only [leafAt, index_assign_ne _ _ _ _ hv]
    unfold walk
    rw [hr]
    cases hi : GoMap.index set s with
    | none =>
      simp only [hi]
      apply main [] (shapeOK_nil _)
      · simp [leafAt, hi, leafAt_nil]
      · intro vs1 last1
        simp [leafAt, hi, leafAt_nil]
    | some node =>
      obtain ⟨child, rfl, hc⟩ := shapeOK_succ_index hs hi
      simp only [hi]
      apply main child hc
      · simp [leafAt, hi]
      · intro vs1 last1
        simp [leafAt, hi]

theorem tmod_bounds (t W : Int) :
    (0 ≤ t → 0 ≤ Int.tmod t W ∧ Int.tmod t W ≤ t) ∧
    (t ≤ 0 → t ≤ Int.tmod t W ∧ Int.tmod t W ≤ 0) := by
  cases t with
  | ofNat m =>
    cases W with
    | ofNat n =>
      have := Nat.mod_le m n
      simp only [Int.tmod, Int.ofNat_eq_coe, Nat.succ_eq_add_one]
      omega
    | negSucc n =>
      have := Nat.mod_le m (n + 1)
      simp only [Int.tmod, Int.ofNat_eq_coe, Nat.succ_eq_add_one]
      omega
  | negSucc m =>
    cases W with
    | ofNat n =>
      have := Nat.mod_le (m + 1) n
      simp only [Int.tmod, Int.ofNat_eq_coe, Int.negSucc_eq, Nat.succ_eq_add_one]
      omega
    | negSucc n =>
      have := Nat.mod_le (m + 1) (n + 1)
      simp only [Int.tmod, Int.ofNat_eq_coe, Int.negSucc_eq, Nat.succ_eq_add_one]
      omega

theorem windowStart_eq (W : Int) {t : Int} (h : IsInt64 t) :
    windowStart W t = t - Int.tmod t W := by
  unfold windowStart
  apply int64_of_isInt64
  have hb := tmod_bounds t W
  unfold IsInt64 at h ⊢
  rcases le_total 0 t with h0 | h0
  · have := hb.1 h0
    omega
  · have := hb.2 h0
    omega

theorem ageRejected_eq_false {p : LinkStatsMetricFilter} {now t : Int}
    (hR : IsInt64 p.reserveWindow) (h0 : 0 ≤ now - t) (h1 : now - t ≤ p.reserveWindow) :
    ageRejected p now t = false := by
  have hx : int64 (now - t) = now - t := by
    apply int64_of_isInt64
    unfold IsInt64 at hR ⊢
    omega
  simp only [ageRejected, hx, decide_eq_false_iff_not]
  omega

theorem deref_set_self {heap : List Bucket} {r : Ref} (h : r < heap.length) (b : Bucket) :
    deref (heap.set r b) r = b := by
  simp [deref, List.getElem?_set, h]

theorem deref_set_ne {heap : List Bucket} {r r1 : Ref} (h : r1 ≠ r) (b : Bucket) :
    deref (heap.set r b) r1 = deref heap r1 := by
  simp [deref, List.getElem?_set, Ne.symm h]

theorem deref_append_self (heap : List Bucket) (b : Bucket) :
    deref (heap ++ [b]) heap.length = b := by
  simp [deref]

theorem deref_append_lt {heap : List Bucket} {r : Ref} (h : r < heap.length) (b : Bucket) :
    deref (heap ++ [b]) r = deref heap r := by
  simp [deref, List.getElem?_append_left h]

theorem deref_mem {heap : List Bucket} {r : Ref} (h : r < heap.length) :
    deref heap r ∈ heap := by
  simp [deref, List.getElem?_eq_getElem h]

theorem key_eq_of_ref_eq {m : GoMap Int Ref} {k k1 : Int} {r : Ref}
    (hnd : (m.map Prod.snd).Nodup) (h : GoMap.index m k = some r)
    (h1 : GoMap.index m k1 = some r) : k1 = k := by
  have := List.inj_on_of_nodup_map hnd (mem_of_index h1) (mem_of_index h) rfl
  exact congrArg Prod.fst this

/-! ## The invariant is kept by every operation -/

theorem inv_set_heap {p : LinkStatsMetricFilter} (hinv : Inv p) (r : Ref) {b : Bucket}
    (hb : shapeOK p.fieldsWithoutLast.length b = true) :
    Inv { p with heap := p.heap.set r b } :=
  { metricKeys := hinv.metricKeys
    emitKeys := hinv.emitKeys
    metricRefs := hinv.metricRefs
    metricValid := fun e he => by
      simpa [List.length_set] using hinv.metricValid e he
    emitValid := fun e he => by
      simpa [List.length_set] using hinv.emitValid e he
    shape := fun b1 hb1 => by
      rcases List.mem_or_eq_of_mem_set hb1 with h | h
      · exact hinv.shape b1 h
      · rw [h]; exact hb
    fieldsSplit := hinv.fieldsSplit
    fieldsLen := hinv.fieldsLen
    windowPos := hinv.windowPos
    windowRange := hinv.windowRange
    reserveRange := hinv.reserveRange
    offsetRange := hinv.offsetRange }

theorem inv_alloc {p : LinkStatsMetricFilter} (hinv : Inv p) {k : Int}
    (hi : GoMap.index p.metric k = none) {b : Bucket}
    (hb : shapeOK p.fieldsWithoutLast.length b = true) :
    Inv { p with metric := GoMap.assign p.metric k p.heap.length, heap := p.heap ++ [b] } := by
  have hnotin := (index_eq_none_iff _ _).1 hi
  have happ := assign_of_index_none p.heap.length hi
  exact
    { metricKeys := by
        simp only [happ, List.map_append, List.map_cons, List.map_nil]
        exact List.Nodup.append hinv.metricKeys (List.nodup_singleton _)
          (by
            simp only [List.disjoint_singleton]
            exact hnotin)
      emitKeys := hinv.emitKeys
      metricRefs := by
        simp only [happ, List.map_append, List.map_cons, List.map_nil]
        refine List.Nodup.append hinv.metricRefs (List.nodup_singleton _) ?_
        simp only [List.disjoint_singleton, List.mem_map, not_exists, not_and]
        intro e he hlen
        have := hinv.metricValid e he
        rw [hlen] at this
        exact Nat.lt_irrefl _ this
      metricValid := fun e he => by
        simp only [happ, List.mem_append, List.mem_singleton] at he
        simp only [List.length_append, List.length_singleton]
        rcases he with he | he
        · exact Nat.lt_succ_of_lt (hinv.metricValid e he)
        · rw [he]
          exact Nat.lt_succ_self _
      emitValid := fun e he => by
        simp only [List.length_append, List.length_singleton]
        exact Nat.lt_succ_of_lt (hinv.emitValid e he)
      shape := fun b1 hb1 => by
        simp only [List.mem_append, List.mem_singleton] at hb1
        rcases hb1 with h | h
        · exact hinv.shape b1 h
        · rw [h]; exact hb
      fieldsSplit := hinv.fieldsSplit
      fieldsLen := hinv.fieldsLen
      windowPos := hinv.windowPos
      windowRange := hinv.windowRange
      reserveRange := hinv.reserveRange
      offsetRange := hinv.offsetRange }

theorem updateLeaf_shape (last : String) (value : Float64) {set : Bucket}
    (hs : shapeOK 0 set = true) : shapeOK 0 (updateLeaf last value set).1 = true := by
  unfold updateLeaf
  cases h : GoMap.index set last with
  | none => exact shapeOK_zero_assign _ _ hs
  | some node =>
    cases node with
    | mapSI m => exact hs
    | mapSF m => exact shapeOK_zero_assign _ _ hs

/-- The loop keeps the depth of the tree for every event, also when it returns early or
panics. -/
theorem walk_shape (event : Event) (last : String) (value : Float64) :
    ∀ (fs : List String) (set : Bucket), shapeOK fs.length set = true →
      shapeOK fs.length (walk event last value fs set).1 = true := by
  intro fs
  induction fs with
  | nil => intro set hs; exact updateLeaf_shape last value hs
  | cons f rest ih =>
    intro set hs
    simp only [List.length_cons] at hs ⊢
    unfold walk
    cases hr : Event.read event f with
    | nil => exact hs
    | float64 x => exact hs
    | time u => exact hs
    | int n => exact hs
    | bool b => exact hs
    | string s =>
      simp only
      cases hi : GoMap.index set s with
      | none =>
        simp only
        exact shapeOK_succ_assign s hs (ih [] (shapeOK_nil _))
      | some node =>
        cases node with
        | mapSF m => exact hs
        | mapSI child =>
          simp only
          obtain ⟨c, hc, hcs⟩ := shapeOK_succ_index hs hi
          cases hc
          exact shapeOK_succ_assign s hs (ih child hcs)


/-! ## The accepted event -/

theorem storeLeaf_eq {p : LinkStatsMetricFilter} {k : Int} {r : Ref}
    (h : GoMap.index p.metric k = some r) (vals : List String) (last : String) :
    storeLeaf p k vals last = leafAt (deref p.heap r) vals last := by
  simp [storeLeaf, bucketAt, h]

theorem storeLeaf_eq_none {p : LinkStatsMetricFilter} {k : Int}
    (h : GoMap.index p.metric k = none) (vals : List String) (last : String) :
    storeLeaf p k vals last = none := by
  simp [storeLeaf, bucketAt, h]

/-- What `updateMetric` does with an event that passes every check. -/
theorem updateMetric_accept {p : LinkStatsMetricFilter} {now : Int} {ev : Event} {v : Float64}
    {t : Int} {vals : List String} (hinv : Inv p)
    (hv : Event.read ev p.lastField = Value.float64 v)
    (ht : GoMap.index ev p.timestamp = some (Value.time t)) (htr : IsInt64 t)
    (h0 : 0 ≤ now - t) (h1 : now - t ≤ p.reserveWindow)
    (hg : groupValues ev p.fieldsWithoutLast = some vals) :
    ∃ p1, updateMetric p now ev = (p1, none) ∧ Inv p1 ∧
      p1 = { p with metric := p1.metric, heap := p1.heap } ∧
      storeLeaf p1 (t - Int.tmod t p.batchWindow) vals p.lastField
        = some (bumped (storeLeaf p (t - Int.tmod t p.batchWindow) vals p.lastField) v) ∧
      (∀ k vals1 last1, (k, vals1, last1) ≠ (t - Int.tmod t p.batchWindow, vals, p.lastField) →
        storeLeaf p1 k vals1 last1 = storeLeaf p k vals1 last1) ∧
      (∀ r, GoMap.index p1.metric (t - Int.tmod t p.batchWindow) ≠ some r →
        deref p1.heap r = deref p.heap r) := by
  have hW : p.batchWindow ≠ 0 := ne_of_gt hinv.windowPos
  have hage := ageRejected_eq_false hinv.reserveRange h0 h1
  have hkey := windowStart_eq p.batchWindow htr
  unfold updateMetric
  simp only [hv, ht, hage, hW, if_false, hkey, Bool.false_eq_true]
  cases hi : GoMap.index p.metric (t - Int.tmod t p.batchWindow) with
  | some r =>
    simp only
    have hr : r < p.heap.length := hinv.metricValid _ (mem_of_index hi)
    have hshape := hinv.shape _ (deref_mem hr)
    obtain ⟨w1, w2, w3, w4⟩ := walk_spec ev p.lastField v p.fieldsWithoutLast vals
      (deref p.heap r) hg hshape
    refine ⟨_, Prod.ext rfl w1, ?_, rfl, ?_, ?_, ?_⟩
    · exact inv_set_heap hinv r w2
    · rw [storeLeaf_eq hi]
      simp only [storeLeaf, bucketAt, hi, Option.map_some', Option.some_bind,
        deref_set_self hr]
      exact w3
    · intro k vals1 last1 hne
      by_cases hk : k = t - Int.tmod t p.batchWindow
      · subst hk
        have hne1 : (vals1, last1) ≠ (vals, p.lastField) := by
          intro h
          apply hne
          rw [Prod.mk.injEq] at h
          rw [h.1, h.2]
        rw [storeLeaf_eq hi]
        simp only [storeLeaf, bucketAt, hi, Option.map_some', Option.some_bind,
          deref_set_self hr]
        exact w4 vals1 last1 hne1
      · cases hk1 : GoMap.index p.metric k with
        | none => simp [storeLeaf, bucketAt, hk1]
        | some r1 =>
          have hr1 : r1 ≠ r := by
            rintro rfl
            exact hk (key_eq_of_ref_eq hinv.metricRefs hi hk1)
          simp [storeLeaf, bucketAt, hk1, deref_set_ne hr1]
    · intro r1 hr1
      have : r1 ≠ r := by
        rintro rfl
        exact hr1 hi
      exact deref_set_ne this _
  | none =>
    simp only
    obtain ⟨w1, w2, w3, w4⟩ := walk_spec ev p.lastField v p.fieldsWithoutLast vals
      [] hg (shapeOK_nil _)
    refine ⟨_, Prod.ext rfl w1, ?_, rfl, ?_, ?_, ?_⟩
    · exact inv_alloc hinv hi w2
    · rw [storeLeaf_eq_none hi]
      simp only [storeLeaf, bucketAt, index_assign_self, Option.map_some', Option.some_bind,
        deref_append_self]
      rw [w3, leafAt_nil]
    · intro k vals1 last1 hne
      by_cases hk : k = t - Int.tmod t p.batchWindow
      · subst hk
        have hne1 : (vals1, last1) ≠ (vals, p.lastField) := by
          intro h
          apply hne
          rw [Prod.mk.injEq] at h
          rw [h.1, h.2]
        rw [storeLeaf_eq_none hi]
        simp only [storeLeaf, bucketAt, index_assign_self, Option.map_some', Option.some_bind,
          deref_append_self]
        rw [w4 vals1 last1 hne1, leafAt_nil]
      · cases hk1 : GoMap.index p.metric k with
        | none => simp [storeLeaf, bucketAt, hk1, index_assign_ne _ _ _ _ hk]
        | some r1 =>
          have hr1 : r1 < p.heap.length := hinv.metricValid _ (mem_of_index hk1)
          simp [storeLeaf, bucketAt, hk1, index_assign_ne _ _ _ _ hk, deref_append_lt hr1]
    · intro r1 hr1
      simp only [index_assign_self, ne_eq, Option.some.injEq] at hr1
      rcases Nat.lt_or_ge r1 p.heap.length with h | h
      · exact deref_append_lt h _
      · have h2 : p.heap.length < r1 := lt_of_le_of_ne h (fun h3 => hr1 h3)
        have h3 : (p.heap ++ [(walk ev p.lastField v p.fieldsWithoutLast []).1]).length ≤ r1 := by
          simp only [List.length_append, List.length_singleton]
          exact h2
        simp only [deref, List.getElem?_eq_none h3, List.getElem?_eq_none h]

/-- The method `updateMetric` keeps the invariant, whatever the event and whether the call
returns or panics. -/
theorem updateMetric_inv {p : LinkStatsMetricFilter} (hinv : Inv p) (now : Int) (ev : Event) :
    Inv (updateMetric p now ev).1 := by
  unfold updateMetric
  cases hv : Event.read ev p.lastField with
  | nil => exact hinv
  | string s => exact hinv
  | time u => exact hinv
  | int n => exact hinv
  | bool b => exact hinv
  | float64 v =>
    simp only
    cases ht : GoMap.index ev p.timestamp with
    | none => exact hinv
    | some tv =>
      cases tv with
      | nil => exact hinv
      | float64 x => exact hinv
      | string s => exact hinv
      | int n => exact hinv
      | bool b => exact hinv
      | time t =>
        simp only
        split
        · exact hinv
        · split
          · exact hinv
          · cases hi : GoMap.index p.metric (windowStart p.batchWindow t) with
            | some r =>
              have hr : r < p.heap.length := hinv.metricValid _ (mem_of_index hi)
              exact inv_set_heap hinv r
                (walk_shape ev p.lastField v _ _ (hinv.shape _ (deref_mem hr)))
            | none =>
              exact inv_alloc hinv hi (walk_shape ev p.lastField v _ _ (shapeOK_nil _))


theorem read0_addSample_count (s : GoMap String Float64) (v : Float64) :
    GoMap.read0 (addSample s v) "count" = 1 + GoMap.read0 s "count" := by
  have h : ("count" : String) ≠ "sum" := by decide
  simp [addSample, GoMap.read0, index_assign_self, index_assign_ne _ _ _ _ h]

theorem read0_addSample_sum (s : GoMap String Float64) (v : Float64) :
    GoMap.read0 (addSample s v) "sum" = v + GoMap.read0 s "sum" := by
  have h : ("sum" : String) ≠ "count" := by decide
  simp [addSample, GoMap.read0, index_assign_self, index_assign_ne _ _ _ _ h]

theorem newStats_eq (v : Float64) : newStats v = [("count", 1), ("sum", v)] := by
  simp [newStats, GoMap.assign]

theorem inv_hostPlugin : Inv hostPlugin :=
  ⟨by decide, by decide, by decide, by decide, by decide, by decide, by decide, by decide,
    by decide, by decide, by decide, by decide⟩

theorem inv_sharedPlugin : Inv sharedPlugin :=
  ⟨by decide, by decide, by decide, by decide, by decide, by decide, by decide, by decide,
    by decide, by decide, by decide, by decide⟩

theorem foldl_assign_eq_filter (c : Int → Prop) [DecidablePred c] :
    ∀ (l acc : GoMap Int Ref), ((acc ++ l).map Prod.fst).Nodup →
      l.foldl (fun a e => if c e.1 then GoMap.assign a e.1 e.2 else a) acc
        = acc ++ l.filter (fun e => decide (c e.1)) := by
  intro l
  induction l with
  | nil => intro acc _; simp
  | cons e l ih =>
    intro acc hnd
    have hnd1 : (((acc ++ [e]) ++ l).map Prod.fst).Nodup := by
      simpa using hnd
    by_cases hc : c e.1
    · have hnot : e.1 ∉ acc.map Prod.fst := by
        intro hmem
        simp only [List.map_append, List.map_cons] at hnd
        exact (List.disjoint_of_nodup_append hnd) hmem (List.mem_cons_self _ _)
      have happ : GoMap.assign acc e.1 e.2 = acc ++ [e] :=
        assign_of_index_none e.2 ((index_eq_none_iff _ _).2 hnot)
      simp only [List.foldl_cons, hc, if_true, happ, ih _ hnd1, List.filter_cons, decide_True]
      simp
    · have hnd2 : ((acc ++ l).map Prod.fst).Nodup := by
        simp only [List.map_append, List.map_cons] at hnd ⊢
        exact List.Nodup.sublist
          (List.Sublist.append_left (List.sublist_cons_self _ _) _) hnd
      simp only [List.foldl_cons, hc, if_false, ih _ hnd2, List.filter_cons, decide_False]
      simp

theorem selectToEmit_eq_filter {m : GoMap Int Ref} (h : (m.map Prod.fst).Nodup) (thr : Int) :
    selectToEmit m thr = m.filter (fun e => decide (e.1 ≤ thr)) := by
  have := foldl_assign_eq_filter (fun k => k ≤ thr) m [] (by simpa using h)
  simpa [selectToEmit] using this

theorem retain_eq_filter {m : GoMap Int Ref} (h : (m.map Prod.fst).Nodup) (bound : Int) :
    retain m bound = m.filter (fun e => decide (e.1 ≥ bound)) := by
  have := foldl_assign_eq_filter (fun k => k ≥ bound) m [] (by simpa using h)
  simpa [retain] using this

/-- The rotation tick keeps the invariant. -/
theorem tick_inv {p : LinkStatsMetricFilter} (hinv : Inv p) (now : Int) :
    Inv (tick p now).1 := by
  unfold tick
  split
  · split
    · exact hinv
    · simp only [selectToEmit_eq_filter hinv.metricKeys, retain_eq_filter hinv.metricKeys]
      split
      · exact
          { metricKeys := List.nodup_nil
            emitKeys := List.Nodup.sublist (List.Sublist.map _ (List.filter_sublist _))
              hinv.metricKeys
            metricRefs := List.nodup_nil
            metricValid := fun e he => by simp at he
            emitValid := fun e he => hinv.metricValid e (List.mem_filter.1 he).1
            shape := hinv.shape
            fieldsSplit := hinv.fieldsSplit
            fieldsLen := hinv.fieldsLen
            windowPos := hinv.windowPos
            windowRange := hinv.windowRange
            reserveRange := hinv.reserveRange
            offsetRange := hinv.offsetRange }
      · exact
          { metricKeys := List.Nodup.sublist (List.Sublist.map _ (List.filter_sublist _))
              hinv.metricKeys
            emitKeys := List.Nodup.sublist (List.Sublist.map _ (List.filter_sublist _))
              hinv.metricKeys
            metricRefs := List.Nodup.sublist (List.Sublist.map _ (List.filter_sublist _))
              hinv.metricRefs
            metricValid := fun e he => hinv.metricValid e (List.mem_filter.1 he).1
            emitValid := fun e he => hinv.metricValid e (List.mem_filter.1 he).1
            shape := hinv.shape
            fieldsSplit := hinv.fieldsSplit
            fieldsLen := hinv.fieldsLen
            windowPos := hinv.windowPos
            windowRange := hinv.windowRange
            reserveRange := hinv.reserveRange
            offsetRange := hinv.offsetRange }
  · exact hinv

theorem read0_newStats_count (v : Float64) : GoMap.read0 (newStats v) "count" = 1 := by
  simp [newStats_eq, GoMap.read0, GoMap.index]

theorem read0_newStats_sum (v : Float64) : GoMap.read0 (newStats v) "sum" = v := by
  simp [newStats_eq, GoMap.read0, GoMap.index]

/-- Two accepted events of the same bucket and grouping path, ingested one after the other:
the leaf holds the stats of the store bumped by the first value and then by the second. -/
theorem updateMetric_accept_twice {p : LinkStatsMetricFilter} {now : Int} {e1 e2 : Event}
    {v1 v2 : Float64} {t1 t2 : Int} {vals : List String} (hinv : Inv p)
    (hv1 : Event.read e1 p.lastField = Value.float64 v1)
    (ht1 : GoMap.index e1 p.timestamp = some (Value.time t1)) (htr1 : IsInt64 t1)
    (h01 : 0 ≤ now - t1) (h11 : now - t1 ≤ p.reserveWindow)
    (hg1 : groupValues e1 p.fieldsWithoutLast = some vals)
    (hv2 : Event.read e2 p.lastField = Value.float64 v2)
    (ht2 : GoMap.index e2 p.timestamp = some (Value.time t2)) (htr2 : IsInt64 t2)
    (h02 : 0 ≤ now - t2) (h12 : now - t2 ≤ p.reserveWindow)
    (hg2 : groupValues e2 p.fieldsWithoutLast = some vals)
    (hkey : t1 - Int.tmod t1 p.batchWindow = t2 - Int.tmod t2 p.batchWindow) :
    (updateMetric p now e1).2 = none ∧
    (updateMetric (updateMetric p now e1).1 now e2).2 = none ∧
    storeLeaf (updateMetric (updateMetric p now e1).1 now e2).1
        (t1 - Int.tmod t1 p.batchWindow) vals p.lastField
      = some (bumped (some (bumped
          (storeLeaf p (t1 - Int.tmod t1 p.batchWindow) vals p.lastField) v1)) v2) := by
  obtain ⟨p1, hrun1, hinv1, hcfg, hleaf1, _, _⟩ :=
    updateMetric_accept hinv hv1 ht1 htr1 h01 h11 hg1
  have hl : p1.lastField = p.lastField := by
    have h := congrArg LinkStatsMetricFilter.lastField hcfg
    exact h
  have hts : p1.timestamp = p.timestamp := by
    have h := congrArg LinkStatsMetricFilter.timestamp hcfg
    exact h
  have hW : p1.batchWindow = p.batchWindow := by
    have h := congrArg LinkStatsMetricFilter.batchWindow hcfg
    exact h
  have hRw : p1.reserveWindow = p.reserveWindow := by
    have h := congrArg LinkStatsMetricFilter.reserveWindow hcfg
    exact h
  have hf : p1.fieldsWithoutLast = p.fieldsWithoutLast := by
    have h := congrArg LinkStatsMetricFilter.fieldsWithoutLast hcfg
    exact h
  obtain ⟨p2, hrun2, _, _, hleaf2, _, _⟩ :=
    @updateMetric_accept p1 now e2 v2 t2 vals
      hinv1 (by rw [hl]; exact hv2) (by rw [hts]; exact ht2) htr2 h02
      (by rw [hRw]; exact h12) (by rw [hf]; exact hg2)
  rw [hrun1]
  simp only
  rw [hrun2]
  simp only
  refine ⟨trivial, trivial, ?_⟩
  rw [hW, hl, ← hkey] at hleaf2
  rw [hleaf2, hleaf1]

theorem tmod_of_window {W t k : Int} (hW : 0 < W) (hk : 0 ≤ k) (hlo : k * W ≤ t)
    (hhi : t < (k + 1) * W) : t - Int.tmod t W = k * W := by
  have hkW : 0 ≤ k * W := Int.mul_nonneg hk (le_of_lt hW)
  have ht0 : 0 ≤ t := le_trans hkW hlo
  have hr0 : 0 ≤ t - k * W := by omega
  have hr1 : t - k * W < W := by
    have : (k + 1) * W = k * W + W := by ring
    omega
  have hmod : t % W = t - k * W := by
    have h1 : t = (t - k * W) + k * W := by ring
    rw [h1, Int.add_mul_emod_self, Int.emod_eq_of_lt hr0 hr1]
    ring
  rw [Int.tmod_eq_emod ht0 (le_of_lt hW), hmod]
  ring

theorem tick_eq_of_slot_empty {p : LinkStatsMetricFilter} (now : Int) (hinv : Inv p)
    (hslot : p.metricToEmit = []) (hne : p.metric ≠ []) :
    tick p now =
      ({ p with
          metricToEmit := selectToEmit p.metric
            (int64 (windowStart p.batchWindow now - int64 (p.batchWindow * p.windowOffset)))
          metric := if p.accumulatateMode = 1 then []
            else retain p.metric (int64 (windowStart p.batchWindow now - p.reserveWindow)) },
        none) := by
  have hW : p.batchWindow ≠ 0 := ne_of_gt hinv.windowPos
  have hlen : 0 < p.metric.length := List.length_pos.2 hne
  unfold tick
  simp only [hslot, List.length_nil, hlen, gt_iff_lt, and_self, if_true, hW, if_false]
  split <;> rfl

/-- A call of `updateMetric` writes nothing but `metric` and the bucket objects. -/
theorem updateMetric_config (p : LinkStatsMetricFilter) (now : Int) (ev : Event) :
    ∃ m h, (updateMetric p now ev).1 = { p with metric := m, heap := h } := by
  unfold updateMetric
  cases hv : Event.read ev p.lastField with
  | nil => exact ⟨_, _, rfl⟩
  | string s => exact ⟨_, _, rfl⟩
  | time u => exact ⟨_, _, rfl⟩
  | int n => exact ⟨_, _, rfl⟩
  | bool b => exact ⟨_, _, rfl⟩
  | float64 v =>
    simp only
    cases ht : GoMap.index ev p.timestamp with
    | none => exact ⟨_, _, rfl⟩
    | some tv =>
      cases tv with
      | nil => exact ⟨_, _, rfl⟩
      | float64 x => exact ⟨_, _, rfl⟩
      | string s => exact ⟨_, _, rfl⟩
      | int n => exact ⟨_, _, rfl⟩
      | bool b => exact ⟨_, _, rfl⟩
      | time t =>
        simp only
        split
        · exact ⟨_, _, rfl⟩
        · split
          · exact ⟨_, _, rfl⟩
          · cases hi : GoMap.index p.metric (windowStart p.batchWindow t) with
            | some r => exact ⟨_, _, rfl⟩
            | none => exact ⟨_, _, rfl⟩

/-! ## The flattener -/

theorem flatMap_congr_mem {α β : Type} {f g : α → List β} :
    ∀ {l : List α}, (∀ a ∈ l, f a = g a) → l.flatMap f = l.flatMap g := by
  intro l
  induction l with
  | nil => intro _; rfl
  | cons a l ih =>
    intro h
    rw [List.flatMap_cons, List.flatMap_cons, h a (List.mem_cons_self _ _),
      ih (fun b hb => h b (List.mem_cons_of_mem _ hb))]

theorem collect_eq_flatMap {α : Type} {body : α → Except Panic (List Event)}
    {g : α → List Event} :
    ∀ {l : List α}, (∀ a ∈ l, body a = Except.ok (g a)) →
      collect body l = Except.ok (l.flatMap g) := by
  intro l
  induction l with
  | nil => intro _; rfl
  | cons a l ih =>
    intro h
    rw [collect, h a (List.mem_cons_self _ _)]
    simp only
    rw [ih (fun b hb => h b (List.mem_cons_of_mem _ hb))]
    rfl

/-- On a tree of the right depth `flatten` returns, and returns the records of the leaves
in the order of the traversal. -/
theorem flatten_eq (fieldsLength : Nat) :
    ∀ (n : Nat) (rest : List String) (level : Nat) (set : Bucket),
      shapeOK n set = true → rest.length = n + 1 → level + n + 1 = fieldsLength →
      flatten fieldsLength rest level set
        = Except.ok ((leafPaths n set).map (fun l => recordOf rest l.1 l.2.1 l.2.2)) := by
  intro n
  induction n with
  | zero =>
    intro rest level set hs hlen hlev
    match rest, hlen with
    | [f], _ =>
      have hterm : level + 1 = fieldsLength := by omega
      rw [flatten]
      simp only [hterm, if_true]
      rw [leafPaths, List.map_flatMap]
      apply collect_eq_flatMap
      intro e he
      simp only [shapeOK, List.all_eq_true] at hs
      have := hs e he
      cases hnode : e.2 with
      | mapSI m => rw [hnode] at this; simp at this
      | mapSF stats => simp [recordOf]
  | succ n ih =>
    intro rest level set hs hlen hlev
    match rest, hlen with
    | f :: rest1, hlen1 =>
      have hnot : ¬ (level + 1 = fieldsLength) := by omega
      have hlen2 : rest1.length = n + 1 := by simpa using hlen1
      rw [flatten]
      simp only [hnot, if_false]
      rw [leafPaths, List.map_flatMap]
      apply collect_eq_flatMap
      intro e he
      simp only [shapeOK, List.all_eq_true] at hs
      have := hs e he
      cases hnode : e.2 with
      | mapSF stats => rw [hnode] at this; simp at this
      | mapSI child =>
        rw [hnode] at this
        simp only at this
        simp only [ih rest1 (level + 1) child this hlen2 (by omega), List.map_map]
        congr 1

theorem metricToEvents_eq_of_fields {p : LinkStatsMetricFilter}
    (hsplit : p.fields = p.fieldsWithoutLast ++ [p.lastField])
    (hlen : p.fieldsLength = p.fields.length) {b : Bucket}
    (hb : shapeOK p.fieldsWithoutLast.length b = true) :
    metricToEvents p b 0 = Except.ok ((leafPaths p.fieldsWithoutLast.length b).map
      (fun l => recordOf p.fields l.1 l.2.1 l.2.2)) := by
  unfold metricToEvents
  rw [List.drop_zero]
  apply flatten_eq
  · exact hb
  · rw [hsplit]; simp
  · rw [hlen, hsplit]; simp

theorem metricToEvents_eq {p : LinkStatsMetricFilter} (hinv : Inv p) {b : Bucket}
    (hb : shapeOK p.fieldsWithoutLast.length b = true) :
    metricToEvents p b 0 = Except.ok ((leafPaths p.fieldsWithoutLast.length b).map
      (fun l => recordOf p.fields l.1 l.2.1 l.2.2)) :=
  metricToEvents_eq_of_fields hinv.fieldsSplit hinv.fieldsLen hb

theorem flattened_eq {p : LinkStatsMetricFilter} (hinv : Inv p) {b : Bucket}
    (hb : shapeOK p.fieldsWithoutLast.length b = true) :
    flattened p b = (leafPaths p.fieldsWithoutLast.length b).map
      (fun l => recordOf p.fields l.1 l.2.1 l.2.2) := by
  simp only [flattened, metricToEvents_eq hinv hb]

/-! ## The drain -/

theorem drainLoop_eq (postProcess : Event → Bool → Event) {p : LinkStatsMetricFilter} :
    ∀ (slot : GoMap Int Ref) (sTo : List Event),
      (∀ e ∈ slot, ∃ evs, metricToEvents p (deref p.heap e.2) 0 = Except.ok evs) →
      drainLoop postProcess p slot sTo
        = (sTo ++ slot.flatMap (fun e => (flattened p (deref p.heap e.2)).map (fun event =>
            postProcess (GoMap.assign event p.timestamp (Value.time e.1)) true)), none) := by
  intro slot
  induction slot with
  | nil => intro sTo _; simp [drainLoop]
  | cons e slot ih =>
    intro sTo h
    obtain ⟨k, r⟩ := e
    obtain ⟨evs, hevs⟩ := h (k, r) (List.mem_cons_self _ _)
    rw [drainLoop]
    simp only [hevs]
    rw [ih _ (fun e he => h e (List.mem_cons_of_mem _ he))]
    simp [flattened, hevs, List.flatMap_cons]

/-! ## The invariant of the reachable trees -/

theorem treeOK_shape (last : String) :
    ∀ (n : Nat) (set : Bucket), treeOK last n set = true → shapeOK n set = true := by
  intro n
  induction n with
  | zero =>
    intro set h
    simp only [treeOK, shapeOK, List.all_eq_true] at h ⊢
    intro e he
    have := h e he
    cases hn : e.2 with
    | mapSI m => rw [hn] at this; simp at this
    | mapSF m => rfl
  | succ n ih =>
    intro set h
    simp only [treeOK, shapeOK, List.all_eq_true] at h ⊢
    intro e he
    have := h e he
    cases hn : e.2 with
    | mapSI m => rw [hn] at this; exact ih m this
    | mapSF m => rw [hn] at this; simp at this

theorem countInRange_iff {stats : GoMap String Float64} :
    countInRange stats = true ↔
      ∃ c : ℚ, GoMap.read0 stats "count" = Float64.finite c ∧ 1 ≤ c ∧ c.den = 1 ∧
        c ≤ 9007199254740992 := by
  unfold countInRange
  cases h : GoMap.read0 stats "count" with
  | finite c =>
    simp only [Bool.and_eq_true, decide_eq_true_eq, Float64.finite.injEq, exists_eq_left']
    tauto
  | inf s => simp
  | nan => simp

theorem statsOK_iff {stats : GoMap String Float64} :
    statsOK stats = true ↔
      ∃ c : ℚ, GoMap.read0 stats "count" = Float64.finite c ∧ 1 ≤ c ∧ c.den = 1 := by
  unfold statsOK
  cases h : GoMap.read0 stats "count" with
  | finite c =>
    simp only [Bool.and_eq_true, decide_eq_true_eq, Float64.finite.injEq, exists_eq_left']
  | inf s => simp
  | nan => simp

theorem countInRange_statsOK {stats : GoMap String Float64} (h : countInRange stats = true) :
    statsOK stats = true := by
  obtain ⟨c, h1, h2, h3, _⟩ := countInRange_iff.1 h
  exact statsOK_iff.2 ⟨c, h1, h2, h3⟩

theorem treeInRange_treeOK (last : String) :
    ∀ (n : Nat) (set : Bucket), treeInRange last n set = true → treeOK last n set = true := by
  intro n
  induction n with
  | zero =>
    intro set h
    simp only [treeInRange, treeOK, List.all_eq_true] at h ⊢
    intro e he
    have := h e he
    cases hn : e.2 with
    | mapSI m => rw [hn] at this; simp at this
    | mapSF m =>
      rw [hn] at this
      simp only [Bool.and_eq_true] at this ⊢
      exact ⟨this.1, countInRange_statsOK this.2⟩
  | succ n ih =>
    intro set h
    simp only [treeInRange, treeOK, List.all_eq_true] at h ⊢
    intro e he
    have := h e he
    cases hn : e.2 with
    | mapSI m => rw [hn] at this; exact ih m this
    | mapSF m => rw [hn] at this; simp at this

theorem treeInRange_nil (last : String) (n : Nat) : treeInRange last n [] = true := by
  cases n <;> simp [treeInRange]

theorem countInRange_newStats (v : Float64) : countInRange (newStats v) = true := by
  apply countInRange_iff.2
  refine ⟨1, ?_, le_refl _, rfl, by norm_num⟩
  simp [newStats_eq, GoMap.read0, GoMap.index, float64_ofNat]

/-- The addition `1 + count` of line 187 keeps a whole count between 1 and 2^53 in that
range: below 2^53 the sum is exact, and at 2^53 it is rounded back to 2^53. -/
theorem countInRange_addSample {stats : GoMap String Float64} (v : Float64)
    (h : countInRange stats = true) : countInRange (addSample stats v) = true := by
  obtain ⟨c, hc, h1, hden, hle⟩ := countInRange_iff.1 h
  apply countInRange_iff.2
  rw [read0_addSample_count, hc, float64_ofNat, float64_add_finite]
  have hnum : ((c.num : Int) : ℚ) = c := Rat.coe_int_num_of_den_eq_one hden
  have hn1 : (1 : Int) ≤ c.num := by
    have : ((1 : Int) : ℚ) ≤ ((c.num : Int) : ℚ) := by rw [hnum]; exact_mod_cast h1
    exact_mod_cast this
  have hn2 : c.num ≤ 9007199254740992 := by
    have : ((c.num : Int) : ℚ) ≤ ((9007199254740992 : Int) : ℚ) := by
      rw [hnum]; exact_mod_cast hle
    exact_mod_cast this
  by_cases hmax : c.num = 9007199254740992
  · have hcq : c = 9007199254740992 := by
      rw [← hnum, hmax]
      norm_num
    refine ⟨9007199254740992, ?_, by norm_num, rfl, le_refl _⟩
    rw [hcq]
    have h2 : ((1 : Nat) : ℚ) + 9007199254740992 = 9007199254740992 + 1 := by norm_num
    rw [h2]
    exact round64_two_pow_53_succ
  · have hsum : ((1 : Nat) : ℚ) + c = (((1 + c.num : Int)) : ℚ) := by
      rw [← hnum]
      push_cast
      rfl
    refine ⟨((1 + c.num : Int) : ℚ), ?_, ?_, Rat.den_intCast _, ?_⟩
    · rw [hsum]
      apply round64_intCast
      omega
    · have : (1 : Int) ≤ 1 + c.num := by omega
      exact_mod_cast this
    · have : 1 + c.num ≤ (9007199254740992 : Int) := by omega
      exact_mod_cast this

theorem treeInRange_zero_index {last : String} {set : Bucket} {k : String} {node : Node}
    (hs : treeInRange last 0 set = true) (h : GoMap.index set k = some node) :
    ∃ stats, node = Node.mapSF stats ∧ countInRange stats = true := by
  have hm := mem_of_index h
  simp only [treeInRange, List.all_eq_true] at hs
  have := hs _ hm
  cases node with
  | mapSI m => simp at this
  | mapSF m =>
    simp only [Bool.and_eq_true] at this
    exact ⟨m, rfl, this.2⟩

theorem treeInRange_succ_index {last : String} {n : Nat} {set : Bucket} {k : String}
    {node : Node} (hs : treeInRange last (n + 1) set = true)
    (h : GoMap.index set k = some node) :
    ∃ child, node = Node.mapSI child ∧ treeInRange last n child = true := by
  have hm := mem_of_index h
  simp only [treeInRange, List.all_eq_true] at hs
  have := hs _ hm
  cases node with
  | mapSI m => exact ⟨m, rfl, by simpa using this⟩
  | mapSF m => simp at this

theorem treeInRange_zero_assign {last : String} {set : Bucket}
    {stats : GoMap String Float64} (hs : treeInRange last 0 set = true)
    (hst : countInRange stats = true) :
    treeInRange last 0 (GoMap.assign set last (Node.mapSF stats)) = true := by
  simp only [treeInRange, List.all_eq_true] at hs ⊢
  intro e he
  rcases mem_assign he with h | h
  · simp [h, hst]
  · exact hs e h

theorem treeInRange_succ_assign {last : String} {n : Nat} {set : Bucket} (k : String)
    {child : Bucket} (hs : treeInRange last (n + 1) set = true)
    (hc : treeInRange last n child = true) :
    treeInRange last (n + 1) (GoMap.assign set k (Node.mapSI child)) = true := by
  simp only [treeInRange, List.all_eq_true] at hs ⊢
  intro e he
  rcases mem_assign he with h | h
  · simp [h, hc]
  · exact hs e h

theorem updateLeaf_treeInRange (last : String) (value : Float64) {set : Bucket}
    (hs : treeInRange last 0 set = true) :
    treeInRange last 0 (updateLeaf last value set).1 = true := by
  unfold updateLeaf
  cases h : GoMap.index set last with
  | none => exact treeInRange_zero_assign hs (countInRange_newStats _)
  | some node =>
    obtain ⟨stats, rfl, hst⟩ := treeInRange_zero_index hs h
    exact treeInRange_zero_assign hs (countInRange_addSample _ hst)

/-- The loop keeps the leaves under the key `last` with whole counts between 1 and 2^53,
for every event, also when it returns early or panics. -/
theorem walk_treeInRange (event : Event) (last : String) (value : Float64) :
    ∀ (fs : List String) (set : Bucket), treeInRange last fs.length set = true →
      treeInRange last fs.length (walk event last value fs set).1 = true := by
  intro fs
  induction fs with
  | nil => intro set hs; exact updateLeaf_treeInRange last value hs
  | cons f rest ih =>
    intro set hs
    simp only [List.length_cons] at hs ⊢
    unfold walk
    cases hr : Event.read event f with
    | nil => exact hs
    | float64 x => exact hs
    | time u => exact hs
    | int n => exact hs
    | bool b => exact hs
    | string s =>
      simp only
      cases hi : GoMap.index set s with
      | none =>
        simp only
        exact treeInRange_succ_assign s hs (ih [] (treeInRange_nil _ _))
      | some node =>
        obtain ⟨child, rfl, hcs⟩ := treeInRange_succ_index hs hi
        simp only
        exact treeInRange_succ_assign s hs (ih child hcs)

/-- The method `updateMetric` keeps the invariant of the reachable states, whatever the
event and whether the call returns or panics. -/
theorem updateMetric_treeInv {p : LinkStatsMetricFilter} (h : TreeInv p) (now : Int)
    (ev : Event) : TreeInv (updateMetric p now ev).1 := by
  refine ⟨updateMetric_inv h.inv now ev, ?_⟩
  have hinv := h.inv
  unfold updateMetric
  cases hv : Event.read ev p.lastField with
  | nil => exact h.trees
  | string s => exact h.trees
  | time u => exact h.trees
  | int n => exact h.trees
  | bool b => exact h.trees
  | float64 v =>
    simp only
    cases ht : GoMap.index ev p.timestamp with
    | none => exact h.trees
    | some tv =>
      cases tv with
      | nil => exact h.trees
      | float64 x => exact h.trees
      | string s => exact h.trees
      | int n => exact h.trees
      | bool b => exact h.trees
      | time t =>
        simp only
        split
        · exact h.trees
        · split
          · exact h.trees
          · cases hi : GoMap.index p.metric (windowStart p.batchWindow t) with
            | some r =>
              have hr : r < p.heap.length := hinv.metricValid _ (mem_of_index hi)
              intro b hb
              rcases List.mem_or_eq_of_mem_set hb with hb1 | hb1
              · exact h.trees b hb1
              · rw [hb1]
                exact walk_treeInRange ev p.lastField v _ _ (h.trees _ (deref_mem hr))
            | none =>
              intro b hb
              simp only [List.mem_append, List.mem_singleton] at hb
              rcases hb with hb1 | hb1
              · exact h.trees b hb1
              · rw [hb1]
                exact walk_treeInRange ev p.lastField v _ _ (treeInRange_nil _ _)

/-- A rotation tick writes nothing but `metric` and `metricToEmit`. -/
theorem tick_config (p : LinkStatsMetricFilter) (now : Int) :
    ∃ m s, (tick p now).1 = { p with metric := m, metricToEmit := s } := by
  unfold tick
  split
  · split
    · exact ⟨_, _, rfl⟩
    · split
      · exact ⟨_, _, rfl⟩
      · exact ⟨_, _, rfl⟩
  · exact ⟨_, _, rfl⟩

theorem tick_treeInv {p : LinkStatsMetricFilter} (h : TreeInv p) (now : Int) :
    TreeInv (tick p now).1 := by
  refine ⟨tick_inv h.inv now, ?_⟩
  obtain ⟨m, s, hc⟩ := tick_config p now
  rw [hc]
  exact h.trees

theorem inv_clear_slot {p : LinkStatsMetricFilter} (hinv : Inv p) :
    Inv { p with metricToEmit := [] } :=
  { metricKeys := hinv.metricKeys
    emitKeys := List.nodup_nil
    metricRefs := hinv.metricRefs
    metricValid := hinv.metricValid
    emitValid := fun e he => by simp at he
    shape := hinv.shape
    fieldsSplit := hinv.fieldsSplit
    fieldsLen := hinv.fieldsLen
    windowPos := hinv.windowPos
    windowRange := hinv.windowRange
    reserveRange := hinv.reserveRange
    offsetRange := hinv.offsetRange }

/-- A drain writes nothing but `metricToEmit`, which it leaves as it was or empty. -/
theorem EmitExtraEvents_state (postProcess : Event → Bool → Event)
    (p : LinkStatsMetricFilter) (sTo : List Event) :
    (EmitExtraEvents postProcess p sTo).1 = p ∨
    (EmitExtraEvents postProcess p sTo).1 = { p with metricToEmit := [] } := by
  unfold EmitExtraEvents
  split
  · exact Or.inl rfl
  · split
    · exact Or.inr rfl
    · exact Or.inl rfl

theorem EmitExtraEvents_treeInv (postProcess : Event → Bool → Event)
    {p : LinkStatsMetricFilter} (h : TreeInv p) (sTo : List Event) :
    TreeInv (EmitExtraEvents postProcess p sTo).1 := by
  rcases EmitExtraEvents_state postProcess p sTo with hs | hs
  · rw [hs]; exact h
  · rw [hs]; exact ⟨inv_clear_slot h.inv, h.trees⟩

/-! ## The constructed plugin and the reachable states -/

theorem splitArrow_ne_nil : ∀ (n : Nat) (cs piece : List Char), cs.length ≤ n →
    splitArrow cs piece ≠ [] := by
  intro n
  induction n with
  | zero =>
    intro cs piece h
    have : cs = [] := List.length_eq_zero.1 (Nat.le_zero.1 h)
    subst this
    simp [splitArrow]
  | succ n ih =>
    intro cs piece h
    unfold splitArrow
    split
    · simp
    · simp
    · rename_i c rest _
      apply ih
      simp only [List.length_cons] at h
      omega

theorem take_append_last {l : List String} (h : l ≠ []) :
    l = l.take (l.length - 1) ++ [(l.get? (l.length - 1)).getD ""] := by
  have h1 := List.dropLast_append_getLast h
  rw [List.dropLast_eq_take] at h1
  have h2 : l.get? (l.length - 1) = some (l.getLast h) := by
    rw [List.get?_eq_getElem?, ← List.getLast?_eq_getElem?, List.getLast?_eq_getLast _ h]
  rw [h2]
  exact h1.symm

/-- A plugin that the constructor returns for a typed configuration satisfies the
invariant of the reachable states and has empty maps. -/
theorem construct_treeInv {config : Config} {p : LinkStatsMetricFilter}
    (hc : config.typed) (h : NewLinkStatsMetricFilter config = Except.ok p) :
    TreeInv p ∧ p.metric = [] ∧ p.metricToEmit = [] ∧ p.heap = [] := by
  unfold NewLinkStatsMetricFilter at h
  simp only at h
  split at h
  · cases h
  · rename_i hpos
    simp only [Except.ok.injEq] at h
    subst h
    obtain ⟨hW, hR, hO, hT⟩ := hc
    have hne : splitArrow config.fieldsLink.toList [] ≠ [] :=
      splitArrow_ne_nil _ _ _ (le_refl _)
    refine ⟨⟨?_, ?_⟩, rfl, rfl, rfl⟩
    · exact
        { metricKeys := List.nodup_nil
          emitKeys := List.nodup_nil
          metricRefs := List.nodup_nil
          metricValid := fun e he => by simp at he
          emitValid := fun e he => by simp at he
          shape := fun b hb => by simp at hb
          fieldsSplit := take_append_last hne
          fieldsLen := rfl
          windowPos := by
            have := int64_of_isInt64 hT
            rw [this] at hpos
            simp only
            omega
          windowRange := hW
          reserveRange := hR
          offsetRange := hO }
    · intro b hb
      simp at hb

/-- Every reachable state of a plugin constructed from a typed configuration satisfies
the invariant of the reachable states. -/
theorem reachable_treeInv {postProcess : Event → Bool → Event} {config : Config}
    (hc : config.typed) {p : LinkStatsMetricFilter} (h : Reachable postProcess config p) :
    TreeInv p := by
  induction h with
  | construct h0 => exact (construct_treeInv hc h0).1
  | ingest now ev _ _ ih => exact updateMetric_treeInv ih now ev
  | rotate now _ ih => exact tick_treeInv ih now
  | drain sTo _ ih => exact EmitExtraEvents_treeInv postProcess ih sTo

theorem leafPaths_treeOK (last : String) :
    ∀ (n : Nat) (set : Bucket), treeOK last n set = true →
      ∀ l ∈ leafPaths n set, l.1.length = n ∧ l.2.1 = last ∧ statsOK l.2.2 = true := by
  intro n
  induction n with
  | zero =>
    intro set h l hl
    simp only [treeOK, List.all_eq_true] at h
    simp only [leafPaths, List.mem_flatMap] at hl
    obtain ⟨e, he, hle⟩ := hl
    have := h e he
    cases hn : e.2 with
    | mapSI m => rw [hn] at this; simp at this
    | mapSF m =>
      rw [hn] at this hle
      simp only [List.mem_singleton] at hle
      simp only [Bool.and_eq_true, decide_eq_true_eq] at this
      rw [hle]
      exact ⟨rfl, this.1, this.2⟩
  | succ n ih =>
    intro set h l hl
    simp only [treeOK, List.all_eq_true] at h
    simp only [leafPaths, List.mem_flatMap] at hl
    obtain ⟨e, he, hle⟩ := hl
    have := h e he
    cases hn : e.2 with
    | mapSF m => rw [hn] at this; simp at this
    | mapSI child =>
      rw [hn] at this hle
      simp only [List.mem_map] at hle
      obtain ⟨l1, hl1, rfl⟩ := hle
      obtain ⟨a, b, c⟩ := ih child this l1 hl1
      exact ⟨by simp [a], b, c⟩

/-! ## The records of the flattener -/

theorem foldl_assign_append :
    ∀ (e acc : Event), ((acc ++ e).map Prod.fst).Nodup →
      e.foldl (fun event kv => GoMap.assign event kv.1 kv.2) acc = acc ++ e := by
  intro e
  induction e with
  | nil => intro acc _; simp
  | cons kv e ih =>
    intro acc hnd
    have hnot : kv.1 ∉ acc.map Prod.fst := by
      intro hmem
      simp only [List.map_append, List.map_cons] at hnd
      exact (List.disjoint_of_nodup_append hnd) hmem (List.mem_cons_self _ _)
    have happ : GoMap.assign acc kv.1 kv.2 = acc ++ [kv] :=
      assign_of_index_none kv.2 ((index_eq_none_iff _ _).2 hnot)
    rw [List.foldl_cons, happ, ih _ (by simpa using hnd)]
    simp

theorem wrapRecord_eq_cons {f v : String} {e : Event} (hnd : (e.map Prod.fst).Nodup)
    (hf : f ∉ e.map Prod.fst) : wrapRecord f v e = (f, Value.string v) :: e := by
  unfold wrapRecord
  have h0 : GoMap.assign ([] : Event) f (Value.string v) = [(f, Value.string v)] := rfl
  rw [h0, foldl_assign_append]
  · rfl
  · simp only [List.singleton_append, List.map_cons, List.nodup_cons]
    exact ⟨hf, hnd⟩

theorem leafRecord_eq {f : String} (key : String) (stats : GoMap String Float64)
    (hc : f ≠ "count") (hs : f ≠ "sum") (hm : f ≠ "mean") :
    leafRecord f key stats
      = [(f, Value.string key),
          ("count", Value.int (toInt (GoMap.read0 stats "count"))),
          ("sum", Value.float64 (GoMap.read0 stats "sum")),
          ("mean", Value.float64 (GoMap.read0 stats "sum" / GoMap.read0 stats "count"))] := by
  have h1 : ("count" : String) ≠ "sum" := by decide
  have h2 : ("count" : String) ≠ "mean" := by decide
  have h3 : ("sum" : String) ≠ "mean" := by decide
  simp [leafRecord, GoMap.assign, hc, hs, hm, h1, h2, h3]

/-- With pairwise distinct field names, none of them `count`, `sum` or `mean`, the record
that the code builds for a leaf is the grouping fields with their values followed by the
record of the terminal level. -/
theorem recordOf_eq (last key : String) (stats : GoMap String Float64) :
    ∀ (fwl vals : List String), vals.length = fwl.length → (fwl ++ [last]).Nodup →
      "count" ∉ fwl ++ [last] → "sum" ∉ fwl ++ [last] → "mean" ∉ fwl ++ [last] →
      recordOf (fwl ++ [last]) vals key stats
        = (fwl.zip vals).map (fun fv => (fv.1, Value.string fv.2)) ++
          [(last, Value.string key),
            ("count", Value.int (toInt (GoMap.read0 stats "count"))),
            ("sum", Value.float64 (GoMap.read0 stats "sum")),
            ("mean", Value.float64 (GoMap.read0 stats "sum" / GoMap.read0 stats "count"))] ∧
      (recordOf (fwl ++ [last]) vals key stats).map Prod.fst
        = fwl ++ [last, "count", "sum", "mean"] := by
  intro fwl
  induction fwl with
  | nil =>
    intro vals hlen hnd hc hs hm
    have hv : vals = [] := List.length_eq_zero.1 hlen
    subst hv
    simp only [List.nil_append, List.mem_singleton] at hc hs hm
    have := leafRecord_eq key stats (Ne.symm hc) (Ne.symm hs) (Ne.symm hm)
    have hrec : recordOf ([] ++ [last]) [] key stats = leafRecord last key stats := rfl
    rw [hrec, this]
    exact ⟨rfl, rfl⟩
  | cons f fwl ih =>
    intro vals hlen hnd hc hs hm
    match vals, hlen with
    | v :: vs, hlen1 =>
      simp only [List.cons_append, List.nodup_cons, List.mem_cons, not_or] at hnd hc hs hm
      obtain ⟨h1, h2⟩ := ih vs (by simpa using hlen1) hnd.2 hc.2 hs.2 hm.2
      have hnd2 : ((recordOf (fwl ++ [last]) vs key stats).map Prod.fst).Nodup := by
        rw [h2]
        have hfull : (fwl ++ [last] ++ ["count", "sum", "mean"]).Nodup := by
          apply List.Nodup.append hnd.2 (by decide)
          intro x hx hx2
          simp only [List.mem_cons, List.mem_singleton, List.not_mem_nil, or_false] at hx2
          rcases hx2 with rfl | rfl | rfl
          · exact hc.2 hx
          · exact hs.2 hx
          · exact hm.2 hx
        simpa using hfull
      have hf : f ∉ (recordOf (fwl ++ [last]) vs key stats).map Prod.fst := by
        rw [h2]
        intro hmem
        simp only [List.mem_append, List.mem_cons, List.mem_singleton, List.not_mem_nil,
          or_false] at hmem
        rcases hmem with hmem | rfl | rfl | rfl | rfl
        · exact hnd.1 (List.mem_append_left _ hmem)
        · exact hnd.1 (List.mem_append_right _ (List.mem_singleton_self _))
        · exact hc.1 rfl
        · exact hs.1 rfl
        · exact hm.1 rfl
      have hrec : recordOf (f :: fwl ++ [last]) (v :: vs) key stats
          = wrapRecord f v (recordOf (fwl ++ [last]) vs key stats) := rfl
      rw [hrec, wrapRecord_eq_cons hnd2 hf]
      constructor
      · rw [h1]
        rfl
      · rw [List.map_cons, h2]
        rfl

theorem toInt_of_statsOK {stats : GoMap String Float64} (h : statsOK stats = true) :
    Float64.finite ((toInt (GoMap.read0 stats "count") : Int) : ℚ)
      = GoMap.read0 stats "count" ∧
    GoMap.read0 stats "count" ≠ 0 := by
  obtain ⟨c, hc, h1, h2⟩ := statsOK_iff.1 h
  rw [hc]
  constructor
  · unfold toInt
    simp only
    rw [h2]
    simp only [Nat.cast_one, Int.tdiv_one]
    rw [Rat.coe_int_num_of_den_eq_one h2]
  · intro h0
    rw [float64_ofNat] at h0
    have h3 : c = ((0 : Nat) : ℚ) := Float64.finite.inj h0
    rw [h3] at h1
    norm_num at h1

theorem index_eq_some_iff {κ α : Type} [DecidableEq κ] {m : GoMap κ α}
    (hnd : (m.map Prod.fst).Nodup) (k : κ) (v : α) :
    GoMap.index m k = some v ↔ (k, v) ∈ m :=
  ⟨mem_of_index, index_of_mem hnd⟩

/-- In a well-formed tree with distinct keys the enumeration of the leaves lists every leaf
once: a leaf is listed exactly when `leafAt` finds it, and no path is listed twice. -/
theorem leafPaths_spec (last : String) :
    ∀ (n : Nat) (set : Bucket), treeOK last n set = true → keysOK n set = true →
      (∀ vals stats, (vals, last, stats) ∈ leafPaths n set ↔ leafAt set vals last = some stats) ∧
      ((leafPaths n set).map (fun l => l.1)).Nodup := by
  intro n
  induction n with
  | zero =>
    intro set ht hk
    have hshape := treeOK_shape _ _ _ ht
    simp only [treeOK, List.all_eq_true] at ht
    simp only [keysOK, decide_eq_true_eq] at hk
    constructor
    · intro vals stats
      cases vals with
      | cons v vs =>
        rw [leafAt_shape_zero_cons hshape]
        simp only [leafPaths, List.mem_flatMap, reduceCtorEq, iff_false, not_exists, not_and]
        intro e _ hmem
        cases hn : e.2 with
        | mapSI m => rw [hn] at hmem; simp at hmem
        | mapSF m => rw [hn] at hmem; simp at hmem
      | nil =>
        simp only [leafPaths, List.mem_flatMap, leafAt]
        constructor
        · rintro ⟨e, he, hmem⟩
          cases hn : e.2 with
          | mapSI m => rw [hn] at hmem; simp at hmem
          | mapSF m =>
            rw [hn] at hmem
            simp only [List.mem_singleton, Prod.mk.injEq, true_and] at hmem
            have hidx : GoMap.index set last = some (Node.mapSF stats) := by
              apply index_of_mem hk
              rw [hmem.1, hmem.2, ← hn]
              exact he
            rw [hidx]
        · intro h
          cases hidx : GoMap.index set last with
          | none => rw [hidx] at h; simp at h
          | some node =>
            rw [hidx] at h
            cases node with
            | mapSI m => simp at h
            | mapSF m =>
              simp only [Option.some.injEq] at h
              subst h
              exact ⟨(last, Node.mapSF m), mem_of_index hidx, by simp⟩
    · -- every entry has the key `last`, so there is at most one entry
      have hall : ∀ e ∈ set, e.1 = last := by
        intro e he
        have := ht e he
        cases hn : e.2 with
        | mapSI m => rw [hn] at this; simp at this
        | mapSF m =>
          rw [hn] at this
          simp only [Bool.and_eq_true, decide_eq_true_eq] at this
          exact this.1
      match set, hk, hall with
      | [], _, _ => simp [leafPaths]
      | [e], _, _ =>
        cases hn : e.2 with
        | mapSI m => simp [leafPaths, hn]
        | mapSF m => simp [leafPaths, hn]
      | e1 :: e2 :: rest, hk1, hall1 =>
        exfalso
        have h1 := hall1 e1 (by simp)
        have h2 := hall1 e2 (by simp)
        simp only [List.map_cons, List.nodup_cons, List.mem_cons, not_or] at hk1
        exact hk1.1.1 (by rw [h1, h2])
  | succ n ih =>
    intro set ht hk
    have hshape := treeOK_shape _ _ _ ht
    simp only [treeOK, List.all_eq_true] at ht
    simp only [keysOK, Bool.and_eq_true, decide_eq_true_eq, List.all_eq_true] at hk
    obtain ⟨hnd, hsub⟩ := hk
    have hchild : ∀ e ∈ set, ∀ child, e.2 = Node.mapSI child →
        treeOK last n child = true ∧ keysOK n child = true := by
      intro e he child hn
      have a := ht e he
      have b := hsub e he
      rw [hn] at a b
      exact ⟨a, b⟩
    constructor
    · intro vals stats
      cases vals with
      | nil =>
        rw [leafAt_shape_succ_nil hshape]
        simp only [leafPaths, List.mem_flatMap, reduceCtorEq, iff_false, not_exists, not_and]
        intro e _ hmem
        cases hn : e.2 with
        | mapSI m => rw [hn] at hmem; simp at hmem
        | mapSF m => rw [hn] at hmem; simp at hmem
      | cons v vs =>
        simp only [leafPaths, List.mem_flatMap, leafAt]
        constructor
        · rintro ⟨e, he, hmem⟩
          cases hn : e.2 with
          | mapSF m => rw [hn] at hmem; simp at hmem
          | mapSI child =>
            rw [hn] at hmem
            simp only [List.mem_map, Prod.mk.injEq, List.cons.injEq] at hmem
            obtain ⟨l, hl, ⟨hv, hvs⟩, hlast, hstats⟩ := hmem
            have hidx : GoMap.index set v = some (Node.mapSI child) := by
              apply index_of_mem hnd
              rw [← hv, ← hn]
              exact he
            rw [hidx]
            simp only
            have hc := hchild e he child hn
            apply ((ih child hc.1 hc.2).1 vs stats).1
            rw [← hvs, ← hlast, ← hstats]
            exact hl
        · intro h
          cases hidx : GoMap.index set v with
          | none => rw [hidx] at h; simp at h
          | some node =>
            rw [hidx] at h
            cases node with
            | mapSF m => simp at h
            | mapSI child =>
              simp only at h
              have hmem := mem_of_index hidx
              have hc := hchild _ hmem child rfl
              have := ((ih child hc.1 hc.2).1 vs stats).2 h
              refine ⟨(v, Node.mapSI child), hmem, ?_⟩
              simp only [List.mem_map]
              exact ⟨_, this, rfl⟩
    · rw [leafPaths, List.map_flatMap, List.nodup_flatMap]
      constructor
      · intro e he
        cases hn : e.2 with
        | mapSF m => simp
        | mapSI child =>
          have hc := hchild e he child hn
          have := (ih child hc.1 hc.2).2
          simp only [List.map_map]
          have hcomp : ((fun l : List String × String × GoMap String Float64 => l.1) ∘
              fun l : List String × String × GoMap String Float64 => (e.1 :: l.1, l.2.1, l.2.2))
              = (fun vs : List String => e.1 :: vs) ∘
                (fun l : List String × String × GoMap String Float64 => l.1) := rfl
          rw [hcomp, ← List.map_map]
          exact List.Nodup.map (fun a b hab => by simpa using hab) this
      · have hpw : List.Pairwise (fun a b : String × Node => a.1 ≠ b.1) set :=
          List.pairwise_map.1 hnd
        refine List.Pairwise.imp ?_ hpw
        intro a b hab
        intro x hxa hxb
        have key : ∀ (e : String × Node), x ∈ List.map (fun l => l.1)
            (match e.2 with
              | Node.mapSI child =>
                List.map (fun l => (e.1 :: l.1, l.2.1, l.2.2)) (leafPaths n child)
              | Node.mapSF _ => []) → x.head? = some e.1 := by
          intro e hx
          cases hn : e.2 with
          | mapSF m => rw [hn] at hx; simp at hx
          | mapSI child =>
            rw [hn] at hx
            simp only [List.map_map, List.mem_map, Function.comp_apply] at hx
            obtain ⟨l, _, rfl⟩ := hx
            rfl
        have ha := key a hxa
        have hb := key b hxb
        rw [ha] at hb
        exact hab (Option.some.inj hb)


/-! ## Totals over the leaves -/

theorem sum_map_assign (g : Node → ℚ) (m : Bucket) (k : String) (x : Node) :
    ((GoMap.assign m k x).map (fun e => g e.2)).sum
      = (m.map (fun e => g e.2)).sum - ((GoMap.index m k).map g).getD 0 + g x := by
  induction m with
  | nil => simp [GoMap.assign, GoMap.index]
  | cons e m ih =>
    obtain ⟨k1, v1⟩ := e
    by_cases h : k1 = k
    · simp [GoMap.assign, GoMap.index, h]
      ring
    · simp only [GoMap.assign, GoMap.index, h, if_false, List.map_cons, List.sum_cons, ih]
      ring

theorem total_zero_assign (g : GoMap String Float64 → ℚ) (set : Bucket) (k : String)
    (stats : GoMap String Float64) :
    total g 0 (GoMap.assign set k (Node.mapSF stats))
      = total g 0 set - ((GoMap.index set k).map (fun node : Node =>
          match node with
          | Node.mapSF old => g old
          | Node.mapSI _ => 0)).getD 0 + g stats :=
  sum_map_assign (fun node : Node =>
    match node with
    | Node.mapSF old => g old
    | Node.mapSI _ => 0) set k (Node.mapSF stats)

theorem total_succ_assign (g : GoMap String Float64 → ℚ) (n : Nat) (set : Bucket)
    (k : String) (child : Bucket) :
    total g (n + 1) (GoMap.assign set k (Node.mapSI child))
      = total g (n + 1) set - ((GoMap.index set k).map (fun node : Node =>
          match node with
          | Node.mapSI old => total g n old
          | Node.mapSF _ => 0)).getD 0 + total g n child :=
  sum_map_assign (fun node : Node =>
    match node with
    | Node.mapSI old => total g n old
    | Node.mapSF _ => 0) set k (Node.mapSI child)

theorem total_nil (g : GoMap String Float64 → ℚ) (n : Nat) : total g n [] = 0 := by
  cases n <;> simp [total]

/-- The update of the terminal map replaces the measure of one leaf. -/
theorem updateLeaf_total (g : GoMap String Float64 → ℚ) (last : String) (value : Float64)
    {set : Bucket} (hs : shapeOK 0 set = true) :
    total g 0 (updateLeaf last value set).1
      = total g 0 set - ((leafAt set [] last).map g).getD 0
        + g (bumped (leafAt set [] last) value) := by
  unfold updateLeaf leafAt
  cases h : GoMap.index set last with
  | none =>
    simp only
    rw [total_zero_assign, h]
    rfl
  | some node =>
    obtain ⟨stats, rfl⟩ := shapeOK_zero_index hs h
    simp only
    rw [total_zero_assign, h]
    rfl

/-- An event with a string for every grouping field replaces, in the totals of the tree,
the measure of its leaf before the call by the measure of the leaf after the call. -/
theorem walk_total_accept (g : GoMap String Float64 → ℚ) (event : Event) (last : String)
    (value : Float64) :
    ∀ (fs vals : List String) (set : Bucket), groupValues event fs = some vals →
      shapeOK fs.length set = true →
      total g fs.length (walk event last value fs set).1
        = total g fs.length set - ((leafAt set vals last).map g).getD 0
          + g (bumped (leafAt set vals last) value) := by
  intro fs
  induction fs with
  | nil =>
    intro vals set hg hs
    simp only [groupValues, Option.some.injEq] at hg
    subst hg
    exact updateLeaf_total g last value hs
  | cons f rest ih =>
    intro vals set hg hs
    obtain ⟨s, vs, hr, hgr, rfl⟩ := groupValues_cons hg
    simp only [List.length_cons] at hs ⊢
    unfold walk
    rw [hr]
    simp only
    cases hi : GoMap.index set s with
    | none =>
      have hl : leafAt set (s :: vs) last = none := by simp [leafAt, hi]
      simp only
      rw [total_succ_assign, hi, hl]
      simp only [Option.map_none', Option.getD_none, sub_zero]
      rw [ih vs [] hgr (shapeOK_nil _), total_nil, leafAt_nil]
      simp
    | some node =>
      obtain ⟨child, rfl, hc⟩ := shapeOK_succ_index hs hi
      have hl : leafAt set (s :: vs) last = leafAt child vs last := by simp [leafAt, hi]
      simp only
      rw [total_succ_assign, hi, hl]
      simp only [Option.map_some', Option.getD_some]
      rw [ih vs child hgr hc]
      ring

/-- An event without a string for some grouping field leaves the totals of the tree as
they are, whatever maps the loop creates before it stops. -/
theorem walk_total_drop (g : GoMap String Float64 → ℚ) (event : Event) (last : String)
    (value : Float64) :
    ∀ (fs : List String) (set : Bucket), groupValues event fs = none →
      shapeOK fs.length set = true →
      total g fs.length (walk event last value fs set).1 = total g fs.length set := by
  intro fs
  induction fs with
  | nil => intro set hg _; simp [groupValues] at hg
  | cons f rest ih =>
    intro set hg hs
    simp only [List.length_cons] at hs ⊢
    unfold walk
    cases hr : Event.read event f with
    | nil => rfl
    | float64 x => rfl
    | time u => rfl
    | int n => rfl
    | bool b => rfl
    | string s =>
      have hgr : groupValues event rest = none := by
        unfold groupValues at hg
        rw [hr] at hg
        simpa using hg
      simp only
      cases hi : GoMap.index set s with
      | none =>
        simp only
        rw [total_succ_assign, hi]
        simp only [Option.map_none', Option.getD_none, sub_zero]
        rw [ih [] hgr (shapeOK_nil _), total_nil]
        ring
      | some node =>
        obtain ⟨child, rfl, hc⟩ := shapeOK_succ_index hs hi
        simp only
        rw [total_succ_assign, hi]
        simp only [Option.map_some', Option.getD_some]
        rw [ih child hgr hc]
        ring

theorem sum_map_nonneg {α : Type} (f : α → ℚ) (hf : ∀ a, 0 ≤ f a) (l : List α) :
    0 ≤ (l.map f).sum := by
  induction l with
  | nil => simp
  | cons a l ih =>
    simp only [List.map_cons, List.sum_cons]
    exact add_nonneg (hf a) ih

theorem index_le_sum (f : Node → ℚ) (hf : ∀ a, 0 ≤ f a) :
    ∀ (m : Bucket) (k : String) (node : Node), GoMap.index m k = some node →
      f node ≤ (m.map (fun e => f e.2)).sum := by
  intro m
  induction m with
  | nil => intro k node h; simp [GoMap.index] at h
  | cons e m ih =>
    intro k node h
    obtain ⟨k1, v1⟩ := e
    simp only [List.map_cons, List.sum_cons]
    by_cases hk : k1 = k
    · simp only [GoMap.index, hk, if_true, Option.some.injEq] at h
      subst h
      have := sum_map_nonneg (fun e : String × Node => f e.2) (fun e => hf e.2) m
      linarith
    · simp only [GoMap.index, hk, if_false] at h
      have := ih k node h
      have := hf v1
      linarith

theorem total_nonneg (g : GoMap String Float64 → ℚ) (hg : ∀ s, 0 ≤ g s) :
    ∀ (n : Nat) (set : Bucket), 0 ≤ total g n set := by
  intro n
  induction n with
  | zero =>
    intro set
    unfold total
    apply sum_map_nonneg
    intro e
    cases e.2 with
    | mapSF stats => exact hg stats
    | mapSI m => exact le_refl _
  | succ n ih =>
    intro set
    unfold total
    apply sum_map_nonneg
    intro e
    cases e.2 with
    | mapSF stats => exact le_refl _
    | mapSI m => exact ih m

/-- The measure of a leaf is at most the total of a measure that is never negative. -/
theorem leafAt_le_total (g : GoMap String Float64 → ℚ) (hg : ∀ s, 0 ≤ g s) (last : String) :
    ∀ (n : Nat) (set : Bucket) (vals : List String), shapeOK n set = true →
      ((leafAt set vals last).map g).getD 0 ≤ total g n set := by
  intro n
  induction n with
  | zero =>
    intro set vals hs
    cases vals with
    | nil =>
      unfold leafAt
      cases h : GoMap.index set last with
      | none => exact total_nonneg g hg 0 set
      | some node =>
        obtain ⟨stats, rfl⟩ := shapeOK_zero_index hs h
        have := index_le_sum (fun node : Node =>
          match node with
          | Node.mapSF old => g old
          | Node.mapSI _ => 0) (fun a => by cases a <;> simp [hg]) set last _ h
        exact this
    | cons v vs =>
      rw [leafAt_shape_zero_cons hs]
      exact total_nonneg g hg 0 set
  | succ n ih =>
    intro set vals hs
    cases vals with
    | nil =>
      rw [leafAt_shape_succ_nil hs]
      exact total_nonneg g hg (n + 1) set
    | cons v vs =>
      unfold leafAt
      cases h : GoMap.index set v with
      | none => exact total_nonneg g hg (n + 1) set
      | some node =>
        obtain ⟨child, rfl, hc⟩ := shapeOK_succ_index hs h
        have h1 := ih child vs hc
        have h2 := index_le_sum (fun node : Node =>
          match node with
          | Node.mapSI old => total g n old
          | Node.mapSF _ => 0)
          (fun a => by cases a <;> simp [total_nonneg g hg n]) set v _ h
        exact le_trans h1 h2

theorem storeTotal_eq {p : LinkStatsMetricFilter} {k : Int} {r : Ref}
    (h : GoMap.index p.metric k = some r) (g : GoMap String Float64 → ℚ) :
    storeTotal g p k = total g p.fieldsWithoutLast.length (deref p.heap r) := by
  simp [storeTotal, h]

theorem storeLeaf_le_storeTotal (g : GoMap String Float64 → ℚ) (hg : ∀ s, 0 ≤ g s)
    {p : LinkStatsMetricFilter} (hinv : Inv p) (k : Int) (vals : List String)
    (last : String) :
    ((storeLeaf p k vals last).map g).getD 0 ≤ storeTotal g p k := by
  cases hi : GoMap.index p.metric k with
  | none =>
    rw [storeLeaf_eq_none hi]
    simp [storeTotal, hi]
  | some r =>
    have hr : r < p.heap.length := hinv.metricValid _ (mem_of_index hi)
    rw [storeLeaf_eq hi, storeTotal_eq hi]
    exact leafAt_le_total g hg last _ _ vals (hinv.shape _ (deref_mem hr))

theorem storeTotal_set_heap (g : GoMap String Float64 → ℚ) {p : LinkStatsMetricFilter}
    (hinv : Inv p) {kk : Int} {r : Ref} (hi : GoMap.index p.metric kk = some r) (b : Bucket)
    (k : Int) :
    storeTotal g { p with heap := p.heap.set r b } k
      = if kk = k then total g p.fieldsWithoutLast.length b else storeTotal g p k := by
  have hr : r < p.heap.length := hinv.metricValid _ (mem_of_index hi)
  by_cases hk : kk = k
  · subst hk
    simp only [storeTotal, hi, deref_set_self hr, if_true]
  · simp only [hk, if_false, storeTotal]
    cases hk1 : GoMap.index p.metric k with
    | none => rfl
    | some r1 =>
      have hr1 : r1 ≠ r := by
        rintro rfl
        exact hk (key_eq_of_ref_eq hinv.metricRefs hk1 hi)
      simp only [deref_set_ne hr1]

theorem storeTotal_alloc (g : GoMap String Float64 → ℚ) {p : LinkStatsMetricFilter}
    (hinv : Inv p) {kk : Int} (b : Bucket) (k : Int) :
    storeTotal g
        { p with metric := GoMap.assign p.metric kk p.heap.length, heap := p.heap ++ [b] } k
      = if kk = k then total g p.fieldsWithoutLast.length b else storeTotal g p k := by
  by_cases hk : kk = k
  · subst hk
    simp only [storeTotal, index_assign_self, deref_append_self, if_true]
  · simp only [hk, if_false, storeTotal, index_assign_ne _ _ _ _ (Ne.symm hk)]
    cases hk1 : GoMap.index p.metric k with
    | none => rfl
    | some r1 =>
      have hr1 : r1 < p.heap.length := hinv.metricValid _ (mem_of_index hk1)
      simp only [deref_append_lt hr1]

/-- The state after `updateMetric` for an event that reaches line 160. -/
theorem updateMetric_reach {p : LinkStatsMetricFilter} {now : Int} {ev : Event}
    {v : Float64} {t : Int} (hv : Event.read ev p.lastField = Value.float64 v)
    (ht : GoMap.index ev p.timestamp = some (Value.time t))
    (hage : ageRejected p now t = false) (hW : p.batchWindow ≠ 0) :
    (updateMetric p now ev).1 =
      match GoMap.index p.metric (windowStart p.batchWindow t) with
      | some r =>
        { p with
          heap := (p.heap.set r
            (walk ev p.lastField v p.fieldsWithoutLast (deref p.heap r)).1) }
      | none =>
        { p with
          metric := GoMap.assign p.metric (windowStart p.batchWindow t) p.heap.length
          heap := p.heap ++ [(walk ev p.lastField v p.fieldsWithoutLast []).1] } := by
  unfold updateMetric
  simp only [hv, ht, hage, hW, if_false, Bool.false_eq_true]
  cases hi : GoMap.index p.metric (windowStart p.batchWindow t) <;> rfl

/-- The state after `updateMetric` for an event that does not reach line 160. -/
theorem updateMetric_unreached {p : LinkStatsMetricFilter} {now : Int} {ev : Event}
    (h : ∀ v t, Event.read ev p.lastField = Value.float64 v →
      GoMap.index ev p.timestamp = some (Value.time t) → ageRejected p now t = true) :
    (updateMetric p now ev).1 = p := by
  unfold updateMetric
  cases hv : Event.read ev p.lastField with
  | nil => rfl
  | string s => rfl
  | time u => rfl
  | int n => rfl
  | bool b => rfl
  | float64 v =>
    simp only
    cases ht : GoMap.index ev p.timestamp with
    | none => rfl
    | some tv =>
      cases tv with
      | nil => rfl
      | float64 x => rfl
      | string s => rfl
      | int n => rfl
      | bool b => rfl
      | time t =>
        simp only [h v t hv ht, if_true]

theorem acceptedInto_unreached {p : LinkStatsMetricFilter} {now : Int} {ev : Event}
    (h : ∀ v t, Event.read ev p.lastField = Value.float64 v →
      GoMap.index ev p.timestamp = some (Value.time t) → ageRejected p now t = true)
    (k : Int) : acceptedInto p k (now, ev) = none := by
  unfold acceptedInto acceptedAt
  cases hv : Event.read ev p.lastField with
  | nil => rfl
  | string s => rfl
  | time u => rfl
  | int n => rfl
  | bool b => rfl
  | float64 v =>
    cases ht : GoMap.index ev p.timestamp with
    | none => rfl
    | some tv =>
      cases tv with
      | nil => rfl
      | float64 x => rfl
      | string s => rfl
      | int n => rfl
      | bool b => rfl
      | time t =>
        cases hg : groupValues ev p.fieldsWithoutLast with
        | none => rfl
        | some vals => simp only [h v t hv ht, if_true]

theorem acceptedInto_reach {p : LinkStatsMetricFilter} {now : Int} {ev : Event}
    {v : Float64} {t : Int} (hv : Event.read ev p.lastField = Value.float64 v)
    (ht : GoMap.index ev p.timestamp = some (Value.time t))
    (hage : ageRejected p now t = false) (k : Int) :
    acceptedInto p k (now, ev)
      = if (groupValues ev p.fieldsWithoutLast).isSome ∧ windowStart p.batchWindow t = k
        then some v else none := by
  unfold acceptedInto acceptedAt
  simp only [hv, ht]
  cases hg : groupValues ev p.fieldsWithoutLast with
  | none => simp
  | some vals => simp [hage]

/-- A call that is accepted into bucket `k` has grouping values. -/
theorem acceptedPath_of_acceptedInto {p : LinkStatsMetricFilter} {k : Int}
    {call : Int × Event} {v : Float64} (h : acceptedInto p k call = some v) :
    ∃ vals, groupValues call.2 p.fieldsWithoutLast = some vals ∧
      acceptedPath p k call = some (vals, v) := by
  cases hg : groupValues call.2 p.fieldsWithoutLast with
  | none =>
    exfalso
    have hat : acceptedAt p call.1 call.2 = none := by
      unfold acceptedAt
      rw [hg]
      cases Event.read call.2 p.lastField <;> try rfl
      cases GoMap.index call.2 p.timestamp with
      | none => rfl
      | some tv => cases tv <;> rfl
    unfold acceptedInto at h
    rw [hat] at h
    simp at h
  | some vals =>
    refine ⟨vals, rfl, ?_⟩
    simp [acceptedPath, h, hg]

theorem acceptedPath_none {p : LinkStatsMetricFilter} {k : Int} {call : Int × Event}
    (h : acceptedInto p k call = none) : acceptedPath p k call = none := by
  simp [acceptedPath, h]

/-- One call of `updateMetric` changes the total of a measure over bucket `k` by the change
of the measure of the leaf of the event, if the event is accepted into `k`, and not at all
otherwise. -/
theorem updateMetric_storeTotal (g : GoMap String Float64 → ℚ) {p : LinkStatsMetricFilter}
    (hinv : Inv p) (now : Int) (ev : Event) (k : Int) :
    storeTotal g (updateMetric p now ev).1 k
      = storeTotal g p k + leafDelta g p k (now, ev) := by
  have hW : p.batchWindow ≠ 0 := ne_of_gt hinv.windowPos
  by_cases hreach : ∃ v t, Event.read ev p.lastField = Value.float64 v ∧
      GoMap.index ev p.timestamp = some (Value.time t) ∧ ageRejected p now t = false
  · obtain ⟨v, t, hv, ht, hage⟩ := hreach
    have hacc := acceptedInto_reach hv ht hage k
    rw [updateMetric_reach hv ht hage hW]
    by_cases hk : windowStart p.batchWindow t = k
    · cases hg : groupValues ev p.fieldsWithoutLast with
      | none =>
        have hnone : acceptedInto p k (now, ev) = none := by rw [hacc, hg]; simp
        have hd : leafDelta g p k (now, ev) = 0 := by
          simp [leafDelta, acceptedPath_none hnone]
        rw [hd, add_zero]
        cases hi : GoMap.index p.metric (windowStart p.batchWindow t) with
        | some r =>
          have hr : r < p.heap.length := hinv.metricValid _ (mem_of_index hi)
          simp only
          rw [storeTotal_set_heap g hinv hi,
            walk_total_drop g ev p.lastField v _ _ hg (hinv.shape _ (deref_mem hr))]
          subst hk
          simp [storeTotal_eq hi]
        | none =>
          simp only
          rw [storeTotal_alloc g hinv, walk_total_drop g ev p.lastField v _ _ hg (shapeOK_nil _),
            total_nil]
          subst hk
          simp [storeTotal, hi]
      | some vals =>
        have hsome : acceptedInto p k (now, ev) = some v := by rw [hacc, hg]; simp [hk]
        have hd : leafDelta g p k (now, ev)
            = g (bumped (storeLeaf p k vals p.lastField) v)
              - ((storeLeaf p k vals p.lastField).map g).getD 0 := by
          have hg1 : groupValues (now, ev).2 p.fieldsWithoutLast = some vals := hg
          simp [leafDelta, acceptedPath, hsome, hg1]
        rw [hd]
        cases hi : GoMap.index p.metric (windowStart p.batchWindow t) with
        | some r =>
          have hr : r < p.heap.length := hinv.metricValid _ (mem_of_index hi)
          simp only
          rw [storeTotal_set_heap g hinv hi,
            walk_total_accept g ev p.lastField v _ vals _ hg (hinv.shape _ (deref_mem hr))]
          subst hk
          rw [storeTotal_eq hi, storeLeaf_eq hi]
          simp only [if_true]
          ring
        | none =>
          simp only
          rw [storeTotal_alloc g hinv,
            walk_total_accept g ev p.lastField v _ vals _ hg (shapeOK_nil _), total_nil,
            leafAt_nil]
          subst hk
          rw [storeLeaf_eq_none hi]
          simp [storeTotal, hi]
    · have hnone : acceptedInto p k (now, ev) = none := by rw [hacc]; simp [hk]
      have hd : leafDelta g p k (now, ev) = 0 := by
        simp [leafDelta, acceptedPath_none hnone]
      rw [hd, add_zero]
      cases hi : GoMap.index p.metric (windowStart p.batchWindow t) with
      | some r =>
        simp only
        rw [storeTotal_set_heap g hinv hi]
        simp [hk]
      | none =>
        simp only
        rw [storeTotal_alloc g hinv]
        simp [hk]
  · have hun : ∀ v t, Event.read ev p.lastField = Value.float64 v →
        GoMap.index ev p.timestamp = some (Value.time t) → ageRejected p now t = true := by
      intro v t hv ht
      cases hage : ageRejected p now t with
      | true => rfl
      | false => exact absurd ⟨v, t, hv, ht, hage⟩ hreach
    rw [updateMetric_unreached hun]
    have hd : leafDelta g p k (now, ev) = 0 := by
      simp [leafDelta, acceptedPath_none (acceptedInto_unreached hun k)]
    rw [hd, add_zero]

theorem acceptedInto_config (p : LinkStatsMetricFilter) (m : GoMap Int Ref)
    (h : List Bucket) (k : Int) (call : Int × Event) :
    acceptedInto { p with metric := m, heap := h } k call = acceptedInto p k call := rfl

theorem ingestAll_treeInv {p : LinkStatsMetricFilter} (h : TreeInv p)
    (calls : List (Int × Event)) : TreeInv (ingestAll p calls) := by
  induction calls generalizing p with
  | nil => exact h
  | cons c calls ih => exact ih (updateMetric_treeInv h c.1 c.2)

theorem ingestAll_inv {p : LinkStatsMetricFilter} (h : Inv p)
    (calls : List (Int × Event)) : Inv (ingestAll p calls) := by
  induction calls generalizing p with
  | nil => exact h
  | cons c calls ih => exact ih (updateMetric_inv h c.1 c.2)

/-! ## Exact additions -/

theorem read0_addSample (s : GoMap String Float64) (v : Float64) (key : String)
    (hkey : key = "count" ∨ key = "sum") :
    GoMap.read0 (addSample s v) key = GoMap.read0 (newStats v) key + GoMap.read0 s key := by
  rcases hkey with rfl | rfl
  · rw [read0_addSample_count, read0_newStats_count]
  · rw [read0_addSample_sum, read0_newStats_sum]

theorem isWhole_iff {x : Float64} :
    x.isWhole = true ↔ ∃ m : Int, x = Float64.finite (m : ℚ) := by
  cases x with
  | finite q =>
    simp only [Float64.isWhole, decide_eq_true_eq, Float64.finite.injEq]
    constructor
    · intro h
      exact ⟨q.num, (Rat.coe_int_num_of_den_eq_one h).symm⟩
    · rintro ⟨m, rfl⟩
      exact Rat.den_intCast m
  | inf s => simp [Float64.isWhole]
  | nan => simp [Float64.isWhole]

theorem keyDefect_nonneg (key : String) (s : GoMap String Float64) : 0 ≤ keyDefect key s := by
  unfold keyDefect
  split <;> norm_num

theorem keyAbs_nonneg (key : String) (s : GoMap String Float64) : 0 ≤ keyAbs key s :=
  abs_nonneg _

theorem keyDefect_eq_zero {key : String} {s : GoMap String Float64} :
    keyDefect key s = 0 ↔ (GoMap.read0 s key).isWhole = true := by
  unfold keyDefect
  split
  · simp [*]
  · simp [*]

/-- The sum of two whole numbers whose absolute values add up to at most 2^53 is exact. -/
theorem add_whole_exact {x y : Int} (h : |(x : ℚ)| + |(y : ℚ)| ≤ 9007199254740992) :
    Float64.finite (x : ℚ) + Float64.finite (y : ℚ) = Float64.finite ((x + y : Int) : ℚ) := by
  rw [float64_add_finite]
  have hc : ((x : ℚ)) + (y : ℚ) = ((x + y : Int) : ℚ) := by push_cast; rfl
  rw [hc]
  apply round64_intCast
  have h1 : |((x + y : Int) : ℚ)| ≤ 9007199254740992 := by
    rw [← hc]
    exact le_trans (abs_add _ _) h
  have h2 : (((x + y).natAbs : Nat) : ℚ) = |((x + y : Int) : ℚ)| := by
    rw [Nat.cast_natAbs, Int.cast_abs]
  rw [← h2] at h1
  exact_mod_cast h1

/-- One more sample at a leaf, for the entry `key` (`count` or `sum`): when the entry of the
leaf and the entry of the sample are whole numbers whose absolute values add up to at most
2^53, the addition of line 187 or 188 is exact. -/
theorem bumped_measures (key : String) (hkey : key = "count" ∨ key = "sum")
    (old : Option (GoMap String Float64)) (v : Float64)
    (hw : (GoMap.read0 (newStats v) key).isWhole = true)
    (hold : ((old.map (keyDefect key)).getD 0) = 0)
    (hb : ((old.map (keyAbs key)).getD 0) + keyAbs key (newStats v) ≤ 9007199254740992) :
    keyDefect key (bumped old v) = 0 ∧
    keyValue key (bumped old v)
      = (old.map (keyValue key)).getD 0 + keyValue key (newStats v) ∧
    keyAbs key (bumped old v) ≤ (old.map (keyAbs key)).getD 0 + keyAbs key (newStats v) := by
  cases old with
  | none =>
    simp only [bumped, Option.map_none', Option.getD_none, zero_add, le_refl, and_true]
    exact keyDefect_eq_zero.2 hw
  | some s =>
    simp only [Option.map_some', Option.getD_some] at hold hb ⊢
    obtain ⟨x, hx⟩ := isWhole_iff.1 hw
    obtain ⟨y, hy⟩ := isWhole_iff.1 (keyDefect_eq_zero.1 hold)
    have hab : |(x : ℚ)| + |(y : ℚ)| ≤ 9007199254740992 := by
      simp only [keyAbs, hx, hy, Float64.toRat] at hb
      linarith
    have hnew : GoMap.read0 (bumped (some s) v) key = Float64.finite ((x + y : Int) : ℚ) := by
      simp only [bumped]
      rw [read0_addSample s v key hkey, hx, hy]
      exact add_whole_exact hab
    refine ⟨?_, ?_, ?_⟩
    · exact keyDefect_eq_zero.2 (by rw [hnew]; exact isWhole_iff.2 ⟨_, rfl⟩)
    · simp only [keyValue, hnew, hx, hy, Float64.toRat]
      push_cast
      ring
    · simp only [keyAbs, hnew, hx, hy, Float64.toRat]
      push_cast
      rw [add_comm (x : ℚ)]
      exact abs_add _ _

/-- One call of `updateMetric`, for the entry `key` of the leaves of bucket `k`: when every
entry is a whole number and the absolute values, with that of the sample of the call, add
up to at most 2^53, the call adds its sample exactly. -/
theorem updateMetric_exact (key : String) (hkey : key = "count" ∨ key = "sum")
    {p : LinkStatsMetricFilter} (hinv : Inv p) (k : Int) (c : Int × Event)
    (hdef : storeTotal (keyDefect key) p k = 0)
    (hw : ∀ v, acceptedInto p k c = some v → (GoMap.read0 (newStats v) key).isWhole = true)
    (hb : storeTotal (keyAbs key) p k
      + ((acceptedInto p k c).map (fun v => keyAbs key (newStats v))).getD 0
        ≤ 9007199254740992) :
    storeTotal (keyDefect key) (updateMetric p c.1 c.2).1 k = 0 ∧
    storeTotal (keyValue key) (updateMetric p c.1 c.2).1 k
      = storeTotal (keyValue key) p k
        + ((acceptedInto p k c).map (fun v => keyValue key (newStats v))).getD 0 ∧
    storeTotal (keyAbs key) (updateMetric p c.1 c.2).1 k
      ≤ storeTotal (keyAbs key) p k
        + ((acceptedInto p k c).map (fun v => keyAbs key (newStats v))).getD 0 := by
  have hpair : (c.1, c.2) = c := rfl
  have h1 := updateMetric_storeTotal (keyDefect key) hinv c.1 c.2 k
  have h2 := updateMetric_storeTotal (keyValue key) hinv c.1 c.2 k
  have h3 := updateMetric_storeTotal (keyAbs key) hinv c.1 c.2 k
  rw [hpair] at h1 h2 h3
  cases hacc : acceptedInto p k c with
  | none =>
    have hp := acceptedPath_none hacc
    simp only [leafDelta, hp, add_zero] at h1 h2 h3
    simp only [Option.map_none', Option.getD_none, add_zero]
    exact ⟨by rw [h1, hdef], h2, le_of_eq h3⟩
  | some v =>
    obtain ⟨vals, _, hp⟩ := acceptedPath_of_acceptedInto hacc
    simp only [leafDelta, hp] at h1 h2 h3
    rw [hacc] at hb
    simp only [Option.map_some', Option.getD_some] at hb ⊢
    have hd0 : ((storeLeaf p k vals p.lastField).map (keyDefect key)).getD 0 = 0 := by
      apply le_antisymm
      · have hle := storeLeaf_le_storeTotal _ (keyDefect_nonneg key) hinv k vals p.lastField
        rw [hdef] at hle
        exact hle
      · cases storeLeaf p k vals p.lastField with
        | none => simp
        | some s => simpa using keyDefect_nonneg key s
    have ha := storeLeaf_le_storeTotal _ (keyAbs_nonneg key) hinv k vals p.lastField
    obtain ⟨b1, b2, b3⟩ := bumped_measures key hkey (storeLeaf p k vals p.lastField) v
      (hw v hacc) hd0 (by linarith)
    refine ⟨?_, ?_, ?_⟩
    · rw [h1, hdef, b1, hd0]
      ring
    · rw [h2, b2]
      ring
    · rw [h3]
      linarith

/-- A sequence of calls of `updateMetric`, for the entry `key` of the leaves of bucket `k`:
when the entries in the store and the samples of the accepted calls are whole numbers whose
absolute values add up to at most 2^53, every addition is exact and the total grows by the
sum of the samples. -/
theorem ingestAll_exact (key : String) (hkey : key = "count" ∨ key = "sum") (k : Int) :
    ∀ (calls : List (Int × Event)) (p : LinkStatsMetricFilter), Inv p →
      storeTotal (keyDefect key) p k = 0 →
      (∀ v ∈ calls.filterMap (acceptedInto p k),
        (GoMap.read0 (newStats v) key).isWhole = true) →
      storeTotal (keyAbs key) p k
        + ((calls.filterMap (acceptedInto p k)).map (fun v => keyAbs key (newStats v))).sum
          ≤ 9007199254740992 →
      storeTotal (keyDefect key) (ingestAll p calls) k = 0 ∧
      storeTotal (keyValue key) (ingestAll p calls) k
        = storeTotal (keyValue key) p k
          + ((calls.filterMap (acceptedInto p k)).map
              (fun v => keyValue key (newStats v))).sum := by
  intro calls
  induction calls with
  | nil => intro p _ hdef _ _; simp [ingestAll, hdef]
  | cons c calls ih =>
    intro p hinv hdef hw hb
    obtain ⟨m, h, hcfg⟩ := updateMetric_config p c.1 c.2
    have hfun : acceptedInto (updateMetric p c.1 c.2).1 k = acceptedInto p k := by
      funext call
      rw [hcfg]
      rfl
    have hrest_nonneg : 0 ≤ ((calls.filterMap (acceptedInto p k)).map
        (fun v => keyAbs key (newStats v))).sum :=
      sum_map_nonneg _ (fun v => keyAbs_nonneg key _) _
    cases hacc : acceptedInto p k c with
    | none =>
      simp only [List.filterMap_cons, hacc] at hw hb ⊢
      obtain ⟨s1, s2, s3⟩ := updateMetric_exact key hkey hinv k c hdef
        (by intro v hv; rw [hacc] at hv; cases hv)
        (by rw [hacc]; simp only [Option.map_none', Option.getD_none, add_zero]; linarith)
      rw [hacc] at s2 s3
      simp only [Option.map_none', Option.getD_none, add_zero] at s2 s3
      have hrest := ih (updateMetric p c.1 c.2).1 (updateMetric_inv hinv c.1 c.2) s1
        (by rw [hfun]; exact hw) (by rw [hfun]; linarith)
      rw [hfun, s2] at hrest
      exact hrest
    | some v =>
      simp only [List.filterMap_cons, hacc, List.map_cons, List.sum_cons, List.mem_cons,
        forall_eq_or_imp] at hw hb ⊢
      obtain ⟨s1, s2, s3⟩ := updateMetric_exact key hkey hinv k c hdef
        (by intro v1 hv1; rw [hacc] at hv1; cases hv1; exact hw.1)
        (by rw [hacc]; simp only [Option.map_some', Option.getD_some]; linarith)
      rw [hacc] at s2 s3
      simp only [Option.map_some', Option.getD_some] at s2 s3
      have hrest := ih (updateMetric p c.1 c.2).1 (updateMetric_inv hinv c.1 c.2) s1
        (by rw [hfun]; exact hw.2) (by rw [hfun]; linarith)
      rw [hfun, s2] at hrest
      refine ⟨hrest.1, ?_⟩
      show storeTotal (keyValue key) (ingestAll (updateMetric p c.1 c.2).1 calls) k = _
      rw [hrest.2]
      ring

/-! ## The `count` and `sum` of a record -/

theorem assign_keys_nodup {κ α : Type} [DecidableEq κ] {m : GoMap κ α}
    (h : (m.map Prod.fst).Nodup) (k : κ) (v : α) :
    ((GoMap.assign m k v).map Prod.fst).Nodup := by
  cases hi : GoMap.index m k with
  | some v0 => rw [keys_assign_of_index_some v hi]; exact h
  | none =>
    rw [assign_of_index_none v hi, List.map_append]
    refine List.Nodup.append h (List.nodup_singleton _) ?_
    simp only [List.map_cons, List.map_nil, List.disjoint_singleton]
    exact (index_eq_none_iff _ _).1 hi

theorem foldl_assign_nodup :
    ∀ (e acc : Event), (acc.map Prod.fst).Nodup →
      ((e.foldl (fun event kv => GoMap.assign event kv.1 kv.2) acc).map Prod.fst).Nodup := by
  intro e
  induction e with
  | nil => intro acc h; exact h
  | cons kv e ih => intro acc h; exact ih _ (assign_keys_nodup h _ _)

theorem foldl_assign_index (k : String) :
    ∀ (e acc : Event), (e.map Prod.fst).Nodup →
      GoMap.index (e.foldl (fun event kv => GoMap.assign event kv.1 kv.2) acc) k
        = match GoMap.index e k with
          | some v => some v
          | none => GoMap.index acc k := by
  intro e
  induction e with
  | nil => intro acc _; rfl
  | cons kv e ih =>
    intro acc hnd
    obtain ⟨k1, v1⟩ := kv
    simp only [List.map_cons, List.nodup_cons] at hnd
    rw [List.foldl_cons, ih _ hnd.2]
    by_cases hk : k1 = k
    · subst hk
      have hnone : GoMap.index e k1 = none := (index_eq_none_iff _ _).2 hnd.1
      simp [hnone, GoMap.index, index_assign_self]
    · simp only [GoMap.index, hk, if_false, index_assign_ne _ _ _ _ (Ne.symm hk)]

theorem leafRecord_facts (f key : String) (stats : GoMap String Float64) :
    ((leafRecord f key stats).map Prod.fst).Nodup ∧
    GoMap.index (leafRecord f key stats) "count"
      = some (Value.int (toInt (GoMap.read0 stats "count"))) ∧
    GoMap.index (leafRecord f key stats) "sum"
      = some (Value.float64 (GoMap.read0 stats "sum")) := by
  have h1 : ("count" : String) ≠ "sum" := by decide
  have h2 : ("count" : String) ≠ "mean" := by decide
  have h3 : ("sum" : String) ≠ "mean" := by decide
  refine ⟨?_, ?_, ?_⟩
  · unfold leafRecord
    exact assign_keys_nodup (assign_keys_nodup (assign_keys_nodup (by simp) _ _) _ _) _ _
  · simp only [leafRecord, index_assign_ne _ _ _ _ h2, index_assign_ne _ _ _ _ h1,
      index_assign_self]
  · simp only [leafRecord, index_assign_ne _ _ _ _ h3, index_assign_self]

/-- Whatever the field names are, the record of a leaf carries the `count` and the `sum`
of the leaf. -/
theorem recordOf_facts (key : String) (stats : GoMap String Float64) :
    ∀ (fields vals : List String), vals.length + 1 = fields.length →
      ((recordOf fields vals key stats).map Prod.fst).Nodup ∧
      GoMap.index (recordOf fields vals key stats) "count"
        = some (Value.int (toInt (GoMap.read0 stats "count"))) ∧
      GoMap.index (recordOf fields vals key stats) "sum"
        = some (Value.float64 (GoMap.read0 stats "sum")) := by
  intro fields
  induction fields with
  | nil => intro vals h; simp at h
  | cons f rest ih =>
    intro vals h
    cases vals with
    | nil => exact leafRecord_facts f key stats
    | cons v vs =>
      have hlen : vs.length + 1 = rest.length := by simpa using h
      obtain ⟨a, b, c⟩ := ih vs hlen
      have hrec : recordOf (f :: rest) (v :: vs) key stats
          = wrapRecord f v (recordOf rest vs key stats) := by
        cases rest with
        | nil => simp at hlen
        | cons f1 rest1 => rfl
      rw [hrec]
      unfold wrapRecord
      refine ⟨foldl_assign_nodup _ _ (by simp [GoMap.assign]), ?_, ?_⟩
      · rw [foldl_assign_index _ _ _ a, b]
      · rw [foldl_assign_index _ _ _ a, c]

theorem recordCount_recordOf (key : String) (stats : GoMap String Float64)
    (fields vals : List String) (h : vals.length + 1 = fields.length) :
    recordCount (recordOf fields vals key stats) = toInt (GoMap.read0 stats "count") ∧
    recordSum (recordOf fields vals key stats) = keyValue "sum" stats ∧
    Event.read (recordOf fields vals key stats) "sum"
      = Value.float64 (GoMap.read0 stats "sum") := by
  obtain ⟨_, b, c⟩ := recordOf_facts key stats fields vals h
  simp [recordCount, recordSum, Event.read, b, c, keyValue]

theorem sum_flatMap {α : Type} (l : List α) (f : α → List ℚ) :
    (l.flatMap f).sum = (l.map (fun a => (f a).sum)).sum := by
  induction l with
  | nil => rfl
  | cons a l ih => simp [List.flatMap_cons, List.sum_append, ih]

theorem total_eq_leafPaths (g : GoMap String Float64 → ℚ) :
    ∀ (n : Nat) (set : Bucket),
      total g n set = ((leafPaths n set).map (fun l => g l.2.2)).sum := by
  intro n
  induction n with
  | zero =>
    intro set
    rw [leafPaths, List.map_flatMap, sum_flatMap, total]
    congr 1
    apply List.map_congr_left
    intro e _
    cases hn : e.2 <;> simp
  | succ n ih =>
    intro set
    rw [leafPaths, List.map_flatMap, sum_flatMap, total]
    congr 1
    apply List.map_congr_left
    intro e _
    cases hn : e.2 with
    | mapSF m => simp
    | mapSI child => simp [ih child, List.map_map, Function.comp_def]

theorem sum_eq_zero_of_nonneg {α : Type} (f : α → ℚ) (hf : ∀ a, 0 ≤ f a) :
    ∀ (l : List α), (l.map f).sum = 0 → ∀ a ∈ l, f a = 0 := by
  intro l
  induction l with
  | nil => intro _ a ha; simp at ha
  | cons b l ih =>
    intro h a ha
    simp only [List.map_cons, List.sum_cons] at h
    have h1 := hf b
    have h2 := sum_map_nonneg f hf l
    have hb : f b = 0 := by linarith
    have hl : (l.map f).sum = 0 := by linarith
    rcases List.mem_cons.1 ha with rfl | ha1
    · exact hb
    · exact ih hl a ha1

theorem leafPaths_length :
    ∀ (n : Nat) (set : Bucket), ∀ l ∈ leafPaths n set, l.1.length = n := by
  intro n
  induction n with
  | zero =>
    intro set l hl
    simp only [leafPaths, List.mem_flatMap] at hl
    obtain ⟨e, _, hl⟩ := hl
    cases hn : e.2 with
    | mapSF stats =>
      rw [hn] at hl
      simp only [List.mem_singleton] at hl
      rw [hl]
      rfl
    | mapSI m =>
      rw [hn] at hl
      simp at hl
  | succ n ih =>
    intro set l hl
    simp only [leafPaths, List.mem_flatMap] at hl
    obtain ⟨e, _, hl⟩ := hl
    cases hn : e.2 with
    | mapSF stats =>
      rw [hn] at hl
      simp at hl
    | mapSI m =>
      rw [hn] at hl
      simp only [List.mem_map] at hl
      obtain ⟨l1, hl1, rfl⟩ := hl
      simp [ih m l1 hl1]

/-- A whole number is the value of its conversion to `int`. -/
theorem toInt_of_isWhole {x : Float64} (h : x.isWhole = true) :
    ((toInt x : Int) : ℚ) = x.toRat := by
  obtain ⟨m, rfl⟩ := isWhole_iff.1 h
  simp [toInt, Float64.toRat]

/-- The records of a tree of the right shape carry its totals: the `sum` attributes add up
to the total of the sums of the leaves and are the sums of the leaves; when every `count`
is a whole number, the `count` attributes add up to the total of the counts. -/
theorem flattened_totals {p : LinkStatsMetricFilter} (hinv : Inv p) {b : Bucket}
    (hb : shapeOK p.fieldsWithoutLast.length b = true) :
    metricToEvents p b 0 = Except.ok (flattened p b) ∧
    (total (keyDefect "count") p.fieldsWithoutLast.length b = 0 →
      ((((flattened p b).map recordCount).sum : Int) : ℚ)
        = total (keyValue "count") p.fieldsWithoutLast.length b) ∧
    ((flattened p b).map recordSum).sum = total (keyValue "sum") p.fieldsWithoutLast.length b ∧
    (total (keyDefect "sum") p.fieldsWithoutLast.length b = 0 →
      ∀ e ∈ flattened p b, ∃ x : ℚ, Event.read e "sum" = Value.float64 (Float64.finite x)) := by
  have hflen : ∀ l ∈ leafPaths p.fieldsWithoutLast.length b,
      l.1.length + 1 = p.fields.length := by
    intro l hl
    rw [leafPaths_length _ _ l hl, hinv.fieldsSplit]
    simp
  refine ⟨?_, ?_, ?_, ?_⟩
  · rw [flattened_eq hinv hb, metricToEvents_eq hinv hb]
  · intro hdef
    rw [total_eq_leafPaths] at hdef
    have hz := sum_eq_zero_of_nonneg (fun l : List String × String × GoMap String Float64 =>
      keyDefect "count" l.2.2) (fun l => keyDefect_nonneg _ _) _ hdef
    rw [flattened_eq hinv hb, total_eq_leafPaths, List.map_map]
    have : ∀ (l : List (List String × String × GoMap String Float64)),
        (∀ x ∈ l, x ∈ leafPaths p.fieldsWithoutLast.length b) →
        (((l.map (recordCount ∘ fun l => recordOf p.fields l.1 l.2.1 l.2.2)).sum : Int) : ℚ)
          = (l.map (fun l => keyValue "count" l.2.2)).sum := by
      intro l
      induction l with
      | nil => intro _; simp
      | cons x l ih =>
        intro hx
        have hx1 := hx x (List.mem_cons_self _ _)
        have hst := toInt_of_isWhole (keyDefect_eq_zero.1 (hz x hx1))
        simp only [List.map_cons, List.sum_cons, Function.comp_apply, Int.cast_add,
          (recordCount_recordOf x.2.1 x.2.2 p.fields x.1 (hflen x hx1)).1, hst]
        rw [← ih (fun y hy => hx y (List.mem_cons_of_mem _ hy))]
        rfl
    exact this _ (fun x hx => hx)
  · rw [flattened_eq hinv hb, total_eq_leafPaths, List.map_map]
    congr 1
    apply List.map_congr_left
    intro l hl
    exact (recordCount_recordOf l.2.1 l.2.2 p.fields l.1 (hflen l hl)).2.1
  · intro hdef e he
    rw [total_eq_leafPaths] at hdef
    have hz := sum_eq_zero_of_nonneg (fun l : List String × String × GoMap String Float64 =>
      keyDefect "sum" l.2.2) (fun l => keyDefect_nonneg _ _) _ hdef
    rw [flattened_eq hinv hb] at he
    obtain ⟨l, hl, rfl⟩ := List.mem_map.1 he
    rw [(recordCount_recordOf l.2.1 l.2.2 p.fields l.1 (hflen l hl)).2.2]
    obtain ⟨m, hm⟩ := isWhole_iff.1 (keyDefect_eq_zero.1 (hz l hl))
    exact ⟨m, by rw [hm]⟩

/-! ## The end-to-end run -/

theorem hostAccepted_facts {h : String} {k : Int} {call : Int × Event}
    (hc : hostAccepted h k call) :
    Event.read call.2 "host" = Value.string h ∧
    Event.read call.2 "metric" = Value.float64 (metricValue call) ∧
    ∃ t, GoMap.index call.2 "@timestamp" = some (Value.time t) ∧
      ageRejected hostPlugin call.1 t = false ∧ windowStart 10 t = k := by
  obtain ⟨h1, ⟨v, hv⟩, t, ht, htr, h0, h60, hk⟩ := hc
  refine ⟨h1, ?_, t, ht, ?_, ?_⟩
  · simp [metricValue, hv]
  · exact ageRejected_eq_false (p := hostPlugin) (by decide) h0 h60
  · rw [windowStart_eq _ htr, hk]

theorem updateMetric_hostPlugin {h : String} {k : Int} {call : Int × Event}
    (hc : hostAccepted h k call) :
    updateMetric hostPlugin call.1 call.2 = (hostState h k 1 (metricValue call), none) := by
  obtain ⟨h1, h2, t, ht, hage, hk⟩ := hostAccepted_facts hc
  have hage1 : ∀ p : LinkStatsMetricFilter, p.reserveWindow = 60 →
      ageRejected p call.1 t = false := by
    intro p hp
    have := hage
    simp only [ageRejected] at this ⊢
    rw [hp]
    exact this
  simp [updateMetric, hostPlugin, hostState, h2, ht, hage1, hk, walk, h1, updateLeaf,
    GoMap.index, GoMap.assign, newStats]

theorem updateMetric_hostState {h : String} {k : Int} {call : Int × Event} (n s : Float64)
    (hc : hostAccepted h k call) :
    updateMetric (hostState h k n s) call.1 call.2
      = (hostState h k (1 + n) (metricValue call + s), none) := by
  obtain ⟨h1, h2, t, ht, hage, hk⟩ := hostAccepted_facts hc
  have hage1 : ∀ p : LinkStatsMetricFilter, p.reserveWindow = 60 →
      ageRejected p call.1 t = false := by
    intro p hp
    have := hage
    simp only [ageRejected] at this ⊢
    rw [hp]
    exact this
  simp [updateMetric, hostPlugin, hostState, h2, ht, hage1, hk, walk, h1, updateLeaf,
    GoMap.index, GoMap.assign, addSample, GoMap.read0, deref]

/-- The leaf of host `h` after a sequence of accepted events: every event adds 1 to the
count and its value to the sum, by `float64` additions, in the order of the calls. -/
theorem ingestAll_hostState {h : String} {k : Int} :
    ∀ (calls : List (Int × Event)) (n s : Float64), (∀ c ∈ calls, hostAccepted h k c) →
      ingestAll (hostState h k n s) calls
        = hostState h k (calls.foldl (fun c _ => 1 + c) n)
            ((calls.map metricValue).foldl (fun s x => x + s) s) := by
  intro calls
  induction calls with
  | nil => intro n s _; simp [ingestAll]
  | cons c calls ih =>
    intro n s hall
    have hc := hall c (List.mem_cons_self _ _)
    show ingestAll (updateMetric (hostState h k n s) c.1 c.2).1 calls = _
    rw [updateMetric_hostState n s hc, ih _ _ (fun d hd => hall d (List.mem_cons_of_mem _ hd))]
    rfl

/-- Up to 2^53 the count of line 187 is the number of samples. -/
theorem count_fold {α : Type} :
    ∀ (l : List α) (n : Nat), n + l.length ≤ 9007199254740992 →
      l.foldl (fun (c : Float64) _ => 1 + c) (Float64.finite (n : ℚ))
        = Float64.finite ((n + l.length : Nat) : ℚ) := by
  intro l
  induction l with
  | nil => intro n _; simp
  | cons a l ih =>
    intro n hn
    simp only [List.length_cons] at hn
    have hstep : (1 : Float64) + Float64.finite (n : ℚ) = Float64.finite ((n + 1 : Nat) : ℚ) := by
      rw [float64_ofNat, float64_add_finite]
      have hc : ((1 : Nat) : ℚ) + (n : ℚ) = (((n + 1 : Nat) : Int) : ℚ) := by
        push_cast
        ring
      rw [hc, round64_intCast (by simp only [Int.natAbs_ofNat]; omega)]
      simp
    simp only [List.foldl_cons, hstep, List.length_cons]
    rw [ih (n + 1) (by omega)]
    congr 2
    omega

/-- Whole numbers whose absolute values add up to at most 2^53 are accumulated exactly. -/
theorem foldl_exact :
    ∀ (vs : List Float64) (x : Int), (∀ v ∈ vs, v.isWhole = true) →
      |(x : ℚ)| + (vs.map (fun v => |v.toRat|)).sum ≤ 9007199254740992 →
      vs.foldl (fun s v => v + s) (Float64.finite (x : ℚ))
        = Float64.finite ((x : ℚ) + (vs.map Float64.toRat).sum) := by
  intro vs
  induction vs with
  | nil => intro x _ _; simp
  | cons v vs ih =>
    intro x hw hb
    obtain ⟨y, rfl⟩ := isWhole_iff.1 (hw _ (List.mem_cons_self _ _))
    have ht : (Float64.finite (y : ℚ)).toRat = (y : ℚ) := rfl
    simp only [List.map_cons, List.sum_cons, ht] at hb ⊢
    have hrest : 0 ≤ (vs.map (fun v => |v.toRat|)).sum :=
      sum_map_nonneg _ (fun v => abs_nonneg _) _
    have hstep := @add_whole_exact y x (by linarith)
    simp only [List.foldl_cons, hstep]
    have hxy : |((y + x : Int) : ℚ)| ≤ |(y : ℚ)| + |(x : ℚ)| := by
      push_cast
      exact abs_add _ _
    rw [ih (y + x) (fun w hw1 => hw w (List.mem_cons_of_mem _ hw1)) (by linarith)]
    congr 1
    push_cast
    ring

theorem accumulate_exact (vs : List Float64) (hw : ∀ v ∈ vs, v.isWhole = true)
    (hb : (vs.map (fun v => |v.toRat|)).sum ≤ 9007199254740992) :
    accumulate vs = Float64.finite ((vs.map Float64.toRat).sum) := by
  cases vs with
  | nil => simp [accumulate, float64_ofNat]
  | cons v vs =>
    obtain ⟨y, rfl⟩ := isWhole_iff.1 (hw _ (List.mem_cons_self _ _))
    have ht : (Float64.finite (y : ℚ)).toRat = (y : ℚ) := rfl
    simp only [List.map_cons, List.sum_cons, ht] at hb ⊢
    exact foldl_exact vs y (fun w hw1 => hw w (List.mem_cons_of_mem _ hw1)) hb

theorem ingestAll_hostPlugin {h : String} {k : Int} {calls : List (Int × Event)}
    (hne : calls ≠ []) (hall : ∀ c ∈ calls, hostAccepted h k c)
    (hlen : calls.length ≤ 9007199254740992) :
    ingestAll hostPlugin calls
      = hostState h k (Float64.finite (calls.length : ℚ))
          (accumulate (calls.map metricValue)) := by
  match calls, hne, hall, hlen with
  | c :: rest, _, hall1, hlen1 =>
    have hc := hall1 c (List.mem_cons_self _ _)
    simp only [List.length_cons] at hlen1
    show ingestAll (updateMetric hostPlugin c.1 c.2).1 rest = _
    rw [updateMetric_hostPlugin hc,
      ingestAll_hostState rest _ _ (fun d hd => hall1 d (List.mem_cons_of_mem _ hd))]
    have hcf : rest.foldl (fun (c : Float64) _ => 1 + c) 1
        = Float64.finite ((1 + rest.length : Nat) : ℚ) := count_fold rest 1 (by omega)
    rw [hcf]
    simp only [List.length_cons, List.map_cons, accumulate]
    congr 2
    push_cast
    ring

theorem inv_hostState (h : String) (k : Int) (n s : Float64) : Inv (hostState h k n s) :=
  { metricKeys := by simp [hostState]
    emitKeys := by simp [hostState, hostPlugin]
    metricRefs := by simp [hostState]
    metricValid := by simp [hostState]
    emitValid := by simp [hostState, hostPlugin]
    shape := by simp [hostState, hostPlugin, shapeOK]
    fieldsSplit := rfl
    fieldsLen := rfl
    windowPos := by show (0 : Int) < 10; decide
    windowRange := by show IsInt64 10; decide
    reserveRange := by show IsInt64 60; decide
    offsetRange := by show IsInt64 0; decide }

/-- The tick on a store with the single bucket `k`, at a time whose window starts at `k`
or later: the bucket is published. -/
theorem tick_hostState (h : String) (k : Int) (n s : Float64) {now : Int}
    (hnow : IsInt64 now) (hk : k ≤ now - Int.tmod now 10) :
    (tick (hostState h k n s) now).2 = none ∧
    (tick (hostState h k n s) now).1.metricToEmit = [(k, 0)] ∧
    ∃ m, (tick (hostState h k n s) now).1
      = { hostState h k n s with metric := m, metricToEmit := [(k, 0)] } := by
  have hinv := inv_hostState h k n s
  have hne : (hostState h k n s).metric ≠ [] := by simp [hostState]
  have hthr : int64 (windowStart (hostState h k n s).batchWindow now
      - int64 ((hostState h k n s).batchWindow * (hostState h k n s).windowOffset))
      = now - Int.tmod now 10 := by
    have h0 : int64 (10 * 0) = 0 := by decide
    have hw : windowStart 10 now = now - Int.tmod now 10 := windowStart_eq 10 hnow
    have hin : int64 (now - Int.tmod now 10) = now - Int.tmod now 10 := hw
    show int64 (windowStart 10 now - int64 (10 * 0)) = _
    rw [h0, sub_zero, hw, hin]
  have hsel : selectToEmit (hostState h k n s).metric (now - Int.tmod now 10) = [(k, 0)] := by
    rw [selectToEmit_eq_filter hinv.metricKeys]
    simp [hostState, hk]
  rw [tick_eq_of_slot_empty now hinv rfl hne, hthr, hsel]
  exact ⟨rfl, rfl, _, rfl⟩

/-- The drain of a slot with the single bucket `k` that holds for host `h` the leaf with
the count `n` and the sum `s`. -/
theorem drain_hostState (postProcess : Event → Bool → Event) (h : String) (k : Int)
    (n : Nat) (s : Float64) (m : GoMap Int Ref) :
    EmitExtraEvents postProcess
        { hostState h k (Float64.finite (n : ℚ)) s with metric := m, metricToEmit := [(k, 0)] }
        []
      = ({ hostState h k (Float64.finite (n : ℚ)) s with metric := m, metricToEmit := [] },
          [postProcess [("host", Value.string h), ("metric", Value.string "metric"),
            ("count", Value.int n), ("sum", Value.float64 s),
            ("mean", Value.float64 (s / Float64.finite (n : ℚ))),
            ("@timestamp", Value.time k)] true],
          none) := by
  simp [EmitExtraEvents, drainLoop, metricToEvents, flatten, collect, hostState, hostPlugin,
    deref, leafRecord, wrapRecord, GoMap.assign, GoMap.read0, GoMap.index, toInt]

/-! # The claims -/

/-! ## C1: the ingest postcondition -/

/-- C1 (as stated, refuted): the handoff slot is not always unchanged by `updateMetric`.
After a cumulative-mode tick the slot and the store hold the same bucket object
(`sharedPlugin` is the state reached from `hostPlugin` by one ingest and one tick), and the
next accepted event changes the LeafStats seen through the slot from (1, 1) to (2, 3). -/
theorem updateMetric_changes_shared_slot :
    (tick (updateMetric hostPlugin 105 (hostEvent 1 103)).1 110).1 = sharedPlugin ∧
    Inv sharedPlugin ∧
    Event.read (hostEvent 2 105) sharedPlugin.lastField = Value.float64 2 ∧
    GoMap.index (hostEvent 2 105) sharedPlugin.timestamp = some (Value.time 105) ∧
    (0 : Int) ≤ 111 - 105 ∧ (111 : Int) - 105 ≤ sharedPlugin.reserveWindow ∧
    groupValues (hostEvent 2 105) sharedPlugin.fieldsWithoutLast = some ["h1"] ∧
    (updateMetric sharedPlugin 111 (hostEvent 2 105)).2 = none ∧
    slotLeaf sharedPlugin 100 ["h1"] "metric" = some [("count", 1), ("sum", 1)] ∧
    slotLeaf (updateMetric sharedPlugin 111 (hostEvent 2 105)).1 100 ["h1"] "metric"
      = some [("count", 2), ("sum", 3)] := by
  refine ⟨by decide!, inv_sharedPlugin, by decide!, by decide!, by decide, by decide,
    by decide!, by decide!, by decide!, by decide!⟩

/-- C1 (amended): an event with a float64 measured value `v`, a `time.Time` timestamp `t`
with `0 ≤ now - t ≤ reserveWindow` and a string for every grouping field makes
`updateMetric` return normally, and the store then differs in exactly one LeafStats, the
one of bucket `t - t % batchWindow` under the event's grouping values and the terminal key
`lastField`: an existing leaf (c, s) becomes (c + 1, s + v), by the `float64` additions of
lines 187 and 188, a missing one is created as (1, v); every other leaf of every bucket of
the store is unchanged.  The handoff slot keeps
its keys and bucket references; the leaves seen through a slot entry are unchanged unless
the entry is the very bucket object being updated, and then they are those of the store. -/
theorem updateMetric_ingest (p : LinkStatsMetricFilter) (now : Int) (ev : Event)
    (v : Float64) (t : Int) (vals : List String) (hinv : Inv p)
    (hv : Event.read ev p.lastField = Value.float64 v)
    (ht : GoMap.index ev p.timestamp = some (Value.time t)) (htr : IsInt64 t)
    (h0 : 0 ≤ now - t) (h1 : now - t ≤ p.reserveWindow)
    (hg : groupValues ev p.fieldsWithoutLast = some vals) :
    ∃ p1 stats1, updateMetric p now ev = (p1, none) ∧
      storeLeaf p1 (t - Int.tmod t p.batchWindow) vals p.lastField = some stats1 ∧
      (∀ stats, storeLeaf p (t - Int.tmod t p.batchWindow) vals p.lastField = some stats →
        GoMap.read0 stats1 "count" = GoMap.read0 stats "count" + 1 ∧
        GoMap.read0 stats1 "sum" = GoMap.read0 stats "sum" + v) ∧
      (storeLeaf p (t - Int.tmod t p.batchWindow) vals p.lastField = none →
        stats1 = [("count", 1), ("sum", v)]) ∧
      (∀ k vals1 last1, (k, vals1, last1) ≠ (t - Int.tmod t p.batchWindow, vals, p.lastField) →
        storeLeaf p1 k vals1 last1 = storeLeaf p k vals1 last1) ∧
      p1.metricToEmit = p.metricToEmit ∧
      (∀ k, GoMap.index p.metricToEmit k
          ≠ GoMap.index p1.metric (t - Int.tmod t p.batchWindow) →
        ∀ vals1 last1, slotLeaf p1 k vals1 last1 = slotLeaf p k vals1 last1) ∧
      (∀ k, GoMap.index p.metricToEmit k
          = GoMap.index p1.metric (t - Int.tmod t p.batchWindow) →
        ∀ vals1 last1, slotLeaf p1 k vals1 last1
          = storeLeaf p1 (t - Int.tmod t p.batchWindow) vals1 last1) := by
  obtain ⟨p1, hrun, _, hcfg, hleaf, hother, hheap⟩ :=
    updateMetric_accept hinv hv ht htr h0 h1 hg
  have hslot : p1.metricToEmit = p.metricToEmit := by
    have h := congrArg LinkStatsMetricFilter.metricToEmit hcfg
    exact h
  refine ⟨p1, _, hrun, hleaf, ?_, ?_, hother, hslot, ?_, ?_⟩
  · intro stats hs
    rw [hs]
    simp only [bumped, read0_addSample_count, read0_addSample_sum]
    exact ⟨float64_add_comm _ _, float64_add_comm _ _⟩
  · intro hs
    rw [hs]
    simp only [bumped, newStats_eq]
  · intro k hk vals1 last1
    simp only [slotLeaf, bucketAt, hslot]
    cases hi : GoMap.index p.metricToEmit k with
    | none => rfl
    | some r =>
      have hne : GoMap.index p1.metric (t - Int.tmod t p.batchWindow) ≠ some r := by
        intro h
        exact hk (by rw [hi, h])
      simp only [Option.map_some', Option.some_bind, hheap r hne]
  · intro k hk vals1 last1
    simp only [slotLeaf, storeLeaf, bucketAt, hslot, hk]

/-- Witness of C1 (amended): the first event of host `h1` is ingested into the empty
`hostPlugin`. -/
theorem updateMetric_ingest_witness :
    ∃ p1 stats1, updateMetric hostPlugin 105 (hostEvent 1 103) = (p1, none) ∧
      storeLeaf p1 100 ["h1"] "metric" = some stats1 := by
  obtain ⟨p1, stats1, h1, h2, _⟩ :=
    updateMetric_ingest hostPlugin 105 (hostEvent 1 103) 1 103 ["h1"] inv_hostPlugin
      (by decide!) (by decide!) (by decide) (by decide) (by decide) (by decide!)
  exact ⟨p1, stats1, h1, h2⟩

/-! ## C2: a missing grouping field -/

/-- C2 (the code departs from the claim): an event that passes the measured-field,
timestamp and age checks and lacks the grouping field `host` does not leave the Bucket
Store as it was.  In the empty `pathPlugin` the call creates bucket 100 (line 166) and the
level of `dc` below it (line 180) before it returns at line 174; no LeafStats is written.
The next rotation tick publishes that empty bucket into the handoff slot. -/
theorem updateMetric_missing_group_field_writes :
    pathPlugin.metric = [] ∧ pathPlugin.heap = [] ∧
    Event.read dcOnlyEvent "host" = Value.nil ∧
    updateMetric pathPlugin 105 dcOnlyEvent
      = ({ pathPlugin with metric := [(100, 0)], heap := [[("d1", Node.mapSI [])]] }, none) ∧
    (tick (updateMetric pathPlugin 105 dcOnlyEvent).1 110).1.metricToEmit = [(100, 0)] := by
  refine ⟨rfl, rfl, by decide!, by decide!, by decide!⟩

/-! ## C3: stale and future events -/

/-- C3: an event whose timestamp `t` is older than the retention horizon
(`now - t > reserveWindow`) or in the future (`t > now`) leaves the whole plugin state, the
Bucket Store and the handoff slot included, as it was, and the call returns normally when
the measured field holds a float64; an event of age exactly `reserveWindow` or exactly 0 is
not rejected by the age check (for a retention horizon that is not negative).  `now`, `t`
and `reserveWindow` are `int64` values and `now`, the Unix time of the clock, is not
negative. -/
theorem updateMetric_stale_or_future (p : LinkStatsMetricFilter) (now : Int) (ev : Event)
    (t : Int) (hnow : 0 ≤ now) (hnr : IsInt64 now) (htr : IsInt64 t)
    (hR : IsInt64 p.reserveWindow)
    (ht : GoMap.index ev p.timestamp = some (Value.time t)) :
    ((now - t > p.reserveWindow ∨ t > now) →
      (updateMetric p now ev).1 = p ∧
      (∀ v, Event.read ev p.lastField = Value.float64 v → updateMetric p now ev = (p, none))) ∧
    (0 ≤ p.reserveWindow → (now - t = p.reserveWindow ∨ now - t = 0) →
      ageRejected p now t = false) := by
  constructor
  · intro hage
    have hrej : ageRejected p now t = true := by
      simp only [ageRejected, decide_eq_true_eq]
      unfold IsInt64 at hnr htr hR
      unfold int64
      omega
    have hfloat : ∀ v, Event.read ev p.lastField = Value.float64 v →
        updateMetric p now ev = (p, none) := by
      intro v hv
      unfold updateMetric
      simp only [hv, ht, hrej, if_true]
    refine ⟨?_, hfloat⟩
    cases hv : Event.read ev p.lastField with
    | float64 v => rw [hfloat v hv]
    | nil => unfold updateMetric; simp only [hv]
    | string s => unfold updateMetric; simp only [hv]
    | time u => unfold updateMetric; simp only [hv]
    | int n => unfold updateMetric; simp only [hv]
    | bool b => unfold updateMetric; simp only [hv]
  · intro h0 hb
    apply ageRejected_eq_false hR <;> omega

/-- Witness of C3: in `hostPlugin` (retention horizon 60) an event of time 100 is stale at
time 200. -/
theorem updateMetric_stale_or_future_witness :
    (updateMetric hostPlugin 200 (hostEvent 1 100)).1 = hostPlugin :=
  ((updateMetric_stale_or_future hostPlugin 200 (hostEvent 1 100) 100 (by decide) (by decide)
    (by decide) (by decide) (by decide!)).1 (Or.inl (by decide))).1

/-! ## C4 and C5: events that make the call panic -/

/-- C4 (the code departs from the claim): a timestamp attribute that is present with a nil
value does not make `updateMetric` return normally.  `reflect.TypeOf(nil)` is the nil
`reflect.Type`, and calling `String()` on it at line 145 panics with a nil dereference. -/
theorem updateMetric_nil_timestamp_panics :
    updateMetric hostPlugin 105
        [("host", Value.string "h1"), ("metric", Value.float64 1), ("@timestamp", Value.nil)]
      = (hostPlugin, some Panic.nilDereference) := by
  decide!

/-- C5 (the code departs from the claim): `Process` does not return normally for every
event.  A measured field that holds a string fails the type assertion of line 141, and a
grouping field that holds an integer fails the type assertion of line 176 (after bucket 100
was created); both panics reach the caller of `Process`. -/
theorem Process_mistyped_field_panics :
    Process hostPlugin 105
        [("host", Value.string "h1"), ("metric", Value.string "fast"),
          ("@timestamp", Value.time 103)]
      = (hostPlugin, Except.error Panic.typeAssertion) ∧
    Process hostPlugin 105
        [("host", Value.int 7), ("metric", Value.float64 1), ("@timestamp", Value.time 103)]
      = ({ hostPlugin with metric := [(100, 0)], heap := [[]] },
          Except.error Panic.typeAssertion) := by
  constructor <;> rfl

/-! ## C6: ingestion commutes -/

/-- C6 (as stated, refuted): the final `sum` depends on the order of ingestion, because the
addition of line 188 is a `float64` addition, which rounds.  The store holds for host `h1`
in bucket 100 the leaf with the sum 0.1 (it is the state after one accepted event of value
0.1); two accepted events of the same bucket and host carry the values 0.2 and 0.4.
Ingested in this order they leave the sum 0.7000000000000001 (6305039478318695 / 2^53), in
the other order the sum 0.7 (6305039478318694 / 2^53); the counts are 3 in both orders.
`round64 (1 / 10)` is the `float64` nearest to 0.1, and so on. -/
theorem updateMetric_order_changes_sum :
    (updateMetric hostPlugin 105 (hostEvent (Float64.round64 (1 / 10)) 103)).1
      = hostState "h1" 100 1 (Float64.round64 (1 / 10)) ∧
    Inv (hostState "h1" 100 1 (Float64.round64 (1 / 10))) ∧
    windowStart 10 103 = 100 ∧ windowStart 10 104 = 100 ∧
    groupValues (hostEvent (Float64.round64 (2 / 10)) 103) ["host"] = some ["h1"] ∧
    groupValues (hostEvent (Float64.round64 (4 / 10)) 104) ["host"] = some ["h1"] ∧
    updateMetric (updateMetric (hostState "h1" 100 1 (Float64.round64 (1 / 10))) 105
        (hostEvent (Float64.round64 (2 / 10)) 103)).1 105
        (hostEvent (Float64.round64 (4 / 10)) 104)
      = (hostState "h1" 100 3 (Float64.finite (6305039478318695 / 9007199254740992)), none) ∧
    updateMetric (updateMetric (hostState "h1" 100 1 (Float64.round64 (1 / 10))) 105
        (hostEvent (Float64.round64 (4 / 10)) 104)).1 105
        (hostEvent (Float64.round64 (2 / 10)) 103)
      = (hostState "h1" 100 3 (Float64.finite (6305039478318694 / 9007199254740992)), none) ∧
    storeLeaf (hostState "h1" 100 3 (Float64.finite (6305039478318695 / 9007199254740992)))
      100 ["h1"] "metric"
      = some [("count", 3), ("sum", Float64.finite (6305039478318695 / 9007199254740992))] ∧
    storeLeaf (hostState "h1" 100 3 (Float64.finite (6305039478318694 / 9007199254740992)))
      100 ["h1"] "metric"
      = some [("count", 3), ("sum", Float64.finite (6305039478318694 / 9007199254740992))] ∧
    Float64.finite (6305039478318695 / 9007199254740992)
      ≠ Float64.finite (6305039478318694 / 9007199254740992) := by
  refine ⟨by decide!, inv_hostState _ _ _ _, by decide, by decide, by decide!, by decide!,
    by decide!, by decide!, by decide!, by decide!, by decide!⟩

/-- C6 (amended): for two accepted events that map to the same bucket and the same grouping
path (float64 values `v1`, `v2`, timestamps with the same `t - t % batchWindow`, the same
string values for the grouping fields), ingesting them at the same `now` in either order
returns normally and ends with the same `count` in their leaf.  When the leaf did not exist
before, it ends with the same `sum` as well, `v2 + v1` = `v1 + v2` (a `float64` addition
commutes).  When the leaf held the sum `s` before, it ends with the sum `v2 + (v1 + s)` in
one order and `v1 + (v2 + s)` in the other, in `float64` additions; these are equal when
`s`, `v1` and `v2` are whole numbers whose absolute values add up to at most 2^53 (no
addition rounds). -/
theorem updateMetric_comm (p : LinkStatsMetricFilter) (now : Int) (e1 e2 : Event)
    (v1 v2 : Float64) (t1 t2 : Int) (vals : List String) (hinv : Inv p)
    (hv1 : Event.read e1 p.lastField = Value.float64 v1)
    (ht1 : GoMap.index e1 p.timestamp = some (Value.time t1)) (htr1 : IsInt64 t1)
    (h01 : 0 ≤ now - t1) (h11 : now - t1 ≤ p.reserveWindow)
    (hg1 : groupValues e1 p.fieldsWithoutLast = some vals)
    (hv2 : Event.read e2 p.lastField = Value.float64 v2)
    (ht2 : GoMap.index e2 p.timestamp = some (Value.time t2)) (htr2 : IsInt64 t2)
    (h02 : 0 ≤ now - t2) (h12 : now - t2 ≤ p.reserveWindow)
    (hg2 : groupValues e2 p.fieldsWithoutLast = some vals)
    (hkey : t1 - Int.tmod t1 p.batchWindow = t2 - Int.tmod t2 p.batchWindow) :
    ∃ s12 s21,
      (updateMetric p now e1).2 = none ∧
      (updateMetric (updateMetric p now e1).1 now e2).2 = none ∧
      (updateMetric p now e2).2 = none ∧
      (updateMetric (updateMetric p now e2).1 now e1).2 = none ∧
      storeLeaf (updateMetric (updateMetric p now e1).1 now e2).1
        (t1 - Int.tmod t1 p.batchWindow) vals p.lastField = some s12 ∧
      storeLeaf (updateMetric (updateMetric p now e2).1 now e1).1
        (t1 - Int.tmod t1 p.batchWindow) vals p.lastField = some s21 ∧
      GoMap.read0 s12 "count" = GoMap.read0 s21 "count" ∧
      (storeLeaf p (t1 - Int.tmod t1 p.batchWindow) vals p.lastField = none →
        GoMap.read0 s12 "sum" = v2 + v1 ∧ GoMap.read0 s21 "sum" = v1 + v2 ∧
        GoMap.read0 s12 "sum" = GoMap.read0 s21 "sum") ∧
      (∀ stats, storeLeaf p (t1 - Int.tmod t1 p.batchWindow) vals p.lastField = some stats →
        GoMap.read0 s12 "sum" = v2 + (v1 + GoMap.read0 stats "sum") ∧
        GoMap.read0 s21 "sum" = v1 + (v2 + GoMap.read0 stats "sum") ∧
        ∀ a b c : Int, GoMap.read0 stats "sum" = Float64.finite (a : ℚ) →
          v1 = Float64.finite (b : ℚ) → v2 = Float64.finite (c : ℚ) →
          |(a : ℚ)| + |(b : ℚ)| + |(c : ℚ)| ≤ 9007199254740992 →
          GoMap.read0 s12 "sum" = GoMap.read0 s21 "sum") := by
  obtain ⟨a1, a2, a3⟩ :=
    updateMetric_accept_twice hinv hv1 ht1 htr1 h01 h11 hg1 hv2 ht2 htr2 h02 h12 hg2 hkey
  obtain ⟨b1, b2, b3⟩ :=
    updateMetric_accept_twice hinv hv2 ht2 htr2 h02 h12 hg2 hv1 ht1 htr1 h01 h11 hg1 hkey.symm
  rw [← hkey] at b3
  refine ⟨_, _, a1, a2, b1, b2, a3, b3, ?_, ?_, ?_⟩
  · cases storeLeaf p (t1 - Int.tmod t1 p.batchWindow) vals p.lastField with
    | none => simp only [bumped, read0_addSample_count, read0_newStats_count]
    | some stats => simp only [bumped, read0_addSample_count]
  · intro hnone
    rw [hnone]
    simp only [bumped, read0_addSample_sum, read0_newStats_sum]
    exact ⟨trivial, trivial, float64_add_comm _ _⟩
  · intro stats hsome
    rw [hsome]
    simp only [bumped, read0_addSample_sum]
    refine ⟨trivial, trivial, ?_⟩
    intro a b c ha hb hc habc
    rw [ha, hb, hc]
    have hpa := abs_nonneg (a : ℚ)
    have hpb := abs_nonneg (b : ℚ)
    have hpc := abs_nonneg (c : ℚ)
    have hba : |((b + a : Int) : ℚ)| ≤ |(b : ℚ)| + |(a : ℚ)| := by
      push_cast
      exact abs_add _ _
    have hca : |((c + a : Int) : ℚ)| ≤ |(c : ℚ)| + |(a : ℚ)| := by
      push_cast
      exact abs_add _ _
    rw [@add_whole_exact b a (by linarith), @add_whole_exact c a (by linarith),
      @add_whole_exact c (b + a) (by linarith), @add_whole_exact b (c + a) (by linarith)]
    congr 2
    ring

/-- Witness of C6 (amended): two events of host `h1` in the window of bucket 100, with
values 1 and 5/2, ingested into the empty `hostPlugin` at time 105, end with the same count
and the same sum in either order; so do two events with the values 2 and 3 ingested into
the store whose leaf of host `h1` holds the count 1 and the sum 1. -/
theorem updateMetric_comm_witness :
    (∃ s12 s21,
      storeLeaf (updateMetric (updateMetric hostPlugin 105 (hostEvent 1 103)).1 105
        (hostEvent (5 / 2) 101)).1 100 ["h1"] "metric" = some s12 ∧
      storeLeaf (updateMetric (updateMetric hostPlugin 105 (hostEvent (5 / 2) 101)).1 105
        (hostEvent 1 103)).1 100 ["h1"] "metric" = some s21 ∧
      GoMap.read0 s12 "count" = GoMap.read0 s21 "count" ∧
      GoMap.read0 s12 "sum" = GoMap.read0 s21 "sum") ∧
    (∃ s12 s21,
      storeLeaf (updateMetric (updateMetric (hostState "h1" 100 1 1) 105 (hostEvent 2 103)).1
        105 (hostEvent 3 101)).1 100 ["h1"] "metric" = some s12 ∧
      storeLeaf (updateMetric (updateMetric (hostState "h1" 100 1 1) 105 (hostEvent 3 101)).1
        105 (hostEvent 2 103)).1 100 ["h1"] "metric" = some s21 ∧
      GoMap.read0 s12 "count" = GoMap.read0 s21 "count" ∧
      GoMap.read0 s12 "sum" = GoMap.read0 s21 "sum") := by
  constructor
  · obtain ⟨s12, s21, _, _, _, _, h5, h6, h7, h8, _⟩ :=
      updateMetric_comm hostPlugin 105 (hostEvent 1 103) (hostEvent (5 / 2) 101) 1 (5 / 2) 103
        101 ["h1"] inv_hostPlugin (by decide!) (by decide!) (by decide) (by decide)
        (by decide) (by decide!) (by decide!) (by decide!) (by decide) (by decide) (by decide)
        (by decide!) (by decide)
    exact ⟨s12, s21, h5, h6, h7, (h8 (by decide!)).2.2⟩
  · obtain ⟨s12, s21, _, _, _, _, h5, h6, h7, _, h9⟩ :=
      updateMetric_comm (hostState "h1" 100 1 1) 105 (hostEvent 2 103) (hostEvent 3 101) 2 3
        103 101 ["h1"] (inv_hostState _ _ _ _) (by decide!) (by decide!) (by decide)
        (by decide) (by decide) (by decide!) (by decide!) (by decide!) (by decide) (by decide)
        (by decide) (by decide!) (by decide)
    exact ⟨s12, s21, h5, h6, h7,
      (h9 [("count", 1), ("sum", 1)] (by decide!)).2.2 1 2 3 (by decide!) (by decide!)
        (by decide!) (by norm_num)⟩

/-! ## C7: the bucket key -/

/-- C7 (as stated, refuted): for a negative event time the bucket key is not the floor.
With `batchWindow = 10` the time -5 lies in [-10, 0), the interval of k = -1, and an
accepted event of that time is filed under bucket 0, not under k * W = -10, because the Go
remainder truncates toward zero; the times -10 and -5 of that one interval get the bucket
keys -10 and 0. -/
theorem updateMetric_negative_time_bucket :
    Inv hostPlugin ∧
    (-1 : Int) * hostPlugin.batchWindow ≤ -5 ∧ (-5 : Int) < (-1 + 1) * hostPlugin.batchWindow ∧
    (0 : Int) ≤ 3 - (-5) ∧ (3 : Int) - (-5) ≤ hostPlugin.reserveWindow ∧
    updateMetric hostPlugin 3 (hostEvent 1 (-5))
      = ({ hostPlugin with
            metric := [(0, 0)]
            heap := [[("h1", Node.mapSI [("metric", Node.mapSF [("count", 1), ("sum", 1)])])]] },
          none) ∧
    storeLeaf (updateMetric hostPlugin 3 (hostEvent 1 (-5))).1 (-1 * hostPlugin.batchWindow)
      ["h1"] "metric" = none ∧
    windowStart hostPlugin.batchWindow (-10) = -10 ∧
    windowStart hostPlugin.batchWindow (-5) = 0 := by
  refine ⟨inv_hostPlugin, by decide, by decide, by decide, by decide, by decide!, by decide!,
    by decide, by decide⟩

/-- C7 (amended): for every integer k ≥ 0 and every accepted event whose timestamp `t` lies
in [k * W, (k + 1) * W), where W = `batchWindow` > 0, the statement of line 160 computes the
bucket key k * W, `updateMetric` returns normally and files the event under bucket k * W
(its leaf is there afterwards, and no leaf of another bucket changes); every `int64` time of
the same interval gets the same bucket key. -/
theorem updateMetric_bucket_key (p : LinkStatsMetricFilter) (now : Int) (ev : Event)
    (v : Float64) (t k : Int) (vals : List String) (hinv : Inv p)
    (hv : Event.read ev p.lastField = Value.float64 v)
    (ht : GoMap.index ev p.timestamp = some (Value.time t)) (htr : IsInt64 t)
    (h0 : 0 ≤ now - t) (h1 : now - t ≤ p.reserveWindow)
    (hg : groupValues ev p.fieldsWithoutLast = some vals)
    (hk : 0 ≤ k) (hlo : k * p.batchWindow ≤ t) (hhi : t < (k + 1) * p.batchWindow) :
    windowStart p.batchWindow t = k * p.batchWindow ∧
    (updateMetric p now ev).2 = none ∧
    (∃ stats1, storeLeaf (updateMetric p now ev).1 (k * p.batchWindow) vals p.lastField
      = some stats1) ∧
    (∀ k1 vals1 last1, k1 ≠ k * p.batchWindow →
      storeLeaf (updateMetric p now ev).1 k1 vals1 last1 = storeLeaf p k1 vals1 last1) ∧
    (∀ t2, IsInt64 t2 → k * p.batchWindow ≤ t2 → t2 < (k + 1) * p.batchWindow →
      windowStart p.batchWindow t2 = windowStart p.batchWindow t) := by
  have hkey := tmod_of_window hinv.windowPos hk hlo hhi
  have hws : windowStart p.batchWindow t = k * p.batchWindow := by
    rw [windowStart_eq _ htr, hkey]
  obtain ⟨p1, hrun, _, _, hleaf, hother, _⟩ := updateMetric_accept hinv hv ht htr h0 h1 hg
  rw [hkey] at hleaf hother
  rw [hrun]
  refine ⟨hws, rfl, ⟨_, hleaf⟩, ?_, ?_⟩
  · intro k1 vals1 last1 hk1
    apply hother
    intro h
    rw [Prod.mk.injEq] at h
    exact hk1 h.1
  · intro t2 htr2 hlo2 hhi2
    rw [hws, windowStart_eq _ htr2, tmod_of_window hinv.windowPos hk hlo2 hhi2]

/-- Witness of C7 (amended): the time 103 lies in [10 * 10, 11 * 10) and the event is filed
under bucket 100. -/
theorem updateMetric_bucket_key_witness :
    windowStart hostPlugin.batchWindow 103 = 10 * hostPlugin.batchWindow ∧
    ∃ stats1, storeLeaf (updateMetric hostPlugin 105 (hostEvent 1 103)).1
      (10 * hostPlugin.batchWindow) ["h1"] "metric" = some stats1 := by
  obtain ⟨h1, _, h3, _⟩ :=
    updateMetric_bucket_key hostPlugin 105 (hostEvent 1 103) 1 103 10 ["h1"] inv_hostPlugin
      (by decide!) (by decide!) (by decide) (by decide) (by decide) (by decide!) (by decide)
      (by decide) (by decide)
  exact ⟨h1, h3⟩

/-! ## C8, C9, C10: the rotation tick -/

/-- C8: with an occupied handoff slot, a rotation tick returns normally and leaves the whole
plugin state, the Bucket Store and the handoff slot included, as it was, for every `now`
and every accumulation mode. -/
theorem tick_backpressure (p : LinkStatsMetricFilter) (now : Int)
    (h : p.metricToEmit ≠ []) : tick p now = (p, none) := by
  have hlen : p.metricToEmit.length ≠ 0 := fun h0 => h (List.length_eq_zero.1 h0)
  simp [tick, hlen]

/-- Witness of C8: the slot of `sharedPlugin` holds bucket 100. -/
theorem tick_backpressure_witness : tick sharedPlugin 120 = (sharedPlugin, none) :=
  tick_backpressure sharedPlugin 120 (by decide)

/-- C9: at a rotation tick with an empty handoff slot the call returns normally, and the
slot afterwards holds exactly the entries of the pre-tick Bucket Store whose key is at most
the threshold, each with the bucket object it had in the store (the bucket objects
themselves are untouched), and nothing else; when no bucket qualifies the slot stays empty.
The threshold is `current_bucket - batchWindow * windowOffset` in `int64` arithmetic, with
`current_bucket = now - now % batchWindow`; it is that integer itself when neither the
product nor the difference overflows. -/
theorem tick_selects (p : LinkStatsMetricFilter) (now : Int) (hinv : Inv p)
    (hslot : p.metricToEmit = []) (hnow : IsInt64 now) :
    (tick p now).2 = none ∧
    (tick p now).1.metricToEmit = p.metric.filter (fun e => decide (e.1 ≤
      int64 (now - Int.tmod now p.batchWindow - int64 (p.batchWindow * p.windowOffset)))) ∧
    (tick p now).1.heap = p.heap ∧
    ((∀ e ∈ p.metric, ¬ e.1 ≤
        int64 (now - Int.tmod now p.batchWindow - int64 (p.batchWindow * p.windowOffset))) →
      (tick p now).1.metricToEmit = []) ∧
    (IsInt64 (p.batchWindow * p.windowOffset) →
      IsInt64 (now - Int.tmod now p.batchWindow - p.batchWindow * p.windowOffset) →
      int64 (now - Int.tmod now p.batchWindow - int64 (p.batchWindow * p.windowOffset))
        = now - Int.tmod now p.batchWindow - p.batchWindow * p.windowOffset) := by
  have hsel : (tick p now).2 = none ∧
      (tick p now).1.metricToEmit = p.metric.filter (fun e => decide (e.1 ≤
        int64 (now - Int.tmod now p.batchWindow - int64 (p.batchWindow * p.windowOffset)))) ∧
      (tick p now).1.heap = p.heap := by
    by_cases hne : p.metric = []
    · have htick : tick p now = (p, none) := by simp [tick, hne]
      rw [htick]
      simp [hslot, hne]
    · rw [tick_eq_of_slot_empty now hinv hslot hne, windowStart_eq _ hnow]
      exact ⟨rfl, selectToEmit_eq_filter hinv.metricKeys _, rfl⟩
  refine ⟨hsel.1, hsel.2.1, hsel.2.2, ?_, ?_⟩
  · intro hnone
    rw [hsel.2.1, List.filter_eq_nil_iff]
    intro e he
    simpa using hnone e he
  · intro h1 h2
    rw [int64_of_isInt64 h1, int64_of_isInt64 h2]

/-- Witness of C9: a tick at time 110 on the store holding bucket 100 publishes that
bucket. -/
theorem tick_selects_witness :
    (tick { sharedPlugin with metricToEmit := [] } 110).1.metricToEmit = [(100, 0)] := by
  have h := (tick_selects { sharedPlugin with metricToEmit := [] } 110
    ⟨by decide, by decide, by decide, by decide, by decide, by decide, by decide, by decide,
      by decide, by decide, by decide, by decide⟩ rfl (by decide)).2.1
  rw [h]
  decide

/-- C10: in cumulative mode (`accumulatateMode == 0`), at a rotation tick with an empty
handoff slot the call returns normally, a bucket with key k that was in the Bucket Store is
absent afterwards exactly when `current_bucket - k > reserveWindow`
(`current_bucket = now - now % batchWindow`), every other bucket is still present with the
same bucket object, which is untouched, also when the same tick selected it into the
snapshot, and no bucket is added.  The subtraction `current_bucket - reserveWindow` of line
121 is assumed not to overflow `int64`. -/
theorem tick_cumulative_retention (p : LinkStatsMetricFilter) (now : Int) (hinv : Inv p)
    (hslot : p.metricToEmit = []) (hmode : p.accumulatateMode = 0) (hnow : IsInt64 now)
    (hsub : IsInt64 (now - Int.tmod now p.batchWindow - p.reserveWindow)) :
    (tick p now).2 = none ∧
    (tick p now).1.heap = p.heap ∧
    (tick p now).1.metric = p.metric.filter
      (fun e => decide (¬ (now - Int.tmod now p.batchWindow - e.1 > p.reserveWindow))) ∧
    (∀ k r, GoMap.index p.metric k = some r →
      (now - Int.tmod now p.batchWindow - k > p.reserveWindow →
        GoMap.index (tick p now).1.metric k = none) ∧
      (¬ (now - Int.tmod now p.batchWindow - k > p.reserveWindow) →
        GoMap.index (tick p now).1.metric k = some r)) ∧
    (∀ k, GoMap.index p.metric k = none → GoMap.index (tick p now).1.metric k = none) := by
  have hfil : (tick p now).2 = none ∧ (tick p now).1.heap = p.heap ∧
      (tick p now).1.metric = p.metric.filter
        (fun e => decide (¬ (now - Int.tmod now p.batchWindow - e.1 > p.reserveWindow))) := by
    by_cases hne : p.metric = []
    · have htick : tick p now = (p, none) := by simp [tick, hne]
      rw [htick]
      simp [hne]
    · have hm : p.accumulatateMode ≠ 1 := by rw [hmode]; decide
      rw [tick_eq_of_slot_empty now hinv hslot hne, windowStart_eq _ hnow,
        int64_of_isInt64 hsub]
      refine ⟨rfl, rfl, ?_⟩
      simp only [hm, if_false]
      rw [retain_eq_filter hinv.metricKeys]
      congr 1
      funext e
      apply decide_eq_decide.2
      constructor <;> intro h <;> omega
  have hnd : ((tick p now).1.metric.map Prod.fst).Nodup := by
    rw [hfil.2.2]
    exact List.Nodup.sublist (List.Sublist.map _ (List.filter_sublist _)) hinv.metricKeys
  refine ⟨hfil.1, hfil.2.1, hfil.2.2, ?_, ?_⟩
  · intro k r hi
    constructor
    · intro hgt
      rw [index_eq_none_iff, hfil.2.2]
      intro hmem
      obtain ⟨e, he, hek⟩ := List.mem_map.1 hmem
      have := (List.mem_filter.1 he).2
      simp only [decide_eq_true_eq] at this
      rw [hek] at this
      exact this hgt
    · intro hle
      apply index_of_mem hnd
      rw [hfil.2.2]
      exact List.mem_filter.2 ⟨mem_of_index hi, by simpa using hle⟩
  · intro k hi
    rw [index_eq_none_iff] at hi ⊢
    rw [hfil.2.2]
    intro hmem
    obtain ⟨e, he, hek⟩ := List.mem_map.1 hmem
    exact hi (List.mem_map.2 ⟨e, (List.mem_filter.1 he).1, hek⟩)

/-- Witness of C10: at time 200 the bucket 100 is older than the retention horizon 60 of
`hostPlugin` and the tick drops it. -/
theorem tick_cumulative_retention_witness :
    (tick { sharedPlugin with metricToEmit := [] } 200).1.metric = [] := by
  have h := (tick_cumulative_retention { sharedPlugin with metricToEmit := [] } 200
    ⟨by decide, by decide, by decide, by decide, by decide, by decide, by decide, by decide,
      by decide, by decide, by decide, by decide⟩ rfl rfl (by decide) (by decide)).2.2.1
  rw [h]
  decide

/-! ## C11: the wipe of separate mode -/

/-- C11: in separate mode (`accumulatateMode == 1`), at a rotation tick with an empty
handoff slot the call returns normally and the Bucket Store is empty afterwards, whatever
the threshold selected: the handoff slot holds the entries with a key at most the threshold
and the other buckets are in neither map. -/
theorem tick_separate_wipe (p : LinkStatsMetricFilter) (now : Int) (hinv : Inv p)
    (hslot : p.metricToEmit = []) (hmode : p.accumulatateMode = 1) :
    (tick p now).2 = none ∧ (tick p now).1.metric = [] ∧
    (tick p now).1.metricToEmit = p.metric.filter (fun e => decide (e.1 ≤
      int64 (windowStart p.batchWindow now - int64 (p.batchWindow * p.windowOffset)))) := by
  by_cases hne : p.metric = []
  · have htick : tick p now = (p, none) := by simp [tick, hne]
    rw [htick]
    simp [hne, hslot]
  · rw [tick_eq_of_slot_empty now hinv hslot hne]
    refine ⟨rfl, ?_, selectToEmit_eq_filter hinv.metricKeys _⟩
    simp only [hmode, if_true]

/-- Witness of C11: with an emission delay of two windows the bucket 100 is not eligible at
time 110; the tick of separate mode drops it from the store without publishing it. -/
theorem tick_separate_wipe_witness :
    (tick { sharedPlugin with metricToEmit := [], accumulatateMode := 1, windowOffset := 2 }
      110).1.metric = [] ∧
    (tick { sharedPlugin with metricToEmit := [], accumulatateMode := 1, windowOffset := 2 }
      110).1.metricToEmit = [] := by
  have h := tick_separate_wipe
    { sharedPlugin with metricToEmit := [], accumulatateMode := 1, windowOffset := 2 } 110
    ⟨by decide, by decide, by decide, by decide, by decide, by decide, by decide, by decide,
      by decide, by decide, by decide, by decide⟩ rfl rfl
  refine ⟨h.2.1, ?_⟩
  rw [h.2.2]
  decide

/-! ## C12: the output of the flattener -/

/-- C12: for a field path of pairwise distinct names, none of them `count`, `sum` or
`mean`, and a well-formed tree of its depth (leaves under the key `lastField` with a whole
`count` of at least 1, distinct keys in every map), `metricToEvents(tree, 0)` returns, in
the order of its traversal, exactly one record per LeafStats of the tree: the leaves listed
are those that `leafAt` finds, none twice, and the record of the leaf under the grouping
values v_1..v_n with stats (c, s) is the grouping fields with these values, `lastField` with
its own name, `count` c (as an integer), `sum` s and `mean` s / c, the `float64` quotient,
with c not zero. -/
theorem metricToEvents_records (p : LinkStatsMetricFilter) (tree : Bucket)
    (hsplit : p.fields = p.fieldsWithoutLast ++ [p.lastField])
    (hlen : p.fieldsLength = p.fields.length) (hnd : p.fields.Nodup)
    (hcount : "count" ∉ p.fields) (hsum : "sum" ∉ p.fields) (hmean : "mean" ∉ p.fields)
    (htree : treeOK p.lastField p.fieldsWithoutLast.length tree = true)
    (hkeys : keysOK p.fieldsWithoutLast.length tree = true) :
    metricToEvents p tree 0
      = Except.ok ((leafPaths p.fieldsWithoutLast.length tree).map
          (fun l => expectedRecord p l.1 l.2.2)) ∧
    ((leafPaths p.fieldsWithoutLast.length tree).map (fun l => l.1)).Nodup ∧
    (∀ vals stats, (vals, p.lastField, stats) ∈ leafPaths p.fieldsWithoutLast.length tree
      ↔ leafAt tree vals p.lastField = some stats) ∧
    (∀ l ∈ leafPaths p.fieldsWithoutLast.length tree,
      l.1.length = p.fieldsWithoutLast.length ∧ l.2.1 = p.lastField ∧
      Float64.finite ((toInt (GoMap.read0 l.2.2 "count") : Int) : ℚ)
        = GoMap.read0 l.2.2 "count" ∧
      GoMap.read0 l.2.2 "count" ≠ 0) := by
  have hspec := leafPaths_spec p.lastField _ tree htree hkeys
  have hleaf := leafPaths_treeOK p.lastField _ tree htree
  refine ⟨?_, hspec.2, hspec.1, ?_⟩
  · rw [metricToEvents_eq_of_fields hsplit hlen (treeOK_shape _ _ _ htree)]
    congr 1
    apply List.map_congr_left
    intro l hl
    obtain ⟨h1, h2, _⟩ := hleaf l hl
    rw [hsplit] at hnd hcount hsum hmean
    rw [hsplit, h2]
    exact (recordOf_eq p.lastField p.lastField l.2.2 p.fieldsWithoutLast l.1 h1 hnd hcount
      hsum hmean).1
  · intro l hl
    obtain ⟨h1, h2, h3⟩ := hleaf l hl
    exact ⟨h1, h2, (toInt_of_statsOK h3).1, (toInt_of_statsOK h3).2⟩

/-- Witness of C12: the path `dimension1->dimension2->latency` with the grouping values
`A`, `B` and the stats `count = 3`, `sum = 9` gives the record with `mean = 3` and
`latency: "latency"`. -/
theorem metricToEvents_records_witness :
    metricToEvents latencyPlugin latencyTree 0
      = Except.ok [[("dimension1", Value.string "A"), ("dimension2", Value.string "B"),
          ("latency", Value.string "latency"), ("count", Value.int 3),
          ("sum", Value.float64 9), ("mean", Value.float64 3)]] := by
  rw [(metricToEvents_records latencyPlugin latencyTree (by decide) (by decide) (by decide)
    (by decide) (by decide) (by decide) (by decide!) (by decide)).1]
  decide!

/-! ## C13: the drain -/

/-- C13: with an empty handoff slot `EmitExtraEvents` pushes nothing and changes no state.
With an occupied slot, `metricToEvents(slot[k], 0)` returns for every bucket of the slot,
and the call returns normally after pushing, for every bucket key k of the slot, exactly the
records of `metricToEvents(slot[k], 0)`, each with the timestamp attribute set to
`time.Unix(k, 0)` and passed through `PostProcess` with the flag true, and nothing else;
afterwards the slot is empty and the Bucket Store (`metric` and the bucket objects) is
unchanged. -/
theorem EmitExtraEvents_drains (postProcess : Event → Bool → Event)
    (p : LinkStatsMetricFilter) (sTo : List Event) (hinv : Inv p) :
    (p.metricToEmit = [] → EmitExtraEvents postProcess p sTo = (p, sTo, none)) ∧
    (p.metricToEmit ≠ [] →
      (∀ e ∈ p.metricToEmit,
        metricToEvents p (deref p.heap e.2) 0 = Except.ok (flattened p (deref p.heap e.2))) ∧
      EmitExtraEvents postProcess p sTo
        = ({ p with metricToEmit := [] },
            sTo ++ p.metricToEmit.flatMap (fun e =>
              (flattened p (deref p.heap e.2)).map (fun event =>
                postProcess (GoMap.assign event p.timestamp (Value.time e.1)) true)),
            none)) := by
  constructor
  · intro h
    simp [EmitExtraEvents, h]
  · intro h
    have hok : ∀ e ∈ p.metricToEmit,
        metricToEvents p (deref p.heap e.2) 0
          = Except.ok (flattened p (deref p.heap e.2)) := by
      intro e he
      have hshape := hinv.shape _ (deref_mem (hinv.emitValid e he))
      rw [flattened_eq hinv hshape, metricToEvents_eq hinv hshape]
    have hlen : p.metricToEmit.length ≠ 0 := fun h0 => h (List.length_eq_zero.1 h0)
    refine ⟨hok, ?_⟩
    unfold EmitExtraEvents
    simp only [hlen, if_false]
    rw [drainLoop_eq postProcess _ _ (fun e he => ⟨_, hok e he⟩)]

/-- Witness of C13: the drain of `sharedPlugin`, whose slot holds bucket 100 with the leaf
(1, 1) of host `h1`, with the identity as `PostProcess` and an empty stack. -/
theorem EmitExtraEvents_drains_witness :
    EmitExtraEvents (fun e _ => e) sharedPlugin []
      = ({ sharedPlugin with metricToEmit := [] },
          [[("host", Value.string "h1"), ("metric", Value.string "metric"),
            ("count", Value.int 1), ("sum", Value.float64 1), ("mean", Value.float64 1),
            ("@timestamp", Value.time 100)]], none) := by
  rw [((EmitExtraEvents_drains (fun e _ => e) sharedPlugin [] inv_sharedPlugin).2
    (by decide)).2]
  decide!

/-! ## C14: the end-to-end run -/

/-- C14 (as stated, refuted): the emitted `sum` is not always the sum of the values.  The
plugin constructed from `hostConfig` accepts three events of host `h1` into bucket 100 with
the values 1e16, 1 and 1; the tick at time 110 and the drain emit one record with
`count = 3` and `sum = 1e16`, although 1e16 and the sum of the three values, 1e16 + 2, are
`float64` values (`round64` leaves them as they are): each addition `1 + 1e16` of line 188
is rounded back to 1e16. -/
theorem drain_sum_rounds :
    (∀ c ∈ [((105 : Int), hostEvent 10000000000000000 103), (106, hostEvent 1 104),
        (107, hostEvent 1 100)], hostAccepted "h1" 100 c) ∧
    (100 : Int) ≤ 110 - Int.tmod 110 10 ∧
    (EmitExtraEvents (fun e _ => e)
      (tick (ingestAll hostPlugin
        [(105, hostEvent 10000000000000000 103), (106, hostEvent 1 104),
          (107, hostEvent 1 100)]) 110).1 []).2
      = ([[("host", Value.string "h1"), ("metric", Value.string "metric"),
            ("count", Value.int 3), ("sum", Value.float64 10000000000000000),
            ("mean", Value.float64 (10000000000000000 / 3)),
            ("@timestamp", Value.time 100)]], none) ∧
    (([((105 : Int), hostEvent 10000000000000000 103), (106, hostEvent 1 104),
        (107, hostEvent 1 100)].map (fun c => (metricValue c).toRat)).sum
      = 10000000000000002) ∧
    Float64.round64 10000000000000000 = 10000000000000000 ∧
    Float64.round64 10000000000000002 = Float64.finite 10000000000000002 ∧
    (10000000000000000 : Float64) ≠ Float64.finite 10000000000000002 := by
  refine ⟨?_, by decide, by decide!, by decide!, by decide!, by decide!, by decide!⟩
  intro c hc
  simp only [List.mem_cons, List.mem_singleton, List.not_mem_nil, or_false] at hc
  rcases hc with rfl | rfl | rfl
  · exact ⟨by decide!, ⟨10000000000000000, by decide!⟩, 103, by decide!, by decide,
      by decide, by decide, by decide⟩
  · exact ⟨by decide!, ⟨1, by decide!⟩, 104, by decide!, by decide, by decide, by decide,
      by decide⟩
  · exact ⟨by decide!, ⟨1, by decide!⟩, 100, by decide!, by decide, by decide, by decide,
      by decide⟩

/-- C14 (amended): the plugin constructed from `hostConfig` (`fieldsLink: "host->metric"`,
window 10, retention 60, no emission delay, cumulative mode) ingests a non-empty list of at
most 2^53 accepted events of one host `h` whose timestamps lie in the window of bucket `k`,
each at its own `now`; a rotation tick runs at a time whose window starts at `k` or later;
then a drain runs on an empty stack.  Every event is accepted into bucket `k`, the tick and
the drain return normally, and the stack receives exactly one record (passed through
`PostProcess` with the flag true): `host` = `h`, `metric` = "metric", `count` = the number
of events, `sum` = the values accumulated by `float64` additions in the order of ingestion
(`accumulate`), `mean` = the `float64` quotient of `sum` and `count`, and `@timestamp` =
`time.Unix(k, 0)`; the handoff slot is empty afterwards.  When the values are whole numbers
whose absolute values add up to at most 2^53, `sum` is their exact sum. -/
theorem end_to_end (postProcess : Event → Bool → Event) (calls : List (Int × Event))
    (h : String) (k now : Int) (hne : calls ≠ [])
    (hlen : calls.length ≤ 9007199254740992)
    (hall : ∀ c ∈ calls, hostAccepted h k c) (hnow : IsInt64 now)
    (hk : k ≤ now - Int.tmod now 10) :
    NewLinkStatsMetricFilter hostConfig = Except.ok hostPlugin ∧
    (∀ c ∈ calls, acceptedAt hostPlugin c.1 c.2 = some (k, metricValue c)) ∧
    (tick (ingestAll hostPlugin calls) now).2 = none ∧
    (EmitExtraEvents postProcess (tick (ingestAll hostPlugin calls) now).1 []).2
      = ([postProcess [("host", Value.string h), ("metric", Value.string "metric"),
            ("count", Value.int calls.length),
            ("sum", Value.float64 (accumulate (calls.map metricValue))),
            ("mean", Value.float64
              (accumulate (calls.map metricValue) / Float64.finite (calls.length : ℚ))),
            ("@timestamp", Value.time k)] true],
          none) ∧
    (EmitExtraEvents postProcess (tick (ingestAll hostPlugin calls) now).1 []).1.metricToEmit
      = [] ∧
    ((∀ c ∈ calls, (metricValue c).isWhole = true) →
      (calls.map (fun c => |(metricValue c).toRat|)).sum ≤ 9007199254740992 →
      accumulate (calls.map metricValue)
        = Float64.finite ((calls.map (fun c => (metricValue c).toRat)).sum)) := by
  have hstate := ingestAll_hostPlugin hne hall hlen
  obtain ⟨t1, t2, m, t3⟩ := tick_hostState h k (Float64.finite (calls.length : ℚ))
    (accumulate (calls.map metricValue)) hnow hk
  refine ⟨by decide!, ?_, ?_, ?_, ?_, ?_⟩
  · intro c hc
    obtain ⟨h1, h2, t, ht, hage, hkk⟩ := hostAccepted_facts (hall c hc)
    have hg : groupValues c.2 hostPlugin.fieldsWithoutLast = some [h] := by
      simp [groupValues, hostPlugin, h1]
    have h2a : Event.read c.2 hostPlugin.lastField = Value.float64 (metricValue c) := h2
    have hta : GoMap.index c.2 hostPlugin.timestamp = some (Value.time t) := ht
    have hkk1 : windowStart hostPlugin.batchWindow t = k := hkk
    simp [acceptedAt, h2a, hta, hg, hage, hkk1]
  · rw [hstate]; exact t1
  · rw [hstate, t3, drain_hostState]
  · rw [hstate, t3, drain_hostState]
  · intro hw hb
    have h1 := accumulate_exact (calls.map metricValue)
      (by
        intro v hv
        obtain ⟨c, hc, rfl⟩ := List.mem_map.1 hv
        exact hw c hc)
      (by
        rw [List.map_map]
        exact hb)
    rw [h1, List.map_map]
    rfl

/-- Witness of C14 (amended): the values 1, 2 and 3 of host `h1` in the window of bucket
100, a tick at time 110 and a drain give one record with `count = 3`, `sum = 6` and
`mean = 2`; the accumulated sum is the exact sum 6. -/
theorem end_to_end_witness :
    (EmitExtraEvents (fun e _ => e)
      (tick (ingestAll hostPlugin
        [(105, hostEvent 1 103), (106, hostEvent 2 104), (107, hostEvent 3 100)]) 110).1 []).2
      = ([[("host", Value.string "h1"), ("metric", Value.string "metric"),
            ("count", Value.int 3), ("sum", Value.float64 6), ("mean", Value.float64 2),
            ("@timestamp", Value.time 100)]], none) ∧
    accumulate ([((105 : Int), hostEvent 1 103), (106, hostEvent 2 104),
      (107, hostEvent 3 100)].map metricValue) = Float64.finite 6 := by
  have hall : ∀ c ∈ [((105 : Int), hostEvent 1 103), (106, hostEvent 2 104),
      (107, hostEvent 3 100)], hostAccepted "h1" 100 c := by
    intro c hc
    simp only [List.mem_cons, List.mem_singleton, List.not_mem_nil, or_false] at hc
    rcases hc with rfl | rfl | rfl
    · exact ⟨by decide!, ⟨1, by decide!⟩, 103, by decide!, by decide, by decide, by decide,
        by decide⟩
    · exact ⟨by decide!, ⟨2, by decide!⟩, 104, by decide!, by decide, by decide, by decide,
        by decide⟩
    · exact ⟨by decide!, ⟨3, by decide!⟩, 100, by decide!, by decide, by decide, by decide,
        by decide⟩
  have h := end_to_end (fun e _ => e)
    [(105, hostEvent 1 103), (106, hostEvent 2 104), (107, hostEvent 3 100)] "h1" 100 110
    (by decide) (by decide) hall (by decide) (by decide)
  constructor
  · rw [h.2.2.2.1]
    decide!
  · rw [h.2.2.2.2.2 (by decide!) (by decide!)]
    decide!

/-! ## C15: the passthrough of Process -/

/-- C15: when `updateMetric` returns for an event, `Process` returns the same event and
`false` if `dropOriginalEvent` is false, and nil and `false` if it is true, whether the
event was accepted into a bucket or dropped; the state after `Process` is the state after
`updateMetric`. -/
theorem Process_passthrough (p : LinkStatsMetricFilter) (now : Int) (ev : Event)
    (h : (updateMetric p now ev).2 = none) :
    (Process p now ev).1 = (updateMetric p now ev).1 ∧
    (Process p now ev).2
      = Except.ok (if p.dropOriginalEvent then none else some ev, false) := by
  obtain ⟨m, hp, hcfg⟩ := updateMetric_config p now ev
  have hd : (updateMetric p now ev).1.dropOriginalEvent = p.dropOriginalEvent := by
    rw [hcfg]
  unfold Process
  cases hu : updateMetric p now ev with
  | mk q e =>
    rw [hu] at h hd
    simp only at h hd
    subst h
    simp only [hd]
    cases p.dropOriginalEvent <;> simp

/-- Witness of C15: an accepted event and a stale event both pass through `hostPlugin`,
which does not drop the original event. -/
theorem Process_passthrough_witness :
    (Process hostPlugin 105 (hostEvent 1 103)).2 = Except.ok (some (hostEvent 1 103), false) ∧
    (Process hostPlugin 200 (hostEvent 1 103)).2 = Except.ok (some (hostEvent 1 103), false) :=
  ⟨(Process_passthrough hostPlugin 105 (hostEvent 1 103) (by decide!)).2,
    (Process_passthrough hostPlugin 200 (hostEvent 1 103) (by decide!)).2⟩

/-! ## C16: the depth invariant -/

/-- C16 (the code departs from the claim): a reachable bucket need not be a full tree.
The plugin constructed from `pathConfig` reaches, by one call of `updateMetric` that
returns, a store whose bucket 100 is the tree with the single branch `d1`, an empty map
with no leaf below it; the next tick puts the same bucket into the handoff slot.  This is
the early return of line 174 after the writes of lines 166 and 180. -/
theorem reachable_empty_level :
    NewLinkStatsMetricFilter pathConfig = Except.ok pathPlugin ∧
    Reachable (fun e _ => e) pathConfig (updateMetric pathPlugin 105 dcOnlyEvent).1 ∧
    Reachable (fun e _ => e) pathConfig
      (tick (updateMetric pathPlugin 105 dcOnlyEvent).1 110).1 ∧
    bucketAt (updateMetric pathPlugin 105 dcOnlyEvent).1.heap
      (updateMetric pathPlugin 105 dcOnlyEvent).1.metric 100 = some [("d1", Node.mapSI [])] ∧
    bucketAt (tick (updateMetric pathPlugin 105 dcOnlyEvent).1 110).1.heap
      (tick (updateMetric pathPlugin 105 dcOnlyEvent).1 110).1.metricToEmit 100
      = some [("d1", Node.mapSI [])] ∧
    fullTree (pathPlugin.fields.length - 1) [("d1", Node.mapSI [])] = false := by
  have h0 : Reachable (fun e _ => e) pathConfig pathPlugin := Reachable.construct (by decide!)
  have h1 := Reachable.ingest 105 dcOnlyEvent h0 (by decide!)
  exact ⟨by decide!, h1, Reachable.rotate 110 h1, by decide!, by decide!, by decide⟩

/-! ## C17: the lock discipline -/

/-- C17 (the code departs from the claim): only the rotation tick holds the mutex around
its accesses of the shared maps.  `updateMetric` never takes the lock: for an accepted
event it reads `plugin.metric` at line 162 and writes it at line 166 with the mutex free.
`EmitExtraEvents` reads `len(plugin.metricToEmit)` at line 238, before its `Lock` of line
241, in every state. -/
theorem lock_discipline :
    (∀ p : LinkStatsMetricFilter, p.batchWindow ≠ 0 → lockedThroughout false (tickOps p) = true) ∧
    updateMetricOps hostPlugin 105 (hostEvent 1 103) = [Op.access 162, Op.access 166] ∧
    lockedThroughout false (updateMetricOps hostPlugin 105 (hostEvent 1 103)) = false ∧
    (∀ p : LinkStatsMetricFilter, lockedThroughout false (EmitExtraEventsOps p) = false) := by
  refine ⟨?_, by decide!, by decide!, ?_⟩
  · intro p hW
    unfold tickOps
    by_cases h1 : p.metric.length > 0
    · by_cases h2 : p.metricToEmit.length = 0
      · by_cases h3 : p.accumulatateMode = 1
        · simp [h1, h2, h3, hW, lockedThroughout]
        · simp [h1, h2, h3, hW, lockedThroughout]
      · simp [h1, h2, lockedThroughout]
    · simp [h1, lockedThroughout]
  · intro p
    simp [EmitExtraEventsOps, lockedThroughout]

/-! ## C18: conservation of counts and sums -/

/-- C18 (as stated, refuted): the `sum` attributes do not always add up to the exact sum of
the accepted values.  Three calls on the empty `hostPlugin` are accepted into bucket 100
with the values 1e16, 1 and 1; the single record of the bucket carries the sum 1e16, and
the exact sum of the values is 1e16 + 2: the `float64` additions of line 188 lose both
ones (1e16 is a `float64`: `round64` leaves it as it is). -/
theorem ingestAll_sum_rounds :
    hostPlugin.metric = [] ∧
    [((105 : Int), hostEvent 10000000000000000 103), (105, hostEvent 1 104),
        (106, hostEvent 1 102)].filterMap (acceptedInto hostPlugin 100)
      = [10000000000000000, 1, 1] ∧
    bucketAt
      (ingestAll hostPlugin [(105, hostEvent 10000000000000000 103), (105, hostEvent 1 104),
        (106, hostEvent 1 102)]).heap
      (ingestAll hostPlugin [(105, hostEvent 10000000000000000 103), (105, hostEvent 1 104),
        (106, hostEvent 1 102)]).metric 100
      = some [("h1", Node.mapSI [("metric",
          Node.mapSF [("count", 3), ("sum", 10000000000000000)])])] ∧
    ((flattened
      (ingestAll hostPlugin [(105, hostEvent 10000000000000000 103), (105, hostEvent 1 104),
        (106, hostEvent 1 102)])
      [("h1", Node.mapSI [("metric",
        Node.mapSF [("count", 3), ("sum", 10000000000000000)])])]).map recordSum).sum
      = 10000000000000000 ∧
    (([10000000000000000, 1, 1] : List Float64).map Float64.toRat).sum
      = 10000000000000002 ∧
    Float64.round64 10000000000000000 = 10000000000000000 := by
  refine ⟨rfl, by decide!, by decide!, by decide!, by decide!, by decide!⟩

/-- C18 (amended): after any sequence of calls of `updateMetric` (each with its own `now`,
no rotation tick in between) on a plugin with an empty store, of which at most 2^53 are
accepted into bucket k: if the store holds bucket k, `metricToEvents(store[k], 0)` returns
and the `count` attributes of its records add up to the number of calls of the sequence that
were accepted into bucket k; if moreover the measured values of those calls are whole
numbers whose absolute values add up to at most 2^53, every `sum` attribute is a finite
`float64` and the `sum` attributes add up to the exact sum of those values (no addition of
line 188 rounds).  When the store holds no bucket k, no call was accepted into k.  The calls
that were dropped, or that panicked, count for neither. -/
theorem ingestAll_conserves (p : LinkStatsMetricFilter) (calls : List (Int × Event))
    (k : Int) (hinv : Inv p) (hempty : p.metric = [])
    (hn : (calls.filterMap (acceptedInto p k)).length ≤ 9007199254740992) :
    (∀ b, bucketAt (ingestAll p calls).heap (ingestAll p calls).metric k = some b →
      metricToEvents (ingestAll p calls) b 0 = Except.ok (flattened (ingestAll p calls) b) ∧
      ((flattened (ingestAll p calls) b).map recordCount).sum
        = ((calls.filterMap (acceptedInto p k)).length : Int) ∧
      ((∀ v ∈ calls.filterMap (acceptedInto p k), v.isWhole = true) →
        ((calls.filterMap (acceptedInto p k)).map (fun v => |v.toRat|)).sum
          ≤ 9007199254740992 →
        (∀ e ∈ flattened (ingestAll p calls) b,
          ∃ x : ℚ, Event.read e "sum" = Value.float64 (Float64.finite x)) ∧
        ((flattened (ingestAll p calls) b).map recordSum).sum
          = ((calls.filterMap (acceptedInto p k)).map Float64.toRat).sum)) ∧
    (bucketAt (ingestAll p calls).heap (ingestAll p calls).metric k = none →
      calls.filterMap (acceptedInto p k) = []) := by
  have hq := ingestAll_inv hinv calls
  have h0 : ∀ g, storeTotal g p k = 0 := by
    intro g
    simp [storeTotal, hempty, GoMap.index]
  have hc1 : ∀ v : Float64, (GoMap.read0 (newStats v) "count").isWhole = true := by
    intro v
    rw [read0_newStats_count]
    rfl
  have hc2 : ∀ v : Float64, keyAbs "count" (newStats v) = 1 := by
    intro v
    simp only [keyAbs, read0_newStats_count]
    show |((1 : Nat) : ℚ)| = 1
    norm_num
  have hc3 : ∀ v : Float64, keyValue "count" (newStats v) = 1 := by
    intro v
    simp only [keyValue, read0_newStats_count]
    show ((1 : Nat) : ℚ) = 1
    norm_num
  have hcount := ingestAll_exact "count" (Or.inl rfl) k calls p hinv (h0 _)
    (fun v _ => hc1 v)
    (by
      rw [h0, zero_add]
      simp only [hc2, List.map_const', List.sum_replicate, nsmul_eq_mul, mul_one]
      exact_mod_cast hn)
  rw [h0, zero_add] at hcount
  simp only [hc3, List.map_const', List.sum_replicate, nsmul_eq_mul, mul_one] at hcount
  constructor
  · intro b hb
    simp only [bucketAt, Option.map_eq_some'] at hb
    obtain ⟨r, hr, rfl⟩ := hb
    have hvalid := hq.metricValid _ (mem_of_index hr)
    obtain ⟨f1, f2, f3, f4⟩ := flattened_totals hq (hq.shape _ (deref_mem hvalid))
    rw [← storeTotal_eq hr (keyDefect "count"), ← storeTotal_eq hr (keyValue "count")] at f2
    rw [← storeTotal_eq hr (keyValue "sum")] at f3
    rw [← storeTotal_eq hr (keyDefect "sum")] at f4
    refine ⟨f1, ?_, ?_⟩
    · have : ((((flattened (ingestAll p calls) (deref (ingestAll p calls).heap r)).map
          recordCount).sum : Int) : ℚ)
          = (((calls.filterMap (acceptedInto p k)).length : Int) : ℚ) := by
        rw [f2 hcount.1, hcount.2]
        simp
      exact_mod_cast this
    · intro hw hb
      have hsum := ingestAll_exact "sum" (Or.inr rfl) k calls p hinv (h0 _)
        (by
          intro v hv
          rw [read0_newStats_sum]
          exact hw v hv)
        (by
          rw [h0, zero_add]
          simp only [keyAbs, read0_newStats_sum]
          exact hb)
      rw [h0, zero_add] at hsum
      simp only [keyValue, read0_newStats_sum] at hsum
      refine ⟨f4 hsum.1, ?_⟩
      rw [f3]
      exact hsum.2
  · intro hb
    simp only [bucketAt, Option.map_eq_none'] at hb
    have hz := hcount.2
    simp only [storeTotal, hb] at hz
    have : (calls.filterMap (acceptedInto p k)).length = 0 := by exact_mod_cast hz.symm
    exact List.length_eq_zero.1 this

/-- Witness of C18 (amended): three events of host `h1` for bucket 100, an event that is
stale and an event without host, ingested into the empty `hostPlugin`: the record of bucket
100 carries the count 3 and the sum 6. -/
theorem ingestAll_conserves_witness :
    ((flattened (ingestAll hostPlugin
        [(105, hostEvent 1 103), (200, hostEvent 7 100), (106, hostEvent 2 104),
          (106, [("metric", Value.float64 5), ("@timestamp", Value.time 104)]),
          (107, hostEvent 3 100)])
      [("h1", Node.mapSI [("metric", Node.mapSF [("count", 3), ("sum", 6)])])]).map
        recordCount).sum = 3 ∧
    ((flattened (ingestAll hostPlugin
        [(105, hostEvent 1 103), (200, hostEvent 7 100), (106, hostEvent 2 104),
          (106, [("metric", Value.float64 5), ("@timestamp", Value.time 104)]),
          (107, hostEvent 3 100)])
      [("h1", Node.mapSI [("metric", Node.mapSF [("count", 3), ("sum", 6)])])]).map
        recordSum).sum = 6 := by
  have h := (ingestAll_conserves hostPlugin
    [(105, hostEvent 1 103), (200, hostEvent 7 100), (106, hostEvent 2 104),
      (106, [("metric", Value.float64 5), ("@timestamp", Value.time 104)]),
      (107, hostEvent 3 100)] 100 inv_hostPlugin rfl (by decide!)).1
    [("h1", Node.mapSI [("metric", Node.mapSF [("count", 3), ("sum", 6)])])]
    (by decide!)
  constructor
  · rw [h.2.1]
    decide!
  · rw [(h.2.2 (by decide!) (by decide!)).2]
    decide!

/-! ## C19: flattening a reachable tree is safe -/

/-- C19: in every state reachable from a plugin constructed from a typed configuration by
calls of `updateMetric` that return, rotation ticks and drains, for every bucket of the
Bucket Store and of the handoff slot `metricToEvents(bucket, 0)` returns (no type assertion
fails and no index of `plugin.fields` is out of range): the bucket is a tree in which every
map above depth `fieldsLength - 1` maps to maps only and every map at that depth maps only
the key `lastField`, to a stats map; and every LeafStats has a `count` of at least 1, so
that the divisor of `mean` is not zero. -/
theorem reachable_flatten_safe (postProcess : Event → Bool → Event) (config : Config)
    (p : LinkStatsMetricFilter) (hc : config.typed)
    (h : Reachable postProcess config p) :
    ∀ e ∈ p.metric ++ p.metricToEmit,
      (∃ evs, metricToEvents p (deref p.heap e.2) 0 = Except.ok evs) ∧
      treeOK p.lastField (p.fieldsLength - 1) (deref p.heap e.2) = true ∧
      ∀ l ∈ leafPaths (p.fieldsLength - 1) (deref p.heap e.2),
        l.2.1 = p.lastField ∧
        ∃ c : ℚ, GoMap.read0 l.2.2 "count" = Float64.finite c ∧ 1 ≤ c := by
  intro e he
  have ht := reachable_treeInv hc h
  have hinv := ht.inv
  have hlen : p.fieldsLength - 1 = p.fieldsWithoutLast.length := by
    rw [hinv.fieldsLen, hinv.fieldsSplit]
    simp
  have hvalid : e.2 < p.heap.length := by
    rcases List.mem_append.1 he with h1 | h1
    · exact hinv.metricValid e h1
    · exact hinv.emitValid e h1
  have htree := treeInRange_treeOK _ _ _ (ht.trees _ (deref_mem hvalid))
  rw [hlen]
  refine ⟨⟨_, metricToEvents_eq hinv (treeOK_shape _ _ _ htree)⟩, htree, ?_⟩
  intro l hl
  obtain ⟨_, h2, h3⟩ := leafPaths_treeOK _ _ _ htree l hl
  obtain ⟨c, hc, h1, _⟩ := statsOK_iff.1 h3
  exact ⟨h2, c, hc, h1⟩

/-- Witness of C19: `sharedPlugin` is reached from the plugin constructed from `hostConfig`
by one ingest and one tick; the bucket of its store flattens to one record. -/
theorem reachable_flatten_safe_witness :
    ∃ evs, metricToEvents sharedPlugin (deref sharedPlugin.heap 0) 0 = Except.ok evs := by
  have hr : Reachable (fun e _ => e) hostConfig sharedPlugin := by
    have h0 : Reachable (fun e _ => e) hostConfig hostPlugin :=
      Reachable.construct (by decide!)
    have h1 := Reachable.rotate 110 (Reachable.ingest 105 (hostEvent 1 103) h0 (by decide!))
    have he : (tick (updateMetric hostPlugin 105 (hostEvent 1 103)).1 110).1 = sharedPlugin := by
      decide!
    rw [he] at h1
    exact h1
  exact (reachable_flatten_safe (fun e _ => e) hostConfig sharedPlugin
    ⟨by decide, by decide, by decide, by decide⟩ hr (100, 0) (by decide)).1

/-! ## C20: retired buckets are published -/

/-- C20: in cumulative mode with `batchWindow > 0`, `windowOffset ≥ 0` and
`batchWindow * windowOffset ≤ reserveWindow`, every bucket that a rotation tick removes
from the Bucket Store is in the snapshot that the same tick puts into the handoff slot,
with its bucket object, whatever the state.  `now` is an `int64` value that is not
negative. -/
theorem tick_retired_is_published (p : LinkStatsMetricFilter) (now : Int) (hinv : Inv p)
    (hmode : p.accumulatateMode = 0) (hoff : 0 ≤ p.windowOffset)
    (hfit : p.batchWindow * p.windowOffset ≤ p.reserveWindow)
    (hnow : 0 ≤ now) (hnr : IsInt64 now) :
    ∀ k r, GoMap.index p.metric k = some r →
      GoMap.index (tick p now).1.metric k = none →
      GoMap.index (tick p now).1.metricToEmit k = some r := by
  intro k r hi hgone
  by_cases hslot : p.metricToEmit = []
  · have hne : p.metric ≠ [] := by
      intro h
      rw [h] at hi
      simp [GoMap.index] at hi
    have hm : p.accumulatateMode ≠ 1 := by rw [hmode]; decide
    have hb := tmod_bounds now p.batchWindow
    have hb1 := hb.1 hnow
    have hR := hinv.reserveRange
    have hprod : 0 ≤ p.batchWindow * p.windowOffset :=
      Int.mul_nonneg (le_of_lt hinv.windowPos) hoff
    have h1 : int64 (p.batchWindow * p.windowOffset) = p.batchWindow * p.windowOffset := by
      apply int64_of_isInt64
      unfold IsInt64 at hR ⊢
      omega
    have h2 : int64 (now - Int.tmod now p.batchWindow - p.batchWindow * p.windowOffset)
        = now - Int.tmod now p.batchWindow - p.batchWindow * p.windowOffset := by
      apply int64_of_isInt64
      unfold IsInt64 at hR hnr ⊢
      omega
    have h3 : int64 (now - Int.tmod now p.batchWindow - p.reserveWindow)
        = now - Int.tmod now p.batchWindow - p.reserveWindow := by
      apply int64_of_isInt64
      unfold IsInt64 at hR hnr ⊢
      omega
    rw [tick_eq_of_slot_empty now hinv hslot hne] at hgone ⊢
    simp only [hm, if_false, windowStart_eq _ hnr, h1, h2, h3,
      retain_eq_filter hinv.metricKeys, selectToEmit_eq_filter hinv.metricKeys] at hgone ⊢
    have hmem := mem_of_index hi
    have hnot : ¬ (k ≥ now - Int.tmod now p.batchWindow - p.reserveWindow) := by
      intro hge
      rw [index_eq_none_iff] at hgone
      apply hgone
      exact List.mem_map.2 ⟨(k, r), List.mem_filter.2 ⟨hmem, by simpa using hge⟩, rfl⟩
    apply index_of_mem
    · exact List.Nodup.sublist (List.Sublist.map _ (List.filter_sublist _)) hinv.metricKeys
    · refine List.mem_filter.2 ⟨hmem, ?_⟩
      simp only [decide_eq_true_eq]
      omega
  · have hlen : p.metricToEmit.length ≠ 0 := fun h0 => hslot (List.length_eq_zero.1 h0)
    have htick : tick p now = (p, none) := by simp [tick, hlen]
    rw [htick, hi] at hgone
    cases hgone

/-- Witness of C20: at time 200 the tick drops bucket 100 of the store of `sharedPlugin`
(retention horizon 60) and publishes it. -/
theorem tick_retired_is_published_witness :
    GoMap.index (tick { sharedPlugin with metricToEmit := [] } 200).1.metricToEmit 100
      = some 0 :=
  tick_retired_is_published { sharedPlugin with metricToEmit := [] } 200
    ⟨by decide, by decide, by decide, by decide, by decide, by decide, by decide, by decide,
      by decide, by decide, by decide, by decide⟩ rfl (by decide) (by decide) (by decide)
    (by decide) 100 0 (by decide) (by decide)

end LinkStats
